import Mathlib

/-!
Verification of the `repository` persistence layer (Go) against its
specification.  The Go source is shallowly embedded: SQL strings are
`List Char`, Go `any` values are an opaque `GoVal` datatype, and each Go
function that the claims mention is translated into an executable Lean
definition of the same name.  Theorems about the claims follow the
definitions.
-/

set_option maxHeartbeats 1000000

namespace RepoVerify

/-- Go strings are modelled as lists of unicode scalar values. -/
abbrev Str := List Char

/-- Models Go `any` values as they occur in specification arguments and
cursor maps: typed Go values (`int64`, `string`, `bool`, `nil`) plus the
numbers produced by JSON decoding (Go `float64`, modelled exactly as a
rational; the model covers scalar values only — nested JSON
containers are outside its scope). -/
inductive GoVal where
  | goInt (n : Int)
  | goStr (s : Str)
  | goBool (b : Bool)
  | goNull
  | goFloat (q : ℚ)
deriving DecidableEq

/-- Fuel-indexed helper for `natChars`; the fuel (any bound above the
value) only serves Lean's structural recursion and is provably
irrelevant. -/
def natCharsAux (fuel n : Nat) : Str :=
  match fuel with
  | 0 => []
  | fuel + 1 =>
    if n < 10 then [Nat.digitChar n]
    else natCharsAux fuel (n / 10) ++ [Nat.digitChar (n % 10)]

/-- Decimal digit characters of a natural number, as produced by Go's
`fmt.Sprintf("%d", n)` for non-negative `n`. -/
def natChars (n : Nat) : Str := natCharsAux (n + 1) n

/-- Embedding of the `Dialect` interface: only the members the
specification compiler consumes (`Placeholder`, `Now`, `ILikeOp`,
`QuoteIdent`); the upsert/batch-insert members differ per dialect and are
embedded as standalone functions below. -/
structure Dialect where
  Placeholder : Nat → Str
  Now : Str
  ILikeOp : Str
  QuoteIdent : Str → Str

/-- `postgresDialect` members from the source. -/
def Postgres : Dialect where
  Placeholder := fun n => '$' :: natChars n
  Now := "NOW()".toList
  ILikeOp := "ILIKE".toList
  QuoteIdent := fun name => '"' :: name ++ ['"']

/-- `mysqlDialect` members from the source. -/
def MySQL : Dialect where
  Placeholder := fun _ => ['?']
  Now := "NOW()".toList
  ILikeOp := "LIKE".toList
  QuoteIdent := fun name => '`' :: name ++ ['`']

/-- `sqliteDialect` members from the source. -/
def SQLite : Dialect where
  Placeholder := fun _ => ['?']
  Now := "datetime('now')".toList
  ILikeOp := "LIKE".toList
  QuoteIdent := fun name => '"' :: name ++ ['"']

/-- The `Spec` predicate tree of `spec.go`, one constructor per concrete
node type of the source. -/
inductive Spec where
  | comparisonSpec (column : Str) (op : Str) (value : GoVal)
  | inSpec (column : Str) (values : List GoVal) (negate : Bool)
  | likeSpec (column : Str) (pattern : Str) (ilike : Bool)
  | betweenSpec (column : Str) (lo : GoVal) (hi : GoVal)
  | nullSpec (column : Str) (isNot : Bool)
  | andSpec (specs : List Spec)
  | orSpec (specs : List Spec)
  | notSpec (s : Spec)
  | rawSpec (sql : Str) (args : List GoVal)

/-- Constructor helpers of `spec.go` (`Eq` is renamed `EqS` to avoid the
clash with Lean's built-in equality; likewise the other helpers gain an
`S` suffix for uniformity). -/
def EqS (column : Str) (value : GoVal) : Spec := .comparisonSpec column "=".toList value
def NotEqS (column : Str) (value : GoVal) : Spec := .comparisonSpec column "!=".toList value
def GtS (column : Str) (value : GoVal) : Spec := .comparisonSpec column ">".toList value
def GteS (column : Str) (value : GoVal) : Spec := .comparisonSpec column ">=".toList value
def LtS (column : Str) (value : GoVal) : Spec := .comparisonSpec column "<".toList value
def LteS (column : Str) (value : GoVal) : Spec := .comparisonSpec column "<=".toList value

/-- `strings.ReplaceAll` for a non-empty pattern: non-overlapping
leftmost replacement.  (The Go function's empty-pattern behaviour —
inserting between runes — is never exercised by the source, which always
passes non-empty patterns; the model leaves the string unchanged there.) -/
def replaceAll (s pat rep : Str) : Str :=
  match s with
  | [] => []
  | c :: cs =>
    if pat ≠ [] ∧ pat.isPrefixOf (c :: cs) then
      rep ++ replaceAll ((c :: cs).drop pat.length) pat rep
    else
      c :: replaceAll cs pat rep
termination_by s.length
decreasing_by
  · rename_i h
    simp only [List.length_drop, List.length_cons]
    have : pat.length ≥ 1 := by
      cases pat with
      | nil => exact absurd rfl h.1
      | cons p ps => simp
    omega
  · simp

/-- The `$i` token of the raw-SQL placeholder convention. -/
def dollarTok (i : Nat) : Str := '$' :: natChars i

/-- The unique intermediate token `__RAW_i__` of `rawSpec.ToSQL`. -/
def rawMarker (i : Nat) : Str := "__RAW_".toList ++ natChars i ++ "__".toList

/-- First rewrite pass of `rawSpec.ToSQL`: for `i` from `k` down to `1`,
replace `$i` by `__RAW_i__`. -/
def rawPassOne (k : Nat) (s : Str) : Str :=
  match k with
  | 0 => s
  | i + 1 => rawPassOne i (replaceAll s (dollarTok (i + 1)) (rawMarker (i + 1)))

/-- Second rewrite pass of `rawSpec.ToSQL`: for `i` from `1` up to `k`,
replace `__RAW_i__` by `d.Placeholder (offset + i - 1)`. -/
def rawPassTwo (d : Dialect) (offset : Nat) (k : Nat) (s : Str) : Str :=
  match k with
  | 0 => s
  | i + 1 => replaceAll (rawPassTwo d offset i s) (rawMarker (i + 1)) (d.Placeholder (offset + i))

/-- The string rewriting performed by `rawSpec.ToSQL`. -/
def rawRewrite (d : Dialect) (offset : Nat) (k : Nat) (s : Str) : Str :=
  rawPassTwo d offset k (rawPassOne k s)

/-- Result triple of `Spec.ToSQL`: SQL text, argument list, next offset. -/
abbrev SqlRes := Str × List GoVal × Nat

/-- `strings.Join` with a separator, on compiled parts. -/
def joinWithSep (sep : Str) : List Str → Str
  | [] => []
  | [p] => p
  | p :: p' :: rest => p ++ sep ++ joinWithSep sep (p' :: rest)

/-- The placeholder list built by `inSpec.ToSQL`, already joined by
`", "` as `strings.Join` does. -/
def inPlaceholders (d : Dialect) (offset k : Nat) : Str :=
  joinWithSep ", ".toList ((List.range k).map fun i => d.Placeholder (offset + i))

mutual

/-- `ToSQL` of every `Spec` node (`spec.go`), dispatching exactly as the
Go methods do. -/
def specToSQL (d : Dialect) (s : Spec) (offset : Nat) : SqlRes :=
  match s with
  | .comparisonSpec column op value =>
    (column ++ " ".toList ++ op ++ " ".toList ++ d.Placeholder offset, [value], offset + 1)
  | .inSpec column values negate =>
    if values.length = 0 then
      (if negate then "TRUE".toList else "FALSE".toList, [], offset)
    else
      ((column ++ " ".toList ++ (if negate then "NOT IN".toList else "IN".toList) ++ " (".toList
        ++ inPlaceholders d offset values.length ++ ")".toList),
       values, offset + values.length)
  | .likeSpec column pattern ilike =>
    (column ++ " ".toList ++ (if ilike then d.ILikeOp else "LIKE".toList) ++ " ".toList
      ++ d.Placeholder offset, [.goStr pattern], offset + 1)
  | .betweenSpec column lo hi =>
    (column ++ " BETWEEN ".toList ++ d.Placeholder offset ++ " AND ".toList
      ++ d.Placeholder (offset + 1), [lo, hi], offset + 2)
  | .nullSpec column isNot =>
    if isNot then (column ++ " IS NOT NULL".toList, [], offset)
    else (column ++ " IS NULL".toList, [], offset)
  | .andSpec specs => joinSpecs d specs " AND ".toList "TRUE".toList offset
  | .orSpec specs => joinSpecs d specs " OR ".toList "FALSE".toList offset
  | .notSpec s =>
    let r := specToSQL d s offset
    ("NOT (".toList ++ r.1 ++ ")".toList, r.2.1, r.2.2)
  | .rawSpec sql args =>
    (rawRewrite d offset args.length sql, args, offset + args.length)

/-- `joinSpecs` of `spec.go`: empty and singleton short-circuits, else
parenthesised parts joined by the separator. -/
def joinSpecs (d : Dialect) (specs : List Spec) (sep empty : Str) (offset : Nat) : SqlRes :=
  match specs with
  | [] => (empty, [], offset)
  | [s] => specToSQL d s offset
  | s :: s' :: rest =>
    let parts := joinParts d (s :: s' :: rest) offset
    (joinWithSep sep parts.1, parts.2.1, parts.2.2)

/-- The accumulation loop inside `joinSpecs`: compile each child at the
running offset, parenthesise its SQL, concatenate its args. -/
def joinParts (d : Dialect) (specs : List Spec) (offset : Nat) : List Str × List GoVal × Nat :=
  match specs with
  | [] => ([], [], offset)
  | s :: rest =>
    let r := specToSQL d s offset
    let rs := joinParts d rest r.2.2
    (("(".toList ++ r.1 ++ ")".toList) :: rs.1, r.2.1 ++ rs.2.1, rs.2.2)

end

/-! ## Ordering, keyset pagination builder -/

/-- `Direction` is a string type in the source; its two constants. -/
def Asc : Str := "ASC".toList

/-- The `Desc` direction constant. -/
def Desc : Str := "DESC".toList

instance : Inhabited Spec := ⟨.andSpec []⟩

/-- `orderClause` of the query builder. -/
structure OrderClause where
  column : Str
  dir : Str
deriving DecidableEq, Inhabited

/-- Loop body of `buildKeysetSpec` at index `i`: equalities on the
columns before `i`, then the strict comparison on column `i`; a
singleton conjunction stays bare. -/
def keysetOrPart (orders : List OrderClause) (values : Str → GoVal) (forward : Bool)
    (i : Nat) : Spec :=
  let eqParts := (List.range i).map (fun j =>
    EqS (orders.getD j default).column (values (orders.getD j default).column))
  let col := orders.getD i default
  let v := values col.column
  let useGt := (col.dir = Asc ∧ forward) ∨ (col.dir = Desc ∧ ¬forward)
  let andParts := eqParts ++ [if useGt then GtS col.column v else LtS col.column v]
  if andParts.length = 1 then andParts.headI else .andSpec andParts

/-- `buildKeysetSpec` of the cursor module: `nil` for no orders, else the
lexicographic-tuple emulation, an OR of one alternative per order
column. -/
def buildKeysetSpec (orders : List OrderClause) (values : Str → GoVal) (forward : Bool) :
    Option Spec :=
  if orders.length = 0 then none
  else
    let orParts := (List.range orders.length).map (keysetOrPart orders values forward)
    if orParts.length = 1 then some orParts.headI else some (.orSpec orParts)

/-- Modelled from the spec's words (§4.3), for comparison with
`buildKeysetSpec`: alternative `i` requires equality on order columns
`0..i-1` and a strict inequality on column `i`, `>` exactly when
`(Ascending ∧ forward) ∨ (Descending ∧ backward)`; a lone conjunct is
not wrapped in AND. -/
def keysetAlternative (orders : List OrderClause) (values : Str → GoVal) (forward : Bool)
    (i : Nat) : Spec :=
  let eqs := (List.range i).map (fun j =>
    EqS (orders.getD j default).column (values (orders.getD j default).column))
  let col := orders.getD i default
  let ineq :=
    if (col.dir = Asc ∧ forward) ∨ (col.dir = Desc ∧ ¬forward) then
      GtS col.column (values col.column)
    else
      LtS col.column (values col.column)
  if i = 0 then ineq else .andSpec (eqs ++ [ineq])

/-- Modelled from the spec's words (§4.3): `nil` when there are no order
columns, the bare first alternative for a single column, else the OR of
all `n` alternatives. -/
def keysetSpecModel (orders : List OrderClause) (values : Str → GoVal) (forward : Bool) :
    Option Spec :=
  match orders.length with
  | 0 => none
  | 1 => some (keysetAlternative orders values forward 0)
  | _ + 2 =>
    some (.orSpec ((List.range orders.length).map (keysetAlternative orders values forward)))

/-! ## Schema descriptors (final generation: composite primary keys) -/

/-- `Table` of `schema.go` (the generation whose `PrimaryKey` is a list
of columns, matching the `Dialect` interface of `dialect.go`). -/
structure Table where
  Name : Str
  PrimaryKey : List Str
  Columns : List Str
  VersionColumn : Str := []
  SoftDelete : Str := []
  CreatedAt : Str := []
  UpdatedAt : Str := []
deriving DecidableEq, Inhabited

/-- `Query.ensurePKOrder`: append, in declared order, each primary-key
column that the caller's order clauses do not already name; the
membership check consults the caller's original clauses only, exactly as
the Go loop's precomputed `existing` set does. -/
def ensurePKOrder (orderCols : List OrderClause) (primaryKey : List Str) : List OrderClause :=
  primaryKey.foldl
    (fun orders pk =>
      if orderCols.any (fun o => o.column = pk) then orders
      else orders ++ [⟨pk, Asc⟩])
    orderCols

/-! ## Dialect upsert statements -/

/-- `UpsertOptions` of `dialect.go`. -/
structure UpsertOptions where
  VersionColumn : Str := []
  CreatedAt : Str := []
  UpdatedAt : Str := []
deriving DecidableEq, Inhabited

/-- `makeSet` of `helpers.go`, used as a membership test. -/
def makeSet (ss : List Str) : Str → Bool := fun s => ss.contains s

/-- Column list of the INSERT clause shared by all three upsert
implementations: the data columns plus optional created/updated-at. -/
def upsertInsertCols (columns : List Str) (opts : UpsertOptions) : List Str :=
  columns ++ (if opts.CreatedAt ≠ [] then [opts.CreatedAt] else [])
    ++ (if opts.UpdatedAt ≠ [] then [opts.UpdatedAt] else [])

/-- VALUES-clause entries of the Postgres upsert: numbered placeholders
for the data columns, `NOW()` for the timestamp columns. -/
def pgValuePh (d : Dialect) (columns : List Str) (opts : UpsertOptions) : List Str :=
  (List.range columns.length).map (fun i => d.Placeholder (i + 1))
    ++ (if opts.CreatedAt ≠ [] then [d.Now] else [])
    ++ (if opts.UpdatedAt ≠ [] then [d.Now] else [])

/-- VALUES-clause entries of the MySQL/SQLite upserts: `?` per data
column, `Now()` for the timestamp columns. -/
def qmValuePh (d : Dialect) (columns : List Str) (opts : UpsertOptions) : List Str :=
  columns.map (fun _ => "?".toList)
    ++ (if opts.CreatedAt ≠ [] then [d.Now] else [])
    ++ (if opts.UpdatedAt ≠ [] then [d.Now] else [])

/-- The `INSERT INTO t (cols) VALUES (phs)` statement text. -/
def insertStmt (table : Str) (insertCols valuePh : List Str) : Str :=
  "INSERT INTO ".toList ++ table ++ " (".toList ++ joinWithSep ", ".toList insertCols
    ++ ") VALUES (".toList ++ joinWithSep ", ".toList valuePh ++ ")".toList

/-- SET-clause loop of `postgresDialect.UpsertSQL`: skip the primary
key, table-qualified increment for the version column, `EXCLUDED`
reference otherwise. -/
def pgSetClauses (table pk : Str) (opts : UpsertOptions) : List Str → List Str
  | [] => []
  | col :: rest =>
    if col = pk then pgSetClauses table pk opts rest
    else if col = opts.VersionColumn ∧ opts.VersionColumn ≠ [] then
      (col ++ " = ".toList ++ table ++ ".".toList ++ col ++ " + 1".toList)
        :: pgSetClauses table pk opts rest
    else
      (col ++ " = EXCLUDED.".toList ++ col) :: pgSetClauses table pk opts rest

/-- SET-clause loop of `mysqlDialect.UpsertSQL`: skip primary-key
columns, unqualified increment for the version column, `VALUES(col)`
otherwise. -/
def mysqlSetClauses (pks : List Str) (opts : UpsertOptions) : List Str → List Str
  | [] => []
  | col :: rest =>
    if makeSet pks col then mysqlSetClauses pks opts rest
    else if col = opts.VersionColumn ∧ opts.VersionColumn ≠ [] then
      (col ++ " = ".toList ++ col ++ " + 1".toList) :: mysqlSetClauses pks opts rest
    else
      (col ++ " = VALUES(".toList ++ col ++ ")".toList) :: mysqlSetClauses pks opts rest

/-- SET-clause loop of `sqliteDialect.UpsertSQL`: skip the primary key,
unqualified increment for the version column, `excluded` reference
otherwise. -/
def sqliteSetClauses (pk : Str) (opts : UpsertOptions) : List Str → List Str
  | [] => []
  | col :: rest =>
    if col = pk then sqliteSetClauses pk opts rest
    else if col = opts.VersionColumn ∧ opts.VersionColumn ≠ [] then
      (col ++ " = ".toList ++ col ++ " + 1".toList) :: sqliteSetClauses pk opts rest
    else
      (col ++ " = excluded.".toList ++ col) :: sqliteSetClauses pk opts rest

/-- The trailing `updated_at = Now()` refresh appended to every SET
clause when an updated-at column is configured. -/
def updatedAtClause (d : Dialect) (opts : UpsertOptions) : List Str :=
  if opts.UpdatedAt ≠ [] then [opts.UpdatedAt ++ " = ".toList ++ d.Now] else []

/-- `postgresDialect.UpsertSQL` (signature as in the source, single
primary-key column). -/
def pgUpsertSQL (table pk : Str) (columns : List Str) (opts : UpsertOptions) : Str :=
  let insert := insertStmt table (upsertInsertCols columns opts) (pgValuePh Postgres columns opts)
  let setClauses := pgSetClauses table pk opts columns ++ updatedAtClause Postgres opts
  let conflict := " ON CONFLICT (".toList ++ pk ++ ") DO UPDATE SET ".toList
    ++ joinWithSep ", ".toList setClauses
  let conflict := conflict ++
    (if opts.VersionColumn ≠ [] then
      " WHERE ".toList ++ table ++ ".".toList ++ opts.VersionColumn
        ++ " = EXCLUDED.".toList ++ opts.VersionColumn
    else [])
  insert ++ conflict

/-- `mysqlDialect.UpsertSQL` (list of primary-key columns, as in the
`Dialect` interface).  An empty SET clause rewrites the leading
`INSERT INTO` to `INSERT IGNORE INTO`; no guard clause is ever
appended. -/
def mysqlUpsertSQL (table : Str) (pks : List Str) (columns : List Str)
    (opts : UpsertOptions) : Str :=
  let insert := insertStmt table (upsertInsertCols columns opts) (qmValuePh MySQL columns opts)
  let setClauses := mysqlSetClauses pks opts columns ++ updatedAtClause MySQL opts
  if setClauses.length = 0 then
    "INSERT IGNORE INTO ".toList ++ table ++ " (".toList
      ++ joinWithSep ", ".toList (upsertInsertCols columns opts)
      ++ ") VALUES (".toList ++ joinWithSep ", ".toList (qmValuePh MySQL columns opts)
      ++ ")".toList
  else
    insert ++ " ON DUPLICATE KEY UPDATE ".toList ++ joinWithSep ", ".toList setClauses

/-- `sqliteDialect.UpsertSQL` (signature as in the source, single
primary-key column). -/
def sqliteUpsertSQL (table pk : Str) (columns : List Str) (opts : UpsertOptions) : Str :=
  let insert := insertStmt table (upsertInsertCols columns opts) (qmValuePh SQLite columns opts)
  let setClauses := sqliteSetClauses pk opts columns ++ updatedAtClause SQLite opts
  let conflict := " ON CONFLICT(".toList ++ pk ++ ") DO UPDATE SET ".toList
    ++ joinWithSep ", ".toList setClauses
  let conflict := conflict ++
    (if opts.VersionColumn ≠ [] then
      " WHERE ".toList ++ opts.VersionColumn ++ " = excluded.".toList ++ opts.VersionColumn
    else [])
  insert ++ conflict

/-! ## Drivers over a scripted executor

The drivers' statements run against an `Executor`; the model scripts the
executor's successive `ExecContext` outcomes (as the repository's own
fake connection does) and mirrors the drivers' control flow.  Statement
texts and arguments are not inspected by the scripted executor and are
therefore not threaded through it. -/

/-- Error values of the layer: the sentinel errors of `errors.go`, a
pass-through statement error, a failing `RowsAffected` accessor, and
`fmt.Errorf`-style context wrapping. -/
inductive GoErr where
  | notFound
  | concurrentModification
  | invalidCursor
  | execFail (msg : Str)
  | rowsAffectedFail
  | wrapped (context : Str) (e : GoErr)
deriving DecidableEq

/-- An `sql.Result`: either a usable affected-row count or a result
whose `RowsAffected()` accessor itself fails. -/
inductive SqlResult where
  | res (rowsAffected : Int)
  | resErr
deriving DecidableEq

/-- One scripted `ExecContext` outcome. -/
abbrev ExecStep := Except GoErr SqlResult

/-- The scripted executor: outcomes consumed in statement order. -/
abbrev Script := List ExecStep

/-- Consume one scripted exec outcome; an exhausted script reports an
error, as the repository's fake connection does. -/
def execOne (script : Script) : ExecStep × Script :=
  match script with
  | [] => (.error (.execFail "no more exec results".toList), [])
  | r :: rest => (r, rest)

/-- `SaveStrategy` of `schema.go`. -/
inductive SaveStrategy where
  | DeleteAndReinsert
  | Upsert
deriving DecidableEq, Inhabited

/-- `Relation` of `schema.go`. -/
structure Relation where
  Table : Str
  ForeignKey : Str
  PrimaryKey : Str
  Columns : List Str
  OnSave : SaveStrategy
deriving DecidableEq, Inhabited

/-- `CompositeValues` of `schema.go`; the children map is modelled as a
total function, an absent key yielding the empty row list exactly as the
driver's `!ok` branch does. -/
structure CompositeValues where
  Root : List GoVal
  Children : Str → List (List GoVal)

/-- `simpleDriver.checkVersion` / `compositeDriver.checkVersion` (the
two methods are textually identical): no-op without a version column,
otherwise zero affected rows is a concurrency conflict. -/
def checkVersion (t : Table) (result : SqlResult) : Except GoErr Unit :=
  if t.VersionColumn = [] then .ok ()
  else
    match result with
    | .resErr => .error .rowsAffectedFail
    | .res rows => if rows = 0 then .error .concurrentModification else .ok ()

/-- `simpleDriver.save`: one upsert exec followed by the version
guard. -/
def simpleSave (t : Table) (script : Script) : Except GoErr Unit × Script :=
  let (r, s) := execOne script
  match r with
  | .error e => (.error e, s)
  | .ok result => (checkVersion t result, s)

/-- The per-row upsert loop of the `Upsert` child strategy. -/
def upsertChildRows (relTable : Str) (rows : List (List GoVal)) (script : Script) :
    Except GoErr Unit × Script :=
  match rows with
  | [] => (.ok (), script)
  | _ :: rest =>
    let (r, s) := execOne script
    match r with
    | .error e => (.error (.wrapped ("upsert child ".toList ++ relTable) e), s)
    | .ok _ => upsertChildRows relTable rest s

/-- The relation loop of `compositeDriver.saveWithChildren`. -/
def saveChildLoop (cv : CompositeValues) (rels : List Relation) (script : Script) :
    Except GoErr Unit × Script :=
  match rels with
  | [] => (.ok (), script)
  | rel :: rest =>
    match rel.OnSave with
    | .DeleteAndReinsert =>
      let (r, s) := execOne script
      match r with
      | .error e => (.error (.wrapped ("delete children ".toList ++ rel.Table) e), s)
      | .ok _ =>
        let childRows := cv.Children rel.Table
        if childRows.length > 0 then
          let (r2, s2) := execOne s
          match r2 with
          | .error e => (.error (.wrapped ("insert children ".toList ++ rel.Table) e), s2)
          | .ok _ => saveChildLoop cv rest s2
        else
          saveChildLoop cv rest s
    | .Upsert =>
      let r := upsertChildRows rel.Table (cv.Children rel.Table) script
      match r.1 with
      | .error e => (.error e, r.2)
      | .ok _ => saveChildLoop cv rest r.2

/-- `compositeDriver.saveWithChildren`: root upsert, version guard, then
the per-relation child phase. -/
def saveWithChildren (t : Table) (rels : List Relation) (cv : CompositeValues)
    (script : Script) : Except GoErr Unit × Script :=
  let (r, s) := execOne script
  match r with
  | .error e => (.error e, s)
  | .ok result =>
    match checkVersion t result with
    | .error e => (.error e, s)
    | .ok _ => saveChildLoop cv rels s

/-- Transaction outcome of a composite operation. -/
inductive TxOutcome where
  | committed
  | rolledBack
  | beginFailed
  | commitFailed
  | noTx
deriving DecidableEq

/-- `inTx` of `executor.go`: begin, run, roll back on error, commit
otherwise. -/
def inTx {α : Type} (beginOk commitOk : Bool) (fn : Except GoErr α) :
    Except GoErr α × TxOutcome :=
  if !beginOk then (.error (.execFail "begin failed".toList), .beginFailed)
  else
    match fn with
    | .error e => (.error e, .rolledBack)
    | .ok a =>
      if commitOk then (.ok a, .committed)
      else (.error (.execFail "commit failed".toList), .commitFailed)

/-- `compositeDriver.save`: no relations means a bare upsert with
version guard; otherwise the save runs inside `inTx` whenever a
`TxBeginner` was supplied, and unwrapped otherwise. -/
def compositeSave (t : Table) (rels : List Relation) (hasTxBeginner beginOk commitOk : Bool)
    (cv : CompositeValues) (script : Script) : Except GoErr Unit × TxOutcome :=
  if rels.length = 0 then
    let (r, _) := execOne script
    (match r with
     | .error e => .error e
     | .ok result => checkVersion t result, .noTx)
  else if hasTxBeginner then
    inTx beginOk commitOk (saveWithChildren t rels cv script).1
  else
    ((saveWithChildren t rels cv script).1, .noTx)

/-! ## Cursor wire codec

`EncodeCursor`/`DecodeCursor` delegate to Go's `encoding/json` and
`encoding/base64` (URL alphabet, padded).  Those libraries are modelled
here from their documented behaviour, for the value domain the cursor
map can carry: scalar values (strings, booleans, null, numbers — JSON
decoding always yields `float64` numbers).  Nested JSON containers and
Go's shortest-round-trip float formatting are outside the model. -/

/-- The opening-brace character (kept out of string literals). -/
def lbrace : Char := Char.ofNat 123

/-- The closing-brace character (kept out of string literals). -/
def rbrace : Char := Char.ofNat 125

/-- `Cursor` of the cursor module: the last-row values keyed by column
name.  Go's `map[string]any` is modelled as an association list; a
sorted, duplicate-free list is the canonical representation of a map. -/
structure Cursor where
  Values : List (Str × GoVal)

/-- Byte-wise (= code-point-wise, for unicode scalars) string order used
by `json.Marshal` to sort object keys. -/
def strLeb : Str → Str → Bool
  | [], _ => true
  | _ :: _, [] => false
  | a :: as, b :: bs =>
    if a.toNat < b.toNat then true
    else if b.toNat < a.toNat then false
    else strLeb as bs

/-- JSON escaping of one character as Go's `encoding/json` performs it
(HTML escaping enabled, the `Marshal` default). -/
def escapeChar (c : Char) : Str :=
  if c = '"' then ['\\', '"']
  else if c = '\\' then ['\\', '\\']
  else if c = '\n' then ['\\', 'n']
  else if c = '\r' then ['\\', 'r']
  else if c = '\t' then ['\\', 't']
  else if c = '<' then "\\u003c".toList
  else if c = '>' then "\\u003e".toList
  else if c = '&' then "\\u0026".toList
  else if c = Char.ofNat 0x2028 then "\\u2028".toList
  else if c = Char.ofNat 0x2029 then "\\u2029".toList
  else if c.toNat < 0x20 then
    "\\u00".toList ++ [Nat.digitChar (c.toNat / 16), Nat.digitChar (c.toNat % 16)]
  else [c]

/-- Decimal rendering of a Go `int64`. -/
def intChars (n : Int) : Str :=
  if n < 0 then '-' :: natChars n.natAbs else natChars n.toNat

/-- JSON rendering of a scalar value, as `json.Marshal` emits it.  A
`float64` with integral value prints as a plain integer (Go's shortest
representation); the non-integral branch is outside the model and emits
a deliberately non-JSON token so that it can never be confused with a
faithfully modelled encoding. -/
def printGoVal : GoVal → Str
  | .goStr s => '"' :: (s.flatMap escapeChar) ++ ['"']
  | .goInt n => intChars n
  | .goBool true => "true".toList
  | .goBool false => "false".toList
  | .goNull => "null".toList
  | .goFloat q => if q.den = 1 then intChars q.num else "?unmodelled-float?".toList

/-- One `"key":value` member of a JSON object. -/
def printEntry (e : Str × GoVal) : Str :=
  '"' :: (e.1.flatMap escapeChar) ++ ['"', ':'] ++ printGoVal e.2

/-- A JSON object over already-ordered members. -/
def printObj (entries : List (Str × GoVal)) : Str :=
  lbrace :: joinWithSep [','] (entries.map printEntry) ++ [rbrace]

/-- The JSON text of a cursor: `{"v":{<sorted members>}}`. -/
def cursorJSON (c : Cursor) : Str :=
  lbrace :: '"' :: 'v' :: '"' :: ':' ::
    printObj (c.Values.insertionSort (fun a b => strLeb a.1 b.1)) ++ [rbrace]

/-- UTF-8 bytes of one unicode scalar. -/
def utf8EncodeChar (c : Char) : List Nat :=
  let n := c.toNat
  if n < 0x80 then [n]
  else if n < 0x800 then [0xC0 + n / 64, 0x80 + n % 64]
  else if n < 0x10000 then [0xE0 + n / 4096, 0x80 + (n / 64) % 64, 0x80 + n % 64]
  else [0xF0 + n / 262144, 0x80 + (n / 4096) % 64, 0x80 + (n / 64) % 64, 0x80 + n % 64]

/-- UTF-8 bytes of a string. -/
def utf8Encode (s : Str) : List Nat := s.flatMap utf8EncodeChar

/-- Validity of a unicode scalar value. -/
def validScalar (n : Nat) : Bool := n < 0xD800 || (0xE000 ≤ n && n < 0x110000)

/-- UTF-8 decoding with the usual well-formedness checks (continuation
ranges, no overlong forms, no surrogates). -/
def utf8Decode : List Nat → Option Str
  | [] => some []
  | b :: rest =>
    if b < 0x80 then
      (utf8Decode rest).map (fun s => Char.ofNat b :: s)
    else if b < 0xC0 then none
    else if b < 0xE0 then
      match rest with
      | b1 :: rest' =>
        if 0x80 ≤ b1 ∧ b1 < 0xC0 then
          if 0x80 ≤ (b - 0xC0) * 64 + (b1 - 0x80) then
            (utf8Decode rest').map (fun s => Char.ofNat ((b - 0xC0) * 64 + (b1 - 0x80)) :: s)
          else none
        else none
      | [] => none
    else if b < 0xF0 then
      match rest with
      | b1 :: b2 :: rest' =>
        if (0x80 ≤ b1 ∧ b1 < 0xC0) ∧ (0x80 ≤ b2 ∧ b2 < 0xC0) then
          if 0x800 ≤ (b - 0xE0) * 4096 + (b1 - 0x80) * 64 + (b2 - 0x80)
              ∧ validScalar ((b - 0xE0) * 4096 + (b1 - 0x80) * 64 + (b2 - 0x80)) then
            (utf8Decode rest').map (fun s =>
              Char.ofNat ((b - 0xE0) * 4096 + (b1 - 0x80) * 64 + (b2 - 0x80)) :: s)
          else none
        else none
      | _ => none
    else if b < 0xF8 then
      match rest with
      | b1 :: b2 :: b3 :: rest' =>
        if (0x80 ≤ b1 ∧ b1 < 0xC0) ∧ (0x80 ≤ b2 ∧ b2 < 0xC0) ∧ (0x80 ≤ b3 ∧ b3 < 0xC0) then
          if 0x10000 ≤ (b - 0xF0) * 262144 + (b1 - 0x80) * 4096 + (b2 - 0x80) * 64 + (b3 - 0x80)
              ∧ (b - 0xF0) * 262144 + (b1 - 0x80) * 4096 + (b2 - 0x80) * 64 + (b3 - 0x80)
                < 0x110000 then
            (utf8Decode rest').map (fun s =>
              Char.ofNat ((b - 0xF0) * 262144 + (b1 - 0x80) * 4096 + (b2 - 0x80) * 64
                + (b3 - 0x80)) :: s)
          else none
        else none
      | _ => none
    else none

/-- The cons-case body of `utf8Decode` as a standalone (non-recursive)
function, so that one decoding step can be reasoned about without the
recursive equation lemmas. -/
def utf8DecodeStep (b : Nat) (rest : List Nat) : Option Str :=
  if b < 0x80 then
    (utf8Decode rest).map (fun s => Char.ofNat b :: s)
  else if b < 0xC0 then none
  else if b < 0xE0 then
    match rest with
    | b1 :: rest' =>
      if 0x80 ≤ b1 ∧ b1 < 0xC0 then
        if 0x80 ≤ (b - 0xC0) * 64 + (b1 - 0x80) then
          (utf8Decode rest').map (fun s => Char.ofNat ((b - 0xC0) * 64 + (b1 - 0x80)) :: s)
        else none
      else none
    | [] => none
  else if b < 0xF0 then
    match rest with
    | b1 :: b2 :: rest' =>
      if (0x80 ≤ b1 ∧ b1 < 0xC0) ∧ (0x80 ≤ b2 ∧ b2 < 0xC0) then
        if 0x800 ≤ (b - 0xE0) * 4096 + (b1 - 0x80) * 64 + (b2 - 0x80)
            ∧ validScalar ((b - 0xE0) * 4096 + (b1 - 0x80) * 64 + (b2 - 0x80)) then
          (utf8Decode rest').map (fun s =>
            Char.ofNat ((b - 0xE0) * 4096 + (b1 - 0x80) * 64 + (b2 - 0x80)) :: s)
        else none
      else none
    | _ => none
  else if b < 0xF8 then
    match rest with
    | b1 :: b2 :: b3 :: rest' =>
      if (0x80 ≤ b1 ∧ b1 < 0xC0) ∧ (0x80 ≤ b2 ∧ b2 < 0xC0) ∧ (0x80 ≤ b3 ∧ b3 < 0xC0) then
        if 0x10000 ≤ (b - 0xF0) * 262144 + (b1 - 0x80) * 4096 + (b2 - 0x80) * 64 + (b3 - 0x80)
            ∧ (b - 0xF0) * 262144 + (b1 - 0x80) * 4096 + (b2 - 0x80) * 64 + (b3 - 0x80)
              < 0x110000 then
          (utf8Decode rest').map (fun s =>
            Char.ofNat ((b - 0xF0) * 262144 + (b1 - 0x80) * 4096 + (b2 - 0x80) * 64
              + (b3 - 0x80)) :: s)
        else none
      else none
    | _ => none
  else none

/-- The URL-safe base64 alphabet. -/
def b64Alphabet : Str :=
  "ABCDEFGHIJKLMNOPQRSTUVWXYZabcdefghijklmnopqrstuvwxyz0123456789-_".toList

/-- The alphabet character of a sextet. -/
def b64Char (n : Nat) : Char := b64Alphabet.getD n '='

/-- Padded base64 over bytes (`base64.URLEncoding.EncodeToString`). -/
def b64Encode : List Nat → Str
  | [] => []
  | [b0] => [b64Char (b0 / 4), b64Char (b0 % 4 * 16), '=', '=']
  | [b0, b1] => [b64Char (b0 / 4), b64Char (b0 % 4 * 16 + b1 / 16), b64Char (b1 % 16 * 4), '=']
  | b0 :: b1 :: b2 :: rest =>
    [b64Char (b0 / 4), b64Char (b0 % 4 * 16 + b1 / 16),
     b64Char (b1 % 16 * 4 + b2 / 64), b64Char (b2 % 64)] ++ b64Encode rest

/-- Sextet value of an alphabet character. -/
def b64Val (c : Char) : Option Nat :=
  let i := b64Alphabet.indexOf c
  if i < 64 then some i else none

/-- Padded base64 decoding (`base64.URLEncoding.DecodeString`): input
length must be a multiple of four, padding only in the final quantum. -/
def b64Decode : Str → Option (List Nat)
  | [] => some []
  | c0 :: c1 :: c2 :: c3 :: rest =>
    match b64Val c0, b64Val c1 with
    | some v0, some v1 =>
      if c2 = '=' then
        if c3 = '=' ∧ rest = [] then some [v0 * 4 + v1 / 16] else none
      else
        match b64Val c2 with
        | some v2 =>
          if c3 = '=' then
            if rest = [] then some [v0 * 4 + v1 / 16, v1 % 16 * 16 + v2 / 4] else none
          else
            match b64Val c3 with
            | some v3 =>
              (b64Decode rest).map (fun tl =>
                (v0 * 4 + v1 / 16) :: (v1 % 16 * 16 + v2 / 4) :: (v2 % 4 * 64 + v3) :: tl)
            | none => none
        | none => none
    | _, _ => none
  | _ => none

/-- `EncodeCursor`: JSON-serialise `{"v": values}` and base64 (URL,
padded) encode the bytes. -/
def EncodeCursor (c : Cursor) : Str := b64Encode (utf8Encode (cursorJSON c))

/-- JSON whitespace skipping. -/
def skipWs (s : Str) : Str :=
  s.dropWhile (fun c => c == ' ' || c == '\t' || c == '\n' || c == '\r')

/-- Single-character JSON escapes. -/
def unescapeChar (e : Char) : Option Char :=
  if e = '"' then some '"'
  else if e = '\\' then some '\\'
  else if e = '/' then some '/'
  else if e = 'b' then some (Char.ofNat 8)
  else if e = 'f' then some (Char.ofNat 12)
  else if e = 'n' then some '\n'
  else if e = 'r' then some '\r'
  else if e = 't' then some '\t'
  else none

/-- Hex digit value. -/
def hexVal (c : Char) : Option Nat :=
  if '0' ≤ c ∧ c ≤ '9' then some (c.toNat - '0'.toNat)
  else if 'a' ≤ c ∧ c ≤ 'f' then some (c.toNat - 'a'.toNat + 10)
  else if 'A' ≤ c ∧ c ≤ 'F' then some (c.toNat - 'A'.toNat + 10)
  else none

/-- JSON string body parser (after the opening quote), returning the
unescaped content and the remainder after the closing quote. -/
def parseStrBody : Str → Option (Str × Str)
  | [] => none
  | c :: rest =>
    if c = '"' then some ([], rest)
    else if c = '\\' then
      match rest with
      | [] => none
      | e :: rest' =>
        if e = 'u' then
          match rest' with
          | h1 :: h2 :: h3 :: h4 :: rest'' =>
            match hexVal h1, hexVal h2, hexVal h3, hexVal h4 with
            | some x1, some x2, some x3, some x4 =>
              if validScalar (x1 * 4096 + x2 * 256 + x3 * 16 + x4) then
                (parseStrBody rest'').map (fun r =>
                  (Char.ofNat (x1 * 4096 + x2 * 256 + x3 * 16 + x4) :: r.1, r.2))
              else none
            | _, _, _, _ => none
          | _ => none
        else
          match unescapeChar e with
          | some c' => (parseStrBody rest').map (fun r => (c' :: r.1, r.2))
          | none => none
    else (parseStrBody rest).map (fun r => (c :: r.1, r.2))

/-- The cons-case body of `parseStrBody` as a standalone (non-recursive)
function, so that one parsing step can be reasoned about without the
recursive equation lemmas. -/
def parseStrBodyStep (c : Char) (rest : Str) : Option (Str × Str) :=
  if c = '"' then some ([], rest)
  else if c = '\\' then
    match rest with
    | [] => none
    | e :: rest' =>
      if e = 'u' then
        match rest' with
        | h1 :: h2 :: h3 :: h4 :: rest'' =>
          match hexVal h1, hexVal h2, hexVal h3, hexVal h4 with
          | some x1, some x2, some x3, some x4 =>
            if validScalar (x1 * 4096 + x2 * 256 + x3 * 16 + x4) then
              (parseStrBody rest'').map (fun r =>
                (Char.ofNat (x1 * 4096 + x2 * 256 + x3 * 16 + x4) :: r.1, r.2))
            else none
          | _, _, _, _ => none
        | _ => none
      else
        match unescapeChar e with
        | some c' => (parseStrBody rest').map (fun r => (c' :: r.1, r.2))
        | none => none
  else (parseStrBody rest).map (fun r => (c :: r.1, r.2))

/-- Digit-run value. -/
def digitsVal (ds : Str) : Nat :=
  ds.foldl (fun a c => 10 * a + (c.toNat - '0'.toNat)) 0

/-- JSON number parser: sign, digits, optional fraction and exponent,
all exact over `ℚ` (JSON decoding into Go `any` yields `float64`; the
integral values the claims exercise are exact in both). -/
def parseNumber (s : Str) : Option (ℚ × Str) :=
  let (neg, s1) : Bool × Str := match s with
    | '-' :: r => (true, r)
    | _ => (false, s)
  let ds := s1.takeWhile Char.isDigit
  if ds.length = 0 then none
  else
    let rest1 := s1.dropWhile Char.isDigit
    let intPart : ℚ := (digitsVal ds : ℚ)
    let withFrac : Option (ℚ × Str) :=
      match rest1 with
      | '.' :: r2 =>
        let fs := r2.takeWhile Char.isDigit
        if fs.length = 0 then none
        else some (intPart + (digitsVal fs : ℚ) / ((10 : ℚ) ^ fs.length),
          r2.dropWhile Char.isDigit)
      | _ => some (intPart, rest1)
    match withFrac with
    | none => none
    | some (q, rest2) =>
      let withExp : Option (ℚ × Str) :=
        match rest2 with
        | c :: r3 =>
          if c = 'e' ∨ c = 'E' then
            let (esgn, r4) : Int × Str := match r3 with
              | '+' :: rr => (1, rr)
              | '-' :: rr => (-1, rr)
              | _ => (1, r3)
            let es := r4.takeWhile Char.isDigit
            if es.length = 0 then none
            else some (q * (10 : ℚ) ^ (esgn * (digitsVal es : Int)), r4.dropWhile Char.isDigit)
          else some (q, rest2)
        | [] => some (q, rest2)
      match withExp with
      | none => none
      | some (q', rest3) => some (if neg then -q' else q', rest3)

/-- JSON scalar-value parser (strings, numbers, booleans, null; nested
containers are outside the model). -/
def parseVal (s : Str) : Option (GoVal × Str) :=
  match skipWs s with
  | [] => none
  | c :: rest =>
    if c = '"' then (parseStrBody rest).map (fun r => (.goStr r.1, r.2))
    else if c = 't' then
      match rest with
      | 'r' :: 'u' :: 'e' :: r => some (.goBool true, r)
      | _ => none
    else if c = 'f' then
      match rest with
      | 'a' :: 'l' :: 's' :: 'e' :: r => some (.goBool false, r)
      | _ => none
    else if c = 'n' then
      match rest with
      | 'u' :: 'l' :: 'l' :: r => some (.goNull, r)
      | _ => none
    else
      (parseNumber (c :: rest)).map (fun r => (.goFloat r.1, r.2))

/-- Member-list parser of the values object (after its opening brace). -/
def parseEntries : Nat → Str → Option (List (Str × GoVal) × Str)
  | 0, _ => none
  | fuel + 1, s =>
    match skipWs s with
    | [] => none
    | c :: rest =>
      if c = rbrace then some ([], rest)
      else if c = '"' then
        match parseStrBody rest with
        | none => none
        | some (key, r1) =>
          match skipWs r1 with
          | ':' :: r2 =>
            match parseVal r2 with
            | none => none
            | some (v, r3) =>
              match skipWs r3 with
              | ',' :: r4 =>
                (parseEntries fuel r4).map (fun r => ((key, v) :: r.1, r.2))
              | c2 :: r4 =>
                if c2 = rbrace then some ([(key, v)], r4) else none
              | [] => none
          | _ => none
      else none

/-- Parser for the exact wire shape `{"v":{...}}` that `EncodeCursor`
emits (Go's `json.Unmarshal` into the `Cursor` struct is more lenient;
the model covers the emitted shape). -/
def parseCursor (s : Str) : Option Cursor :=
  match skipWs s with
  | c :: r =>
    if c = lbrace then
      match skipWs r with
      | '"' :: r1 =>
        match parseStrBody r1 with
        | some (key, r2) =>
          if key = ['v'] then
            match skipWs r2 with
            | ':' :: r3 =>
              match skipWs r3 with
              | c2 :: r4 =>
                if c2 = lbrace then
                  match parseEntries (r4.length + 1) r4 with
                  | some (entries, r5) =>
                    match skipWs r5 with
                    | c3 :: r6 =>
                      if c3 = rbrace ∧ skipWs r6 = [] then some ⟨entries⟩ else none
                    | [] => none
                  | none => none
                else none
              | [] => none
            | _ => none
          else none
        | none => none
      | _ => none
    else none
  | [] => none

/-- `DecodeCursor`: base64 decode, UTF-8 decode, JSON parse; every
failure is the invalid-cursor error, as in the source. -/
def DecodeCursor (s : Str) : Except GoErr Cursor :=
  match b64Decode s with
  | none => .error .invalidCursor
  | some bytes =>
    match utf8Decode bytes with
    | none => .error .invalidCursor
    | some text =>
      match parseCursor text with
      | none => .error .invalidCursor
      | some c => .ok c

/-! ## Repository and query-builder SQL construction -/

instance : Inhabited GoVal := ⟨.goNull⟩

/-- `IsNull` constructor helper of `spec.go` (suffixed like the other
helpers). -/
def IsNullS (column : Str) : Spec := .nullSpec column false

/-- `IsNotNull` constructor helper of `spec.go`. -/
def IsNotNullS (column : Str) : Spec := .nullSpec column true

/-- `Table.selectFrom`. -/
def selectFrom (t : Table) : Str :=
  "SELECT ".toList ++ joinWithSep ", ".toList t.Columns ++ " FROM ".toList ++ t.Name

/-- `Table.selectWhere`. -/
def selectWhere (t : Table) (condition : Str) : Str :=
  selectFrom t ++ " WHERE ".toList ++ condition

/-- `Table.deleteSQL`: primary-key match, and with a soft-delete column
an UPDATE stamping the column instead of a DELETE, guarded by
`<col> IS NULL`. -/
def deleteSQL (t : Table) (d : Dialect) : Str :=
  let whereParts := t.PrimaryKey.enum.map
    (fun e => e.2 ++ " = ".toList ++ d.Placeholder (e.1 + 1))
  let whereStr := joinWithSep " AND ".toList whereParts
  if t.SoftDelete ≠ [] then
    "UPDATE ".toList ++ t.Name ++ " SET ".toList ++ t.SoftDelete ++ " = ".toList ++ d.Now
      ++ " WHERE ".toList ++ whereStr ++ " AND ".toList ++ t.SoftDelete ++ " IS NULL".toList
  else
    "DELETE FROM ".toList ++ t.Name ++ " WHERE ".toList ++ whereStr

/-- `Repository.withSoftDelete`: without a soft-delete column the filter
passes through; otherwise `<col> IS NULL` is the filter, ANDed in front
of any supplied one.  (`nil` specs are modelled by `Option`.) -/
def withSoftDelete (t : Table) (s : Option Spec) : Option Spec :=
  if t.SoftDelete = [] then s
  else
    match s with
    | none => some (IsNullS t.SoftDelete)
    | some s => some (.andSpec [IsNullS t.SoftDelete, s])

/-- `Repository.buildPKSpec`. -/
def buildPKSpec (t : Table) (ids : List GoVal) : Spec :=
  if ids.length = 1 then EqS t.PrimaryKey.headI ids.headI
  else .andSpec ((t.PrimaryKey.zip ids).map (fun e => EqS e.1 e.2))

/-- Query text and arguments issued by `Repository.Find` (after its
argument-count check). -/
def findSQL (t : Table) (d : Dialect) (ids : List GoVal) : Str × List GoVal :=
  match withSoftDelete t (some (buildPKSpec t ids)) with
  | some s =>
    let r := specToSQL d s 1
    (selectWhere t r.1, r.2.1)
  | none => (selectFrom t, [])

/-- Query text and arguments issued by `Repository.FindBy`. -/
def findBySQL (t : Table) (d : Dialect) (s : Option Spec) : Str × List GoVal :=
  match withSoftDelete t s with
  | some s =>
    let r := specToSQL d s 1
    (selectWhere t r.1, r.2.1)
  | none => (selectFrom t, [])

/-- Query text and arguments issued by `Repository.ExistsBy`. -/
def existsBySQL (t : Table) (d : Dialect) (s : Option Spec) : Str × List GoVal :=
  match withSoftDelete t s with
  | some s =>
    let r := specToSQL d s 1
    ("SELECT EXISTS(SELECT 1 FROM ".toList ++ t.Name ++ " WHERE ".toList ++ r.1 ++ ")".toList,
      r.2.1)
  | none => ("SELECT EXISTS(SELECT 1 FROM ".toList ++ t.Name ++ ")".toList, [])

/-- Query text and arguments issued by `Repository.CountBy`. -/
def countBySQL (t : Table) (d : Dialect) (s : Option Spec) : Str × List GoVal :=
  match withSoftDelete t s with
  | some s =>
    let r := specToSQL d s 1
    ("SELECT COUNT(*) FROM ".toList ++ t.Name ++ " WHERE ".toList ++ r.1, r.2.1)
  | none => ("SELECT COUNT(*) FROM ".toList ++ t.Name, [])

/-- Builder state of `Query` (the per-call accumulator). -/
structure QueryState where
  specs : List Spec := []
  orderCols : List OrderClause := []
  limit : Option Int := none
  offsetQ : Option Int := none
  pageSize : Option Int := none
  cursor : Str := []
  forward : Bool := true

/-- `Query.combinedSpec`: empty means no filter, a single spec passes
through, several are ANDed. -/
def combinedSpec (specs : List Spec) : Option Spec :=
  if specs.length = 0 then none
  else if specs.length = 1 then some specs.headI
  else some (.andSpec specs)

/-- `buildOrderSQL`. -/
def buildOrderSQL (orders : List OrderClause) : Str :=
  if orders.length = 0 then []
  else
    " ORDER BY ".toList
      ++ joinWithSep ", ".toList (orders.map (fun o => o.column ++ " ".toList ++ o.dir))

/-- `Query.buildSQL` (used by `All` and `First`): filter plus implicit
soft-delete guard, optional ORDER BY, LIMIT and OFFSET placeholders
continuing the running offset. -/
def buildSQL (t : Table) (d : Dialect) (q : QueryState) : Str × List GoVal :=
  let (query0, args0, nextParam) :=
    match withSoftDelete t (combinedSpec q.specs) with
    | some s =>
      let r := specToSQL d s 1
      (selectWhere t r.1, r.2.1, r.2.2)
    | none => (selectFrom t, ([] : List GoVal), 1)
  let query1 := if q.orderCols.length > 0 then query0 ++ buildOrderSQL q.orderCols else query0
  let (query2, args2, np2) :=
    match q.limit with
    | some l => (query1 ++ " LIMIT ".toList ++ d.Placeholder nextParam,
        args0 ++ [GoVal.goInt l], nextParam + 1)
    | none => (query1, args0, nextParam)
  match q.offsetQ with
  | some o => (query2 ++ " OFFSET ".toList ++ d.Placeholder np2, args2 ++ [GoVal.goInt o])
  | none => (query2, args2)

/-- Query text and arguments issued by `Query.Count`. -/
def queryCountSQL (t : Table) (d : Dialect) (q : QueryState) : Str × List GoVal :=
  match withSoftDelete t (combinedSpec q.specs) with
  | some s =>
    let r := specToSQL d s 1
    ("SELECT COUNT(*) FROM ".toList ++ t.Name ++ " WHERE ".toList ++ r.1, r.2.1)
  | none => ("SELECT COUNT(*) FROM ".toList ++ t.Name, [])

/-- Query text and arguments issued by `Query.Exists`. -/
def queryExistsSQL (t : Table) (d : Dialect) (q : QueryState) : Str × List GoVal :=
  match withSoftDelete t (combinedSpec q.specs) with
  | some s =>
    let r := specToSQL d s 1
    ("SELECT EXISTS(SELECT 1 FROM ".toList ++ t.Name ++ " WHERE ".toList ++ r.1 ++ ")".toList,
      r.2.1)
  | none => ("SELECT EXISTS(SELECT 1 FROM ".toList ++ t.Name ++ ")".toList, [])

/-- `Page` result of the query builder. -/
structure PageRes (T : Type) where
  Items : List T
  NextCursor : Str
  HasMore : Bool
deriving DecidableEq

/-- Map read-out of a cursor's values: an absent column yields Go's
`nil`. -/
def lookupValues (values : List (Str × GoVal)) : Str → GoVal :=
  fun k => (((values.find? (fun e => e.1 == k)).map Prod.snd).getD .goNull)

/-- `Query.Page`: default page size 20, primary-key-augmented ordering,
implicit soft-delete guard, keyset predicate from a supplied cursor,
`pageSize + 1` fetch, trim-and-flag, and next-cursor derivation by the
caller's extractor.  The underlying `findMany` is abstracted as a total
`fetch` oracle receiving the issued query text and arguments. -/
def pageRun {T : Type} (t : Table) (d : Dialect) (q : QueryState)
    (extract : T → List (Str × GoVal)) (fetch : Str → List GoVal → List T) :
    Except GoErr (PageRes T) :=
  let pageSize : Int := q.pageSize.getD 20
  let orders := ensurePKOrder q.orderCols t.PrimaryKey
  let spec0 := withSoftDelete t (combinedSpec q.specs)
  let specE : Except GoErr (Option Spec) :=
    if q.cursor ≠ [] then
      match DecodeCursor q.cursor with
      | .error e => .error e
      | .ok cur =>
        match buildKeysetSpec orders (lookupValues cur.Values) q.forward with
        | some ks =>
          .ok (some (match spec0 with
            | some s => .andSpec [s, ks]
            | none => ks))
        | none => .ok spec0
    else .ok spec0
  match specE with
  | .error e => .error e
  | .ok spec =>
    let fetchSize : Int := pageSize + 1
    let (queryBase, args0, nextParam) :=
      match spec with
      | some s =>
        let r := specToSQL d s 1
        (selectWhere t r.1, r.2.1, r.2.2)
      | none => (selectFrom t, ([] : List GoVal), 1)
    let query := queryBase ++ buildOrderSQL orders ++ " LIMIT ".toList ++ d.Placeholder nextParam
    let args := args0 ++ [GoVal.goInt fetchSize]
    let items := fetch query args
    let hasMore := (items.length : Int) > pageSize
    let items := if hasMore then items.take (items.length - 1) else items
    let nextCursor :=
      if hasMore then
        match items.getLast? with
        | some last => EncodeCursor ⟨extract last⟩
        | none => []
      else []
    .ok ⟨items, nextCursor, hasMore⟩

/-! ## Raw-fragment decomposition

A well-formed raw SQL fragment is an interleaving of literal segments
and `$i` tokens.  The pieces below name that decomposition so that the
two-pass rewrite of `rawSpec.ToSQL` can be traced token by token. -/

/-- One piece of a raw SQL fragment: a literal segment or a `$i`
token. -/
inductive RawPiece where
  | lit (s : Str)
  | tok (i : Nat)
deriving DecidableEq

/-- Render a piece list, mapping token `i` through `f`. -/
def renderWith (f : Nat → Str) : List RawPiece → Str
  | [] => []
  | .lit s :: ps => s ++ renderWith f ps
  | .tok i :: ps => f i ++ renderWith f ps

/-- The raw fragment itself: tokens rendered as `$i`. -/
def renderRaw (ps : List RawPiece) : Str := renderWith dollarTok ps

/-- The token indices of a piece list, in order of appearance. -/
def piecesToks : List RawPiece → List Nat
  | [] => []
  | .lit _ :: ps => piecesToks ps
  | .tok i :: ps => i :: piecesToks ps

/-- A literal segment is well formed when it is non-empty, contains no
placeholder characters (`$`, `?`), does not contain the marker-alphabet
run `RAW`, and does not end in an underscore (so no intermediate token
`__RAW_i__` can arise from or bleed into literal text). -/
def litOK (s : Str) : Prop :=
  s ≠ [] ∧ '$' ∉ s ∧ '?' ∉ s ∧ ¬ ("RAW".toList <:+: s) ∧ s.getLast? ≠ some '_'

/-- Adjacency discipline between consecutive pieces: literal segments
are maximal (no two adjacent), and a literal following a token does not
begin with a digit (so a token's digits cannot absorb literal text). -/
def adjOK2 : RawPiece → RawPiece → Bool
  | .lit _, .lit _ => false
  | .tok _, .lit s =>
    match s.head? with
    | some c => !c.isDigit
    | none => true
  | _, _ => true

/-- Well-formedness of a raw fragment's decomposition against `k`
arguments: good literals, token indices within `1..k` each appearing
exactly once, and the adjacency discipline. -/
def piecesWF (k : Nat) (ps : List RawPiece) : Prop :=
  (∀ s, RawPiece.lit s ∈ ps → litOK s)
  ∧ (∀ i, RawPiece.tok i ∈ ps → 1 ≤ i ∧ i ≤ k)
  ∧ (∀ i ∈ List.range' 1 k, (piecesToks ps).count i = 1)
  ∧ List.Chain' (fun a b => adjOK2 a b = true) ps

/-- The three shipped dialects' placeholders: `$n` or `?`. -/
def stdPlaceholder (d : Dialect) : Prop :=
  ∀ n, d.Placeholder n = '$' :: natChars n ∨ d.Placeholder n = ['?']

/-- Token rendering during the first pass, after the steps above `i`
have run: tokens above `i` already carry their marker. -/
def passOneState (i j : Nat) : Str :=
  if i < j then rawMarker j else dollarTok j

/-- Token rendering during the second pass, before step `i`: tokens
below `i` already carry their final placeholder. -/
def passTwoState (d : Dialect) (offset i j : Nat) : Str :=
  if j < i then d.Placeholder (offset + j - 1) else rawMarker j

/-- A partially rendered fragment and everything that can follow a piece
boundary begins with a placeholder or marker character. -/
def headShape (R : Str) : Prop :=
  ∀ c, R.head? = some c → c = '$' ∨ c = '?' ∨ c = '_'

/-- Two-level shape of a partially rendered fragment: empty, or headed
by a placeholder, a marker, or a good literal followed by a
placeholder-or-marker boundary. -/
def shape2 (R : Str) : Prop :=
  R = [] ∨ (∃ u, R = '$' :: u) ∨ (∃ u, R = '?' :: u)
  ∨ (∃ j u, R = rawMarker j ++ u)
  ∨ (∃ s u, litOK s ∧ headShape u ∧ R = s ++ u)

/-- The numbered-placeholder tokens of a SQL string: every `$` that is
immediately followed by a non-empty digit run contributes the run's
decimal value, in order of appearance. -/
def phNums (s : Str) : List Nat :=
  match s with
  | [] => []
  | c :: rest =>
    if c = '$' then
      if (rest.takeWhile (fun ch => ch.isDigit)).isEmpty then phNums rest
      else digitsVal (rest.takeWhile (fun ch => ch.isDigit))
        :: phNums (rest.dropWhile (fun ch => ch.isDigit))
    else phNums rest
termination_by s.length
decreasing_by
  all_goals simp_wf
  all_goals first
  | omega
  | exact Nat.lt_succ_of_le (List.dropWhile_sublist _).length_le

/-- The anonymous-placeholder tokens of a SQL string: its `?` count. -/
def countQ (s : Str) : Nat := s.count '?'

/-- Scalar values faithfully covered by the JSON codec model: every
scalar except a non-integral float (whose shortest-representation
printing is outside the model). -/
def scalarOK : GoVal → Prop
  | .goFloat q => q.den = 1
  | _ => True

/-- The image of a scalar under a JSON round trip through Go's
`map[string]any`: `json.Unmarshal` decodes every JSON number as
`float64`, so `int64` values come back as floats; all other scalars are
unchanged. -/
def jsonRoundVal : GoVal → GoVal
  | .goInt n => .goFloat (n : ℚ)
  | v => v

mutual

/-- Well-formedness of a `Spec` tree as produced through the exported
constructors: user-supplied column names are free of placeholder
characters, operators (fixed strings in the source) likewise, and a raw
fragment decomposes into well-formed pieces over its argument count. -/
def SpecWF : Spec → Prop
  | .comparisonSpec column op _ => '$' ∉ column ∧ '?' ∉ column ∧ '$' ∉ op ∧ '?' ∉ op
  | .inSpec column _ _ => '$' ∉ column ∧ '?' ∉ column
  | .likeSpec column _ _ => '$' ∉ column ∧ '?' ∉ column
  | .betweenSpec column _ _ => '$' ∉ column ∧ '?' ∉ column
  | .nullSpec column _ => '$' ∉ column ∧ '?' ∉ column
  | .andSpec specs => SpecsWF specs
  | .orSpec specs => SpecsWF specs
  | .notSpec s => SpecWF s
  | .rawSpec sql args => ∃ ps, sql = renderRaw ps ∧ piecesWF args.length ps

/-- Well-formedness of every member of a combinator's child list. -/
def SpecsWF : List Spec → Prop
  | [] => True
  | s :: rest => SpecWF s ∧ SpecsWF rest

end

/-! ## Theorems -/

theorem natCharsAux_irrel : ∀ f₁ f₂ n, n < f₁ → n < f₂ → natCharsAux f₁ n = natCharsAux f₂ n := by
  intro f₁
  induction f₁ with
  | zero => intro f₂ n h; omega
  | succ f ih =>
    intro f₂ n h1 h2
    match f₂, h2 with
    | f₂ + 1, _ =>
      rw [natCharsAux, natCharsAux]
      by_cases hn : n < 10
      · rw [if_pos hn, if_pos hn]
      · rw [if_neg hn, if_neg hn]
        have hdiv : n / 10 < n := Nat.div_lt_self (by omega) (by omega)
        rw [ih f₂ (n / 10) (by omega) (by omega)]

theorem natChars_eq (n : Nat) :
    natChars n = if n < 10 then [Nat.digitChar n]
      else natChars (n / 10) ++ [Nat.digitChar (n % 10)] := by
  rw [natChars, natCharsAux]
  by_cases hn : n < 10
  · rw [if_pos hn, if_pos hn]
  · rw [if_neg hn, if_neg hn, natChars]
    have hdiv : n / 10 < n := Nat.div_lt_self (by omega) (by omega)
    rw [natCharsAux_irrel n (n / 10 + 1) (n / 10) (by omega) (by omega)]

theorem keysetOrPart_eq_alternative (orders : List OrderClause) (values : Str → GoVal)
    (forward : Bool) (i : Nat) :
    keysetOrPart orders values forward i = keysetAlternative orders values forward i := by
  by_cases hi : i = 0
  · subst hi
    simp [keysetOrPart, keysetAlternative]
  · have hlen : ((List.range i).map (fun j =>
        EqS (orders.getD j default).column (values (orders.getD j default).column))).length = i := by
      simp
    simp only [keysetOrPart, keysetAlternative, List.length_append, hlen, List.length_singleton]
    rw [if_neg (by omega), if_neg hi]

/-- C4: `buildKeysetSpec` returns `nil` for no ordering columns, the
bare comparison for a single column, and otherwise the OR of `n`
alternatives, alternative `i` being the conjunction of equalities on
columns `0..i-1` with the strict inequality on column `i`, whose
direction is `>` exactly when (Ascending ∧ forward) ∨ (Descending ∧
backward). -/
theorem buildKeysetSpec_matches_model (orders : List OrderClause) (values : Str → GoVal)
    (forward : Bool) :
    buildKeysetSpec orders values forward = keysetSpecModel orders values forward := by
  unfold buildKeysetSpec keysetSpecModel
  rcases horders : orders.length with _ | n
  · simp
  · rcases n with _ | m
    · simp [horders, List.range_succ, keysetOrPart_eq_alternative]
    · have h2 : ¬ (m + 1 + 1 = 0) := by omega
      simp only [horders, if_neg h2, List.length_map, List.length_range]
      rw [if_neg (by omega)]
      have := List.map_congr_left (l := List.range orders.length)
        (f := keysetOrPart orders values forward)
        (g := keysetAlternative orders values forward)
        (fun a _ => keysetOrPart_eq_alternative orders values forward a)
      rw [horders] at this
      rw [this]

theorem ensurePKOrder_foldl (orderCols acc : List OrderClause) (primaryKey : List Str) :
    primaryKey.foldl
      (fun orders pk =>
        if orderCols.any (fun o => o.column = pk) then orders
        else orders ++ [⟨pk, Asc⟩])
      acc
    = acc ++ (primaryKey.filter
        (fun pk => !(orderCols.any (fun o => o.column = pk)))).map (fun pk => ⟨pk, Asc⟩) := by
  induction primaryKey generalizing acc with
  | nil => simp
  | cons pk rest ih =>
    rw [List.foldl_cons, List.filter_cons]
    by_cases h : (orderCols.any (fun o => o.column = pk)) = true
    · rw [if_pos h, ih, h]
      simp
    · rw [if_neg h, ih]
      rw [Bool.not_eq_true] at h
      rw [h]
      simp

theorem countP_eq_one_of_nodup_mem {α : Type} [DecidableEq α] {l : List α} {p : α}
    (hnd : l.Nodup) (hp : p ∈ l) :
    l.countP (fun x => x = p) = 1 := by
  induction l with
  | nil => simp at hp
  | cons a l ih =>
    rw [List.countP_cons]
    by_cases hpa : a = p
    · have hpl : p ∉ l := by
        rw [← hpa]
        exact (List.nodup_cons.mp hnd).1
      have hz : l.countP (fun x => x = p) = 0 := by
        rw [List.countP_eq_zero]
        intro b hb hcontra
        have hbp : b = p := by simpa using hcontra
        exact hpl (hbp ▸ hb)
      simp [hz, hpa]
    · have hmem : p ∈ l := by
        rcases List.mem_cons.mp hp with h | h
        · exact absurd h.symm hpa
        · exact h
      have hrec := ih (List.nodup_cons.mp hnd).2 hmem
      simp [hrec, hpa]

/-- C10 counterexample: when the caller's explicit order clauses name
the same primary-key column twice, the effective ordering built by
`ensurePKOrder` contains that primary-key column twice, not exactly
once as the claim asserts. -/
theorem ensurePKOrder_duplicate_counterexample :
    (ensurePKOrder [⟨"id".toList, Desc⟩, ⟨"id".toList, Asc⟩] ["id".toList]).countP
      (fun o => o.column = "id".toList) = 2 := by decide

/-- C10 (amended): the effective ordering is the caller's order clauses
followed by every primary-key column they do not name, ascending, in
declared primary-key order — appended even when explicit order clauses
were given; provided the declared primary-key columns are distinct and
the caller's clauses name each primary-key column at most once, the
result names every primary-key column exactly once. -/
theorem ensurePKOrder_appends_missing_pks (orderCols : List OrderClause)
    (primaryKey : List Str)
    (hnodup : primaryKey.Nodup)
    (honce : ∀ p ∈ primaryKey, orderCols.countP (fun o => o.column = p) ≤ 1) :
    ensurePKOrder orderCols primaryKey
      = orderCols ++ (primaryKey.filter
          (fun pk => !(orderCols.any (fun o => o.column = pk)))).map (fun pk => ⟨pk, Asc⟩)
    ∧ ∀ p ∈ primaryKey,
        (ensurePKOrder orderCols primaryKey).countP (fun o => o.column = p) = 1 := by
  have heq := ensurePKOrder_foldl orderCols orderCols primaryKey
  refine ⟨heq, fun p hp => ?_⟩
  rw [show ensurePKOrder orderCols primaryKey = _ from heq, List.countP_append]
  have hmapcount : ((primaryKey.filter
      (fun pk => !(orderCols.any (fun o => o.column = pk)))).map
        (fun pk => (⟨pk, Asc⟩ : OrderClause))).countP (fun o => o.column = p)
      = (primaryKey.filter (fun pk => !(orderCols.any (fun o => o.column = pk)))).countP
          (fun pk => pk = p) := by
    rw [List.countP_map]
    refine List.countP_congr (fun a _ => ?_)
    simp
  by_cases hin : (orderCols.any (fun o => o.column = p)) = true
  · have h1 : 0 < orderCols.countP (fun o => o.column = p) := by
      rw [List.any_eq_true] at hin
      obtain ⟨o, ho, hcol⟩ := hin
      exact List.countP_pos_iff.mpr ⟨o, ho, hcol⟩
    have h2 := honce p hp
    have hz : ((primaryKey.filter
        (fun pk => !(orderCols.any (fun o => o.column = pk)))).map
          (fun pk => (⟨pk, Asc⟩ : OrderClause))).countP (fun o => o.column = p) = 0 := by
      rw [hmapcount, List.countP_eq_zero]
      intro pk hpk
      rw [List.mem_filter] at hpk
      intro hcontra
      have hpkp : pk = p := by simpa using hcontra
      subst hpkp
      have := hpk.2
      rw [Bool.not_eq_true', ← Bool.not_eq_true] at this
      exact this hin
    omega
  · have h0 : orderCols.countP (fun o => o.column = p) = 0 := by
      rw [List.countP_eq_zero]
      intro o ho hcontra
      have hcol : o.column = p := by simpa using hcontra
      exact absurd (List.any_eq_true.mpr ⟨o, ho, by simpa using hcol⟩) hin
    have h1 : ((primaryKey.filter
        (fun pk => !(orderCols.any (fun o => o.column = pk)))).map
          (fun pk => (⟨pk, Asc⟩ : OrderClause))).countP (fun o => o.column = p) = 1 := by
      rw [hmapcount]
      have hq : (fun pk => !(orderCols.any (fun o => o.column = pk))) p = true := by
        simpa using hin
      have hmem : p ∈ primaryKey.filter (fun pk => !(orderCols.any (fun o => o.column = pk))) :=
        List.mem_filter.mpr ⟨hp, hq⟩
      have hnd : (primaryKey.filter
          (fun pk => !(orderCols.any (fun o => o.column = pk)))).Nodup :=
        hnodup.filter _
      exact countP_eq_one_of_nodup_mem hnd hmem
    omega

/-- Witness for the amended C10 theorem at a concrete input. -/
theorem ensurePKOrder_appends_missing_pks_witness :
    ensurePKOrder [⟨"name".toList, Asc⟩] ["id".toList]
      = [⟨"name".toList, Asc⟩, ⟨"id".toList, Asc⟩]
    ∧ (ensurePKOrder [⟨"name".toList, Asc⟩] ["id".toList]).countP
        (fun o => o.column = "id".toList) = 1 := by
  have h := ensurePKOrder_appends_missing_pks [⟨"name".toList, Asc⟩] ["id".toList]
    (by decide) (by decide)
  exact ⟨by rw [h.1]; decide, h.2 _ (by simp)⟩

theorem pgSetClauses_version_mem (table pk : Str) (opts : UpsertOptions)
    (columns : List Str) (hv : opts.VersionColumn ≠ [])
    (hmem : opts.VersionColumn ∈ columns) (hpk : opts.VersionColumn ≠ pk) :
    (opts.VersionColumn ++ " = ".toList ++ table ++ ".".toList ++ opts.VersionColumn
      ++ " + 1".toList) ∈ pgSetClauses table pk opts columns := by
  induction columns with
  | nil => simp at hmem
  | cons col rest ih =>
    rcases List.mem_cons.mp hmem with h | h
    · subst h
      rw [pgSetClauses, if_neg (by exact fun hc => hpk hc), if_pos ⟨rfl, hv⟩]
      exact List.mem_cons_self _ _
    · rw [pgSetClauses]
      split
      · exact ih h
      · split
        · rename_i hc
          rw [hc.1]
          exact List.mem_cons_self _ _
        · exact List.mem_cons_of_mem _ (ih h)

theorem sqliteSetClauses_version_mem (pk : Str) (opts : UpsertOptions)
    (columns : List Str) (hv : opts.VersionColumn ≠ [])
    (hmem : opts.VersionColumn ∈ columns) (hpk : opts.VersionColumn ≠ pk) :
    (opts.VersionColumn ++ " = ".toList ++ opts.VersionColumn ++ " + 1".toList)
      ∈ sqliteSetClauses pk opts columns := by
  induction columns with
  | nil => simp at hmem
  | cons col rest ih =>
    rcases List.mem_cons.mp hmem with h | h
    · subst h
      rw [sqliteSetClauses, if_neg (by exact fun hc => hpk hc), if_pos ⟨rfl, hv⟩]
      exact List.mem_cons_self _ _
    · rw [sqliteSetClauses]
      split
      · exact ih h
      · split
        · rename_i hc
          rw [hc.1]
          exact List.mem_cons_self _ _
        · exact List.mem_cons_of_mem _ (ih h)

theorem mysqlSetClauses_version_mem (pks : List Str) (opts : UpsertOptions)
    (columns : List Str) (hv : opts.VersionColumn ≠ [])
    (hmem : opts.VersionColumn ∈ columns) (hpk : opts.VersionColumn ∉ pks) :
    (opts.VersionColumn ++ " = ".toList ++ opts.VersionColumn ++ " + 1".toList)
      ∈ mysqlSetClauses pks opts columns := by
  induction columns with
  | nil => simp at hmem
  | cons col rest ih =>
    rcases List.mem_cons.mp hmem with h | h
    · subst h
      rw [mysqlSetClauses, if_neg (by simpa [makeSet] using hpk), if_pos ⟨rfl, hv⟩]
      exact List.mem_cons_self _ _
    · rw [mysqlSetClauses]
      split
      · exact ih h
      · split
        · rename_i hc
          rw [hc.1]
          exact List.mem_cons_self _ _
        · exact List.mem_cons_of_mem _ (ih h)

set_option maxRecDepth 100000 in
/-- C2 counterexample: with a declared version column, the MySQL upsert
statement contains no `WHERE` guard clause at all, contradicting the
claim that all three dialects append one. -/
theorem mysql_upsert_no_version_guard :
    ¬ ("WHERE".toList <:+:
      mysqlUpsertSQL "users".toList ["id".toList]
        ["id".toList, "name".toList, "version".toList]
        {VersionColumn := "version".toList}) := by
  decide

/-- C2 (amended): with a declared version column, Postgres and SQLite
append the stale-write guard to the conflict clause (`WHERE
<table>.<v> = EXCLUDED.<v>`, resp. `WHERE <v> = excluded.<v>`) and set
`<v> = <table>.<v> + 1`, resp. `<v> = <v> + 1`; MySQL sets
`<v> = <v> + 1` in its `ON DUPLICATE KEY UPDATE` clause but its upsert
is just the INSERT followed by the SET list — no guard clause exists in
its syntax, so only Postgres and SQLite reject stale concurrent
writes. -/
theorem upsert_version_guard_amended (table pk : Str) (pks columns : List Str)
    (opts : UpsertOptions) (hv : opts.VersionColumn ≠ []) :
    (∃ pre, pgUpsertSQL table pk columns opts
      = pre ++ (" WHERE ".toList ++ table ++ ".".toList ++ opts.VersionColumn
          ++ " = EXCLUDED.".toList ++ opts.VersionColumn))
    ∧ (∃ pre, sqliteUpsertSQL table pk columns opts
      = pre ++ (" WHERE ".toList ++ opts.VersionColumn
          ++ " = excluded.".toList ++ opts.VersionColumn))
    ∧ (opts.VersionColumn ∈ columns → opts.VersionColumn ≠ pk →
        (opts.VersionColumn ++ " = ".toList ++ table ++ ".".toList ++ opts.VersionColumn
          ++ " + 1".toList) ∈ pgSetClauses table pk opts columns)
    ∧ (opts.VersionColumn ∈ columns → opts.VersionColumn ≠ pk →
        (opts.VersionColumn ++ " = ".toList ++ opts.VersionColumn ++ " + 1".toList)
          ∈ sqliteSetClauses pk opts columns)
    ∧ (opts.VersionColumn ∈ columns → opts.VersionColumn ∉ pks →
        (opts.VersionColumn ++ " = ".toList ++ opts.VersionColumn ++ " + 1".toList)
          ∈ mysqlSetClauses pks opts columns)
    ∧ (mysqlSetClauses pks opts columns ++ updatedAtClause MySQL opts ≠ [] →
        mysqlUpsertSQL table pks columns opts
          = insertStmt table (upsertInsertCols columns opts) (qmValuePh MySQL columns opts)
            ++ " ON DUPLICATE KEY UPDATE ".toList
            ++ joinWithSep ", ".toList
                (mysqlSetClauses pks opts columns ++ updatedAtClause MySQL opts)) := by
  refine ⟨?_, ?_, fun hm hp => pgSetClauses_version_mem table pk opts columns hv hm hp,
    fun hm hp => sqliteSetClauses_version_mem pk opts columns hv hm hp,
    fun hm hp => mysqlSetClauses_version_mem pks opts columns hv hm hp, fun hne => ?_⟩
  · refine ⟨insertStmt table (upsertInsertCols columns opts) (pgValuePh Postgres columns opts)
      ++ (" ON CONFLICT (".toList ++ pk ++ ") DO UPDATE SET ".toList
        ++ joinWithSep ", ".toList (pgSetClauses table pk opts columns
            ++ updatedAtClause Postgres opts)), ?_⟩
    simp [pgUpsertSQL, hv]
  · refine ⟨insertStmt table (upsertInsertCols columns opts) (qmValuePh SQLite columns opts)
      ++ (" ON CONFLICT(".toList ++ pk ++ ") DO UPDATE SET ".toList
        ++ joinWithSep ", ".toList (sqliteSetClauses pk opts columns
            ++ updatedAtClause SQLite opts)), ?_⟩
    simp [sqliteUpsertSQL, hv]
  · rw [mysqlUpsertSQL]
    rw [if_neg (by simpa [List.length_eq_zero] using hne)]

/-- Witness for the amended C2 theorem at a concrete input. -/
theorem upsert_version_guard_amended_witness :
    (∃ pre, pgUpsertSQL "users".toList "id".toList
        ["id".toList, "version".toList] {VersionColumn := "version".toList}
      = pre ++ (" WHERE ".toList ++ "users".toList ++ ".".toList ++ "version".toList
          ++ " = EXCLUDED.".toList ++ "version".toList))
    ∧ ("version".toList ++ " = ".toList ++ "version".toList ++ " + 1".toList)
        ∈ mysqlSetClauses ["id".toList] {VersionColumn := "version".toList}
            ["id".toList, "version".toList] := by
  have h := upsert_version_guard_amended "users".toList "id".toList ["id".toList]
    ["id".toList, "version".toList] {VersionColumn := "version".toList} (by decide)
  exact ⟨h.1, h.2.2.2.2.1 (by simp) (by decide)⟩

/-- C3: with a transaction-capable executor supplied and at least one
declared relation, a composite save whose root upsert succeeds (and
passes the version guard) but whose child phase fails is rolled back:
`compositeSave` returns the child-phase error and the transaction
outcome is `rolledBack`, not `committed` — the root upsert is not
committed. -/
theorem composite_save_child_failure_rolls_back (t : Table) (rels : List Relation)
    (cv : CompositeValues) (rest : Script) (rows : Int) (commitOk : Bool) (e : GoErr)
    (hrels : rels ≠ [])
    (hver : checkVersion t (.res rows) = .ok ())
    (hchild : (saveChildLoop cv rels rest).1 = .error e) :
    compositeSave t rels true true commitOk cv (.ok (.res rows) :: rest)
      = (.error e, .rolledBack) := by
  have hlen : ¬ (rels.length = 0) := by
    simpa [List.length_eq_zero] using hrels
  rw [compositeSave, if_neg hlen, if_pos rfl]
  have hswc : (saveWithChildren t rels cv (.ok (.res rows) :: rest)).1 = .error e := by
    rw [saveWithChildren]
    simp only [execOne]
    rw [hver]
    exact hchild
  rw [hswc]
  rfl

/-- Witness for C3 at a concrete input: one delete-and-reinsert
relation whose child delete statement fails. -/
theorem composite_save_child_failure_rolls_back_witness :
    compositeSave ⟨"orders".toList, ["id".toList], ["id".toList, "name".toList], [], [], [], []⟩
        [⟨"items".toList, "order_id".toList, "id".toList,
          ["id".toList, "order_id".toList], .DeleteAndReinsert⟩]
        true true true ⟨[.goStr "o1".toList], fun _ => []⟩
        [.ok (.res 1), .error (.execFail "delete fail".toList)]
      = (.error (.wrapped ("delete children ".toList ++ "items".toList)
          (.execFail "delete fail".toList)), .rolledBack) := by
  exact composite_save_child_failure_rolls_back _ _ _ _ 1 true _ (by simp) (by rfl) (by rfl)

/-- C8: for both drivers' single-statement save paths, a declared
version column turns a zero-affected-rows write into the
concurrent-modification error, a nonzero count succeeds, and without a
version column the affected-row check is a no-op (zero affected rows is
no error; the row count is never even consulted). -/
theorem version_guard_zero_rows (t : Table) :
    (t.VersionColumn ≠ [] →
      simpleSave t [.ok (.res 0)] = (.error .concurrentModification, []))
    ∧ (t.VersionColumn ≠ [] → ∀ r : Int, r ≠ 0 →
      simpleSave t [.ok (.res r)] = (.ok (), []))
    ∧ (t.VersionColumn = [] → ∀ res : SqlResult,
      simpleSave t [.ok res] = (.ok (), []))
    ∧ (∀ hasTx beginOk commitOk : Bool, ∀ cv : CompositeValues,
        t.VersionColumn ≠ [] →
        compositeSave t [] hasTx beginOk commitOk cv [.ok (.res 0)]
          = (.error .concurrentModification, .noTx))
    ∧ (∀ hasTx beginOk commitOk : Bool, ∀ cv : CompositeValues, ∀ r : Int,
        t.VersionColumn ≠ [] → r ≠ 0 →
        compositeSave t [] hasTx beginOk commitOk cv [.ok (.res r)]
          = (.ok (), .noTx))
    ∧ (∀ hasTx beginOk commitOk : Bool, ∀ cv : CompositeValues, ∀ res : SqlResult,
        t.VersionColumn = [] →
        compositeSave t [] hasTx beginOk commitOk cv [.ok res]
          = (.ok (), .noTx)) := by
  refine ⟨fun hv => ?_, fun hv r hr => ?_, fun hv res => ?_,
    fun _ _ _ _ hv => ?_, fun _ _ _ _ r hv hr => ?_, fun _ _ _ _ res hv => ?_⟩
  · simp [simpleSave, execOne, checkVersion, hv]
  · simp [simpleSave, execOne, checkVersion, hv, hr]
  · simp [simpleSave, execOne, checkVersion, hv]
  · simp [compositeSave, execOne, checkVersion, hv]
  · simp [compositeSave, execOne, checkVersion, hv, hr]
  · simp [compositeSave, execOne, checkVersion, hv]

/-- Witness for C8 at a concrete table. -/
theorem version_guard_zero_rows_witness :
    simpleSave ⟨"t".toList, ["id".toList], ["id".toList], "v".toList, [], [], []⟩
        [.ok (.res 0)]
      = (.error .concurrentModification, [])
    ∧ simpleSave ⟨"t".toList, ["id".toList], ["id".toList], "v".toList, [], [], []⟩
        [.ok (.res 1)]
      = (.ok (), [])
    ∧ simpleSave ⟨"t".toList, ["id".toList], ["id".toList], [], [], [], []⟩
        [.ok (.res 0)]
      = (.ok (), []) := by
  have h := version_guard_zero_rows ⟨"t".toList, ["id".toList], ["id".toList],
    "v".toList, [], [], []⟩
  have h0 := version_guard_zero_rows ⟨"t".toList, ["id".toList], ["id".toList],
    [], [], [], []⟩
  exact ⟨h.1 (by decide), h.2.1 (by decide) 1 (by decide), h0.2.2.1 rfl (.res 0)⟩

theorem withSoftDelete_some (t : Table) (s : Spec) (hsd : t.SoftDelete ≠ []) :
    withSoftDelete t (some s) = some (.andSpec [IsNullS t.SoftDelete, s]) := by
  simp [withSoftDelete, hsd]

theorem withSoftDelete_none (t : Table) (hsd : t.SoftDelete ≠ []) :
    withSoftDelete t none = some (IsNullS t.SoftDelete) := by
  simp [withSoftDelete, hsd]

theorem isNullS_toSQL (d : Dialect) (col : Str) (off : Nat) :
    specToSQL d (IsNullS col) off = (col ++ " IS NULL".toList, [], off) := by
  simp [specToSQL, IsNullS]

theorem sdGuard_toSQL (d : Dialect) (sd : Str) (s : Spec) :
    specToSQL d (.andSpec [IsNullS sd, s]) 1
      = ("(".toList ++ sd ++ " IS NULL)".toList ++ " AND ".toList
          ++ "(".toList ++ (specToSQL d s 1).1 ++ ")".toList,
         (specToSQL d s 1).2.1, (specToSQL d s 1).2.2) := by
  simp only [specToSQL, joinSpecs, joinParts, isNullS_toSQL, joinWithSep]
  simp

/-- C7: once a table declares a soft-delete column, `Find`, `FindBy`,
`ExistsBy`, `CountBy` and the `Query` terminals (`All`/`First` via
`buildSQL`, `Count`, `Exists`, `Page`) all conjoin `<col> IS NULL` in
front of any supplied filter (the filter's placeholders still starting
at offset 1, since the null test consumes none), the no-filter cases
filter on `<col> IS NULL` alone, and `Delete` compiles to an `UPDATE`
stamping the column guarded by `<col> IS NULL` instead of a `DELETE`. -/
theorem soft_delete_guard (t : Table) (d : Dialect) (hsd : t.SoftDelete ≠ []) :
    (∀ ids, findSQL t d ids
      = (selectWhere t ("(".toList ++ t.SoftDelete ++ " IS NULL)".toList ++ " AND ".toList
          ++ "(".toList ++ (specToSQL d (buildPKSpec t ids) 1).1 ++ ")".toList),
         (specToSQL d (buildPKSpec t ids) 1).2.1))
    ∧ (∀ s, findBySQL t d (some s)
      = (selectWhere t ("(".toList ++ t.SoftDelete ++ " IS NULL)".toList ++ " AND ".toList
          ++ "(".toList ++ (specToSQL d s 1).1 ++ ")".toList),
         (specToSQL d s 1).2.1))
    ∧ findBySQL t d none = (selectWhere t (t.SoftDelete ++ " IS NULL".toList), [])
    ∧ (∀ s, existsBySQL t d (some s)
      = ("SELECT EXISTS(SELECT 1 FROM ".toList ++ t.Name ++ " WHERE ".toList
          ++ ("(".toList ++ t.SoftDelete ++ " IS NULL)".toList ++ " AND ".toList
            ++ "(".toList ++ (specToSQL d s 1).1 ++ ")".toList) ++ ")".toList,
         (specToSQL d s 1).2.1))
    ∧ existsBySQL t d none
      = ("SELECT EXISTS(SELECT 1 FROM ".toList ++ t.Name ++ " WHERE ".toList
          ++ t.SoftDelete ++ " IS NULL".toList ++ ")".toList, [])
    ∧ (∀ s, countBySQL t d (some s)
      = ("SELECT COUNT(*) FROM ".toList ++ t.Name ++ " WHERE ".toList
          ++ ("(".toList ++ t.SoftDelete ++ " IS NULL)".toList ++ " AND ".toList
            ++ "(".toList ++ (specToSQL d s 1).1 ++ ")".toList),
         (specToSQL d s 1).2.1))
    ∧ countBySQL t d none
      = ("SELECT COUNT(*) FROM ".toList ++ t.Name ++ " WHERE ".toList
          ++ t.SoftDelete ++ " IS NULL".toList, [])
    ∧ (∀ s, queryCountSQL t d { specs := [s] }
      = ("SELECT COUNT(*) FROM ".toList ++ t.Name ++ " WHERE ".toList
          ++ ("(".toList ++ t.SoftDelete ++ " IS NULL)".toList ++ " AND ".toList
            ++ "(".toList ++ (specToSQL d s 1).1 ++ ")".toList),
         (specToSQL d s 1).2.1))
    ∧ (∀ s, queryExistsSQL t d { specs := [s] }
      = ("SELECT EXISTS(SELECT 1 FROM ".toList ++ t.Name ++ " WHERE ".toList
          ++ ("(".toList ++ t.SoftDelete ++ " IS NULL)".toList ++ " AND ".toList
            ++ "(".toList ++ (specToSQL d s 1).1 ++ ")".toList) ++ ")".toList,
         (specToSQL d s 1).2.1))
    ∧ (∀ s, buildSQL t d { specs := [s] }
      = (selectWhere t ("(".toList ++ t.SoftDelete ++ " IS NULL)".toList ++ " AND ".toList
          ++ "(".toList ++ (specToSQL d s 1).1 ++ ")".toList),
         (specToSQL d s 1).2.1))
    ∧ buildSQL t d {} = (selectWhere t (t.SoftDelete ++ " IS NULL".toList), [])
    ∧ (∀ p : Int, 1 ≤ p →
        pageRun (T := Str × List GoVal) t d { pageSize := some p } (fun _ => [])
          (fun query args => [(query, args)])
        = .ok ⟨[(selectWhere t (t.SoftDelete ++ " IS NULL".toList)
              ++ buildOrderSQL (ensurePKOrder [] t.PrimaryKey)
              ++ " LIMIT ".toList ++ d.Placeholder 1,
             [GoVal.goInt (p + 1)])], [], false⟩)
    ∧ deleteSQL t d
      = "UPDATE ".toList ++ t.Name ++ " SET ".toList ++ t.SoftDelete ++ " = ".toList ++ d.Now
        ++ " WHERE ".toList
        ++ joinWithSep " AND ".toList
            (t.PrimaryKey.enum.map (fun e => e.2 ++ " = ".toList ++ d.Placeholder (e.1 + 1)))
        ++ " AND ".toList ++ t.SoftDelete ++ " IS NULL".toList := by
  refine ⟨fun ids => ?_, fun s => ?_, ?_, fun s => ?_, ?_, fun s => ?_, ?_, fun s => ?_,
    fun s => ?_, fun s => ?_, ?_, fun p hp => ?_, ?_⟩
  · simp only [findSQL, withSoftDelete_some t (buildPKSpec t ids) hsd, sdGuard_toSQL]
  · simp only [findBySQL, withSoftDelete_some t s hsd, sdGuard_toSQL]
  · simp only [findBySQL, withSoftDelete_none t hsd, isNullS_toSQL]
  · simp only [existsBySQL, withSoftDelete_some t s hsd, sdGuard_toSQL]
  · simp only [existsBySQL, withSoftDelete_none t hsd, isNullS_toSQL]
    simp
  · simp only [countBySQL, withSoftDelete_some t s hsd, sdGuard_toSQL]
  · simp only [countBySQL, withSoftDelete_none t hsd, isNullS_toSQL]
    simp
  · simp only [queryCountSQL, show combinedSpec [s] = some s from rfl,
      withSoftDelete_some t s hsd, sdGuard_toSQL]
  · simp only [queryExistsSQL, show combinedSpec [s] = some s from rfl,
      withSoftDelete_some t s hsd, sdGuard_toSQL]
  · simp only [buildSQL, show combinedSpec [s] = some s from rfl,
      withSoftDelete_some t s hsd, sdGuard_toSQL]
    simp
  · simp only [buildSQL, show combinedSpec ([] : List Spec) = none from rfl,
      withSoftDelete_none t hsd, isNullS_toSQL]
    simp
  · have hmore : ¬ ((1 : Int) > p) := by omega
    simp only [pageRun, show combinedSpec ([] : List Spec) = none from rfl,
      withSoftDelete_none t hsd, isNullS_toSQL]
    simp [hmore, Option.getD, isNullS_toSQL]
  · rw [deleteSQL]
    simp [hsd]

/-- Witness for C7 at a concrete table, dialect and filter. -/
theorem soft_delete_guard_witness :
    findBySQL ⟨"t".toList, ["id".toList], ["id".toList], [], "deleted_at".toList, [], []⟩
        Postgres (some (EqS "id".toList (.goStr "x".toList)))
      = ("SELECT id FROM t WHERE (deleted_at IS NULL) AND (id = $1)".toList,
         [.goStr "x".toList])
    ∧ deleteSQL ⟨"t".toList, ["id".toList], ["id".toList], [], "deleted_at".toList, [], []⟩
        Postgres
      = "UPDATE t SET deleted_at = NOW() WHERE id = $1 AND deleted_at IS NULL".toList := by
  have h := soft_delete_guard
    ⟨"t".toList, ["id".toList], ["id".toList], [], "deleted_at".toList, [], []⟩
    Postgres (by decide)
  constructor
  · rw [h.2.1 (EqS "id".toList (.goStr "x".toList))]
    simp only [EqS, specToSQL]
    decide
  · rw [h.2.2.2.2.2.2.2.2.2.2.2.2]
    decide

theorem utf8EncodeChar_ne_nil (c : Char) : utf8EncodeChar c ≠ [] := by
  rw [utf8EncodeChar]
  split <;> try simp
  split <;> try simp
  split <;> simp

theorem utf8Encode_cons_ne_nil (c : Char) (s : Str) : utf8Encode (c :: s) ≠ [] := by
  rw [utf8Encode, List.flatMap_cons]
  intro h
  exact utf8EncodeChar_ne_nil c (List.append_eq_nil.mp h).1

theorem b64Encode_cons_ne_nil (b : Nat) (bs : List Nat) : b64Encode (b :: bs) ≠ [] := by
  match bs with
  | [] => simp [b64Encode]
  | [b1] => simp [b64Encode]
  | b1 :: b2 :: rest => simp [b64Encode]

theorem encodeCursor_ne_nil (c : Cursor) : EncodeCursor c ≠ [] := by
  rw [EncodeCursor, cursorJSON]
  have h := utf8Encode_cons_ne_nil lbrace
    ('"' :: 'v' :: '"' :: ':' ::
      printObj (c.Values.insertionSort (fun a b => strLeb a.1 b.1)) ++ [rbrace])
  match hu : utf8Encode (lbrace :: ('"' :: 'v' :: '"' :: ':' ::
      printObj (c.Values.insertionSort (fun a b => strLeb a.1 b.1)) ++ [rbrace])) with
  | [] => exact absurd hu h
  | b :: bs => exact b64Encode_cons_ne_nil b bs

/-- C5: `Page` issues its query with LIMIT argument `p + 1` (`p` the
page size, default 20), and — whenever the executor honours the LIMIT —
more than `p` returned rows are trimmed to exactly `p` items with
`hasMore = true` and a non-empty next cursor obtained by applying the
extractor to the last retained row, while `p` or fewer rows are returned
whole with `hasMore = false` and an empty cursor. -/
theorem page_fetch_behavior {T : Type} (t : Table) (d : Dialect) (q : QueryState)
    (extract : T → List (Str × GoVal)) (fetch : Str → List GoVal → List T)
    (hcur : q.cursor = []) (hp : 1 ≤ q.pageSize.getD 20) :
    ∃ query args,
      args.getLast? = some (.goInt (q.pageSize.getD 20 + 1))
      ∧ ∀ rows, rows = fetch query args →
          ((rows.length : Int) > q.pageSize.getD 20 →
            (rows.length : Int) ≤ q.pageSize.getD 20 + 1 →
            ∃ last, (rows.take (rows.length - 1)).getLast? = some last
              ∧ pageRun t d q extract fetch
                  = .ok ⟨rows.take (rows.length - 1), EncodeCursor ⟨extract last⟩, true⟩
              ∧ ((rows.take (rows.length - 1)).length : Int) = q.pageSize.getD 20
              ∧ EncodeCursor ⟨extract last⟩ ≠ [])
          ∧ ((rows.length : Int) ≤ q.pageSize.getD 20 →
            pageRun t d q extract fetch = .ok ⟨rows, [], false⟩) := by
  have hfetchArgs : ∀ (queryBase : Str) (args0 : List GoVal) (nextParam : Nat),
      (args0 ++ [GoVal.goInt (q.pageSize.getD 20 + 1)]).getLast?
        = some (.goInt (q.pageSize.getD 20 + 1)) := by
    intro _ args0 _
    exact List.getLast?_concat _
  rcases hspec : withSoftDelete t (combinedSpec q.specs) with _ | s
  case none =>
    refine ⟨selectFrom t ++ buildOrderSQL (ensurePKOrder q.orderCols t.PrimaryKey)
        ++ " LIMIT ".toList ++ d.Placeholder 1,
      [GoVal.goInt (q.pageSize.getD 20 + 1)], by simp, ?_⟩
    intro rows hrows
    constructor
    · intro hgt hle
      have hlen1 : 2 ≤ rows.length := by omega
      have htrim : (rows.take (rows.length - 1)).length = rows.length - 1 := by
        simp [List.length_take]
      have hne : rows.take (rows.length - 1) ≠ [] := by
        intro hcontra
        rw [← List.length_eq_zero, htrim] at hcontra
        omega
      obtain ⟨last, hlast⟩ : ∃ last, (rows.take (rows.length - 1)).getLast? = some last := by
        rcases hl : (rows.take (rows.length - 1)).getLast? with _ | l
        · exact absurd (List.getLast?_eq_none_iff.mp hl) hne
        · exact ⟨l, rfl⟩
      refine ⟨last, hlast, ?_, by omega, encodeCursor_ne_nil _⟩
      rw [pageRun]
      simp only [hcur, hspec]
      simp only [if_neg (by simp : ¬ (([] : Str) ≠ []))]
      try simp only [List.nil_append]
      simp only [← hrows]
      simp only [if_pos hgt, hlast]
      try simp [List.append_assoc]
      all_goals omega
    · intro hle
      rw [pageRun]
      simp only [hcur, hspec]
      simp only [if_neg (by simp : ¬ (([] : Str) ≠ []))]
      try simp only [List.nil_append]
      simp only [← hrows]
      simp only [if_neg (by omega : ¬ ((rows.length : Int) > q.pageSize.getD 20))]
      try simp [List.append_assoc]
      all_goals omega
  case some =>
    refine ⟨selectWhere t (specToSQL d s 1).1
        ++ buildOrderSQL (ensurePKOrder q.orderCols t.PrimaryKey)
        ++ " LIMIT ".toList ++ d.Placeholder (specToSQL d s 1).2.2,
      (specToSQL d s 1).2.1 ++ [GoVal.goInt (q.pageSize.getD 20 + 1)],
      List.getLast?_concat _, ?_⟩
    intro rows hrows
    constructor
    · intro hgt hle
      have hlen1 : 2 ≤ rows.length := by omega
      have htrim : (rows.take (rows.length - 1)).length = rows.length - 1 := by
        simp [List.length_take]
      have hne : rows.take (rows.length - 1) ≠ [] := by
        intro hcontra
        rw [← List.length_eq_zero, htrim] at hcontra
        omega
      obtain ⟨last, hlast⟩ : ∃ last, (rows.take (rows.length - 1)).getLast? = some last := by
        rcases hl : (rows.take (rows.length - 1)).getLast? with _ | l
        · exact absurd (List.getLast?_eq_none_iff.mp hl) hne
        · exact ⟨l, rfl⟩
      refine ⟨last, hlast, ?_, by omega, encodeCursor_ne_nil _⟩
      rw [pageRun]
      simp only [hcur, hspec]
      simp only [if_neg (by simp : ¬ (([] : Str) ≠ []))]
      try simp only [List.nil_append]
      simp only [← hrows]
      simp only [if_pos hgt, hlast]
      try simp [List.append_assoc]
      all_goals omega
    · intro hle
      rw [pageRun]
      simp only [hcur, hspec]
      simp only [if_neg (by simp : ¬ (([] : Str) ≠ []))]
      try simp only [List.nil_append]
      simp only [← hrows]
      simp only [if_neg (by omega : ¬ ((rows.length : Int) > q.pageSize.getD 20))]
      try simp [List.append_assoc]
      all_goals omega

/-- Witness for C5 at a concrete query: page size 2, three rows
returned. -/
theorem page_fetch_behavior_witness :
    pageRun (T := Nat) ⟨"t".toList, ["id".toList], ["id".toList], [], [], [], []⟩ Postgres
        { pageSize := some 2 } (fun n => [("id".toList, GoVal.goInt n)])
        (fun _ _ => [1, 2, 3])
      = .ok ⟨[1, 2], EncodeCursor ⟨[("id".toList, GoVal.goInt 2)]⟩, true⟩ := by
  obtain ⟨query, args, hargs, hbody⟩ := page_fetch_behavior
    (T := Nat) ⟨"t".toList, ["id".toList], ["id".toList], [], [], [], []⟩ Postgres
    { pageSize := some 2 } (fun n => [("id".toList, GoVal.goInt n)])
    (fun _ _ => [1, 2, 3]) rfl (by decide)
  obtain ⟨last, hlast, heq, _, _⟩ := (hbody [1, 2, 3] rfl).1 (by decide) (by decide)
  have hl2 : last = 2 := by
    have h2 : (([1, 2, 3] : List Nat).take (([1, 2, 3] : List Nat).length - 1)).getLast?
        = some 2 := by decide
    exact Option.some.inj (hlast.symm.trans h2)
  subst hl2
  rw [heq]
  congr 1

/-! Basic facts about `replaceAll`. -/

theorem replaceAll_nil (pat rep : Str) : replaceAll [] pat rep = [] := by
  rw [replaceAll]

theorem replaceAll_cons_match {c : Char} {cs pat : Str} (rep : Str) (hpat : pat ≠ [])
    (h : pat.isPrefixOf (c :: cs)) :
    replaceAll (c :: cs) pat rep = rep ++ replaceAll ((c :: cs).drop pat.length) pat rep := by
  rw [replaceAll, if_pos ⟨hpat, h⟩]

theorem replaceAll_cons_skip {c : Char} {cs pat : Str} (rep : Str)
    (h : ¬ pat.isPrefixOf (c :: cs)) :
    replaceAll (c :: cs) pat rep = c :: replaceAll cs pat rep := by
  rw [replaceAll, if_neg (fun hc => h hc.2)]

theorem replaceAll_match (pat rest rep : Str) (hpat : pat ≠ []) :
    replaceAll (pat ++ rest) pat rep = rep ++ replaceAll rest pat rep := by
  match pat, hpat with
  | p :: pt, _ =>
    rw [List.cons_append]
    rw [replaceAll_cons_match rep (by simp)
      (List.isPrefixOf_iff_prefix.mpr ⟨rest, by simp⟩)]
    congr 2
    rw [← List.cons_append, List.drop_left]

theorem replaceAll_skip_not_head (l rest : Str) (p0 : Char) (pt rep : Str) (h : p0 ∉ l) :
    replaceAll (l ++ rest) (p0 :: pt) rep = l ++ replaceAll rest (p0 :: pt) rep := by
  induction l with
  | nil => simp
  | cons c l' ih =>
    have hc : c ≠ p0 := fun hc => h (hc ▸ List.mem_cons_self c l')
    rw [List.cons_append, replaceAll_cons_skip rep (fun hpre => ?_), ih (fun hm => h (List.mem_cons_of_mem c hm)), List.cons_append]
    rcases List.isPrefixOf_iff_prefix.mp hpre with ⟨t, ht⟩
    exact hc (by injection ht with h1 _; exact h1.symm)

theorem replaceAll_skip_no_occ (l rest pat rep : Str) (hpat : pat ≠ [])
    (h : ∀ a b, l = a ++ b → b ≠ [] → ¬ pat.isPrefixOf (b ++ rest)) :
    replaceAll (l ++ rest) pat rep = l ++ replaceAll rest pat rep := by
  induction l with
  | nil => simp
  | cons c l' ih =>
    rw [List.cons_append, replaceAll_cons_skip rep ?_, ih ?_, List.cons_append]
    · intro a b hab hb
      exact h (c :: a) b (by rw [hab, List.cons_append]) hb
    · have := h [] (c :: l') (by simp) (by simp)
      rw [List.cons_append] at this
      exact this

/-! Facts about decimal digit strings. -/

theorem natChars_ne_nil (n : Nat) : natChars n ≠ [] := by
  rw [natChars_eq]
  split
  · simp
  · simp

theorem mem_natChars_digit (n : Nat) : ∀ c ∈ natChars n, c.isDigit := by
  induction n using Nat.strong_induction_on with
  | _ n ih =>
    rw [natChars_eq]
    have hdig : ∀ m : Nat, m < 10 → (Nat.digitChar m).isDigit := by decide
    split
    · rename_i h
      intro c hc
      rw [List.mem_singleton] at hc
      exact hc ▸ hdig n h
    · rename_i h
      intro c hc
      rcases List.mem_append.mp hc with h1 | h1
      · exact ih (n / 10) (Nat.div_lt_self (by omega) (by omega)) c h1
      · rw [List.mem_singleton] at h1
        exact h1 ▸ hdig (n % 10) (Nat.mod_lt _ (by omega))

theorem digitsVal_snoc (xs : Str) (c : Char) :
    digitsVal (xs ++ [c]) = 10 * digitsVal xs + (c.toNat - '0'.toNat) := by
  rw [digitsVal, digitsVal, List.foldl_append, List.foldl_cons, List.foldl_nil]

theorem digitsVal_natChars (n : Nat) : digitsVal (natChars n) = n := by
  induction n using Nat.strong_induction_on with
  | _ n ih =>
    rw [natChars_eq]
    have hval : ∀ m : Nat, m < 10 → (Nat.digitChar m).toNat - '0'.toNat = m := by decide
    split
    · rename_i h
      show digitsVal ([] ++ [Nat.digitChar n]) = n
      rw [digitsVal_snoc]
      rw [hval n h]
      simp [digitsVal]
    · rename_i h
      rw [digitsVal_snoc, ih (n / 10) (Nat.div_lt_self (by omega) (by omega)),
        hval (n % 10) (Nat.mod_lt _ (by omega))]
      omega

theorem natChars_inj {a b : Nat} (h : natChars a = natChars b) : a = b := by
  have := digitsVal_natChars a
  rw [h, digitsVal_natChars] at this
  omega

theorem digitsVal_init (l : Str) (init : Nat) :
    l.foldl (fun a c => 10 * a + (c.toNat - '0'.toNat)) init
      = init * 10 ^ l.length + digitsVal l := by
  induction l generalizing init with
  | nil => simp [digitsVal]
  | cons c l ih =>
    rw [List.foldl_cons, ih]
    rw [show digitsVal (c :: l) = (c :: l).foldl (fun a c => 10 * a + (c.toNat - '0'.toNat)) 0
      from rfl]
    rw [List.foldl_cons, ih]
    simp [List.length_cons, pow_succ]
    ring

theorem digitsVal_append (a b : Str) :
    digitsVal (a ++ b) = digitsVal a * 10 ^ b.length + digitsVal b := by
  rw [digitsVal, List.foldl_append, ← digitsVal, digitsVal_init]

theorem natChars_extend_ge {i j : Nat} (t : Str) (hij : natChars j = natChars i ++ t)
    (ht : t ≠ []) (hi : 1 ≤ i) : 10 * i ≤ j := by
  have hj := digitsVal_natChars j
  rw [hij, digitsVal_append, digitsVal_natChars] at hj
  have hlen : 1 ≤ t.length := by
    cases t with
    | nil => exact absurd rfl ht
    | cons _ _ => simp
  have hpow : 10 ^ 1 ≤ 10 ^ t.length := Nat.pow_le_pow_right (by omega) hlen
  have : 10 * i ≤ i * 10 ^ t.length := by
    calc 10 * i = i * 10 := by ring
    _ ≤ i * 10 ^ t.length := Nat.mul_le_mul_left i (by simpa using hpow)
  omega

theorem natChars_head_digit (n : Nat) {c : Char} (h : (natChars n).head? = some c) :
    c.isDigit := by
  have hmem : c ∈ natChars n := by
    cases hnc : natChars n with
    | nil => rw [hnc] at h; simp at h
    | cons a l =>
      rw [hnc] at h
      simp only [List.head?_cons, Option.some.injEq] at h
      rw [← h]
      exact hnc ▸ List.mem_cons_self a l
  exact mem_natChars_digit n c hmem

/-- A digit run extended by a non-digit can only be a prefix of another
digit run extended by a non-digit when the runs agree. -/
theorem digitrun_run_eq {x y : Nat} {u v : Str} (hu0 : u ≠ [])
    (hu : ∀ c, u.head? = some c → ¬ c.isDigit)
    (hv : ∀ c, v.head? = some c → ¬ c.isDigit)
    (h : (natChars x ++ u) <+: (natChars y ++ v)) :
    x = y ∧ u <+: v := by
  obtain ⟨t, ht⟩ := h
  rcases Nat.lt_trichotomy (natChars x).length (natChars y).length with hlen | hlen | hlen
  · exfalso
    have hdrop := congrArg (List.drop (natChars x).length) ht
    rw [List.append_assoc, List.drop_left] at hdrop
    have hy : natChars y = (natChars y).take (natChars x).length
        ++ (natChars y).drop (natChars x).length := (List.take_append_drop _ _).symm
    rw [hy, List.append_assoc, List.drop_left' (by simp [List.length_take]; omega)] at hdrop
    have hne : (natChars y).drop (natChars x).length ≠ [] := by
      intro hcon
      rw [← List.length_eq_zero] at hcon
      simp only [List.length_drop] at hcon
      omega
    match hd : (natChars y).drop (natChars x).length, hne with
    | c :: l, _ =>
      rw [hd] at hdrop
      match u, hu0 with
      | cu :: us, _ =>
        have hcc : cu = c := by
          rw [List.cons_append] at hdrop
          injection hdrop with h1 _
        have : c.isDigit := mem_natChars_digit y c
          (List.mem_of_mem_drop (hd ▸ List.mem_cons_self c l))
        exact hu cu rfl (hcc ▸ this)
  · have htake := congrArg (List.take (natChars x).length) ht
    rw [List.append_assoc, List.take_left] at htake
    rw [List.take_append_of_le_length (by omega)] at htake
    have hxy : x = y := natChars_inj (htake.trans (List.take_of_length_le (by omega)))
    refine ⟨hxy, ?_⟩
    have hdrop := congrArg (List.drop (natChars x).length) ht
    rw [List.append_assoc, List.drop_left] at hdrop
    rw [List.drop_append_of_le_length (by omega),
      List.drop_of_length_le (by omega), List.nil_append] at hdrop
    exact ⟨t, hdrop⟩
  · exfalso
    have hdrop := congrArg (List.drop (natChars y).length) ht
    rw [show (natChars x ++ u) ++ t = natChars x ++ (u ++ t) from by simp, ] at hdrop
    rw [List.drop_append_of_le_length (by omega)] at hdrop
    rw [List.drop_left] at hdrop
    have hne : (natChars x).drop (natChars y).length ≠ [] := by
      intro hcon
      rw [← List.length_eq_zero] at hcon
      simp only [List.length_drop] at hcon
      omega
    match hd : (natChars x).drop (natChars y).length, hne with
    | c :: l, _ =>
      rw [hd, List.cons_append] at hdrop
      have hcd : c.isDigit := mem_natChars_digit x c
        (List.mem_of_mem_drop (hd ▸ List.mem_cons_self c l))
      exact hv c (by rw [← hdrop]; simp) hcd

/-- A bare digit run prefixing another digit run (followed by a
non-digit) forces equality or a tenfold-larger value. -/
theorem digitrun_bare_leading {x y : Nat} {v : Str} (hx : 1 ≤ x)
    (hv : ∀ c, v.head? = some c → ¬ c.isDigit)
    (h : natChars x <+: (natChars y ++ v)) :
    x = y ∨ 10 * x ≤ y := by
  by_cases hlen : (natChars x).length ≤ (natChars y).length
  · have h2 : natChars x <+: natChars y :=
      List.prefix_of_prefix_length_le h (List.prefix_append _ _) hlen
    obtain ⟨t, ht⟩ := h2
    cases t with
    | nil =>
      left
      exact natChars_inj (by simpa using ht)
    | cons c l =>
      right
      exact natChars_extend_ge (c :: l) ht.symm (by simp) hx
  · exfalso
    obtain ⟨t, ht⟩ := h
    have hdrop := congrArg (List.drop (natChars y).length) ht
    rw [List.drop_append_of_le_length (by omega), List.drop_left] at hdrop
    have hne : (natChars x).drop (natChars y).length ≠ [] := by
      intro hcon
      rw [← List.length_eq_zero] at hcon
      simp only [List.length_drop] at hcon
      omega
    match hd : (natChars x).drop (natChars y).length, hne with
    | c :: l, _ =>
      rw [hd, List.cons_append] at hdrop
      have hcd : c.isDigit := mem_natChars_digit x c
        (List.mem_of_mem_drop (hd ▸ List.mem_cons_self c l))
      exact hv c (by rw [← hdrop]; simp) hcd

theorem dollar_not_in_natChars (n : Nat) : '$' ∉ natChars n := by
  intro h
  have := mem_natChars_digit n _ h
  exact absurd this (by decide)

theorem underscore_not_in_natChars (n : Nat) : '_' ∉ natChars n := by
  intro h
  have := mem_natChars_digit n _ h
  exact absurd this (by decide)

theorem dollar_not_in_rawMarker (j : Nat) : '$' ∉ rawMarker j := by
  rw [rawMarker]
  intro h
  rcases List.mem_append.mp h with h1 | h1
  · rcases List.mem_append.mp h1 with h2 | h2
    · exact absurd h2 (by decide)
    · exact dollar_not_in_natChars j h2
  · exact absurd h1 (by decide)

theorem dollarTok_not_leading {i j : Nat} (hj : 1 ≤ j) (hji : j < i) (rest : Str)
    (hrest : ∀ c, rest.head? = some c → ¬ c.isDigit) :
    ¬ (dollarTok i).isPrefixOf (dollarTok j ++ rest) := by
  intro h
  have h2 := List.isPrefixOf_iff_prefix.mp h
  rw [dollarTok, dollarTok, List.cons_append, List.cons_prefix_cons] at h2
  rcases digitrun_bare_leading (by omega) hrest h2.2 with he | hge
  · omega
  · omega

theorem replaceAll_skip_dollarTok {i j : Nat} (hj : 1 ≤ j) (hji : j < i) (R rep : Str)
    (hR : ∀ c, R.head? = some c → ¬ c.isDigit) :
    replaceAll (dollarTok j ++ R) (dollarTok i) rep
      = dollarTok j ++ replaceAll R (dollarTok i) rep := by
  rw [dollarTok, List.cons_append,
    replaceAll_cons_skip rep (by
      rw [← List.cons_append, ← dollarTok]
      exact dollarTok_not_leading hj hji R hR),
    show dollarTok i = '$' :: natChars i from rfl,
    replaceAll_skip_not_head _ _ _ _ _ (dollar_not_in_natChars j)]
  simp [dollarTok]

theorem renderWith_head_not_digit (f : Nat → Str)
    (hf : ∀ j, 1 ≤ j → ∃ c u, f j = c :: u ∧ ¬ c.isDigit)
    (ps : List RawPiece)
    (htok : ∀ j, RawPiece.tok j ∈ ps → 1 ≤ j)
    (hlit : ∀ s, RawPiece.lit s ∈ ps → s ≠ [])
    (hheadlit : ∀ s, ps.head? = some (.lit s) → ∀ c, s.head? = some c → ¬ c.isDigit) :
    ∀ c, (renderWith f ps).head? = some c → ¬ c.isDigit := by
  match ps with
  | [] => intro c hc; rw [renderWith] at hc; simp at hc
  | .lit s :: ps' =>
    intro c hc
    rw [renderWith] at hc
    match hs : s, hlit s (List.mem_cons_self _ _) with
    | s0 :: s', _ =>
      rw [List.cons_append, List.head?_cons, Option.some.injEq] at hc
      exact hheadlit (s0 :: s') (by rw [← hs]; rfl) c (by rw [← hc]; rfl)
  | .tok j :: ps' =>
    intro c hc
    rw [renderWith] at hc
    obtain ⟨c0, u, hfj, hc0⟩ := hf j (htok j (List.mem_cons_self _ _))
    rw [hfj, List.cons_append, List.head?_cons, Option.some.injEq] at hc
    exact hc ▸ hc0

theorem adj_lit_head_not_digit {p : RawPiece} {s : Str}
    (h : adjOK2 p (RawPiece.lit s) = true) :
    ∀ c, s.head? = some c → ¬ c.isDigit := by
  intro c hc hcd
  match p with
  | .lit t =>
    simp only [adjOK2] at h
    exact Bool.false_ne_true h
  | .tok j =>
    simp only [adjOK2, hc] at h
    rw [hcd] at h
    simp at h

theorem replaceAll_skip_no_dollar (l rest rep : Str) (i : Nat) (h : '$' ∉ l) :
    replaceAll (l ++ rest) (dollarTok i) rep = l ++ replaceAll rest (dollarTok i) rep :=
  replaceAll_skip_not_head l rest '$' (natChars i) rep h

theorem passOne_step (i k : Nat) (hi : 1 ≤ i) (hik : i ≤ k) (ps : List RawPiece)
    (hlit : ∀ s, RawPiece.lit s ∈ ps → litOK s)
    (htok : ∀ j, RawPiece.tok j ∈ ps → 1 ≤ j ∧ j ≤ k)
    (hchain : List.Chain' (fun a b => adjOK2 a b = true) ps) :
    replaceAll (renderWith (passOneState i) ps) (dollarTok i) (rawMarker i)
      = renderWith (passOneState (i - 1)) ps := by
  induction ps with
  | nil => rw [renderWith, replaceAll_nil, renderWith]
  | cons p ps ih =>
    have hlit' : ∀ s, RawPiece.lit s ∈ ps → litOK s :=
      fun s hs => hlit s (List.mem_cons_of_mem _ hs)
    have htok' : ∀ j, RawPiece.tok j ∈ ps → 1 ≤ j ∧ j ≤ k :=
      fun j hj => htok j (List.mem_cons_of_mem _ hj)
    have ihs := ih hlit' htok' hchain.tail
    have hrel := (List.chain'_cons'.mp hchain).1
    have hresthead : ∀ c, (renderWith (passOneState i) ps).head? = some c → ¬ c.isDigit := by
      refine renderWith_head_not_digit _ ?_ ps (fun j hj => (htok' j hj).1)
        (fun s hs => (hlit' s hs).1) ?_
      · intro j hj
        rw [passOneState]
        by_cases h : i < j
        · exact ⟨'_', _, by rw [if_pos h]; rfl, by decide⟩
        · exact ⟨'$', _, by rw [if_neg h]; rfl, by decide⟩
      · intro s hs
        exact adj_lit_head_not_digit (hrel _ (Option.mem_def.mpr hs))
    match p with
    | .lit s =>
      rw [renderWith, renderWith,
        replaceAll_skip_no_dollar s _ _ i (hlit s (List.mem_cons_self _ _)).2.1, ihs]
    | .tok j =>
      obtain ⟨hj1, hj2⟩ := htok j (List.mem_cons_self _ _)
      rw [renderWith, renderWith, passOneState, passOneState]
      by_cases hji : i < j
      · rw [if_pos hji, if_pos (show i - 1 < j by omega),
          replaceAll_skip_no_dollar _ _ _ i (dollar_not_in_rawMarker j), ihs]
      · rw [if_neg hji]
        by_cases hje : j = i
        · subst hje
          rw [if_pos (show j - 1 < j by omega),
            replaceAll_match _ _ _ (by rw [dollarTok]; simp), ihs]
        · rw [if_neg (show ¬ i - 1 < j by omega),
            replaceAll_skip_dollarTok hj1 (by omega) _ _ hresthead, ihs]

theorem renderWith_congr (f g : Nat → Str) (ps : List RawPiece)
    (h : ∀ j, RawPiece.tok j ∈ ps → f j = g j) :
    renderWith f ps = renderWith g ps := by
  induction ps with
  | nil => rw [renderWith, renderWith]
  | cons p ps ih =>
    match p with
    | .lit s =>
      rw [renderWith, renderWith, ih (fun j hj => h j (List.mem_cons_of_mem _ hj))]
    | .tok j =>
      rw [renderWith, renderWith, h j (List.mem_cons_self _ _),
        ih (fun j hj => h j (List.mem_cons_of_mem _ hj))]

theorem passOne_fold (m k : Nat) (hmk : m ≤ k) (ps : List RawPiece)
    (hlit : ∀ s, RawPiece.lit s ∈ ps → litOK s)
    (htok : ∀ j, RawPiece.tok j ∈ ps → 1 ≤ j ∧ j ≤ k)
    (hchain : List.Chain' (fun a b => adjOK2 a b = true) ps) :
    rawPassOne m (renderWith (passOneState m) ps) = renderWith (passOneState 0) ps := by
  induction m with
  | zero => rw [rawPassOne]
  | succ m ihm =>
    rw [rawPassOne, passOne_step (m + 1) k (by omega) hmk ps hlit htok hchain]
    simp only [Nat.add_sub_cancel]
    exact ihm (by omega)

theorem passOne_correct (k : Nat) (ps : List RawPiece)
    (hlit : ∀ s, RawPiece.lit s ∈ ps → litOK s)
    (htok : ∀ j, RawPiece.tok j ∈ ps → 1 ≤ j ∧ j ≤ k)
    (hchain : List.Chain' (fun a b => adjOK2 a b = true) ps) :
    rawPassOne k (renderRaw ps) = renderWith rawMarker ps := by
  have h1 : renderRaw ps = renderWith (passOneState k) ps := by
    rw [renderRaw]
    exact renderWith_congr _ _ ps (fun j hj => by
      rw [passOneState, if_neg (by have := htok j hj; omega)])
  rw [h1, passOne_fold k k le_rfl ps hlit htok hchain]
  exact renderWith_congr _ _ ps (fun j hj => by
    rw [passOneState, if_pos (by have := htok j hj; omega)])

theorem rawMarker_eq_cons (i : Nat) :
    rawMarker i = '_' :: '_' :: 'R' :: 'A' :: 'W' :: '_' :: (natChars i ++ "__".toList) := rfl

theorem headShape_no_head {u : Str} (hu : headShape u) {c : Char}
    (hc : c ≠ '$' ∧ c ≠ '?' ∧ c ≠ '_') (t : Str) : ¬ (c :: t) <+: u := by
  intro h
  cases u with
  | nil =>
    have := h.length_le
    simp at this
  | cons d u' =>
    rw [List.cons_prefix_cons] at h
    rcases hu d rfl with h1 | h1 | h1
    · exact hc.1 (h.1.trans h1)
    · exact hc.2.1 (h.1.trans h1)
    · exact hc.2.2 (h.1.trans h1)

theorem raw_continuation_dead (t v u : Str) (hu : headShape u)
    (hnraw : ¬ (['R', 'A', 'W'] <+: v)) :
    ¬ (('R' :: 'A' :: 'W' :: t).isPrefixOf (v ++ u)) := by
  intro h
  have hp := List.isPrefixOf_iff_prefix.mp h
  match v with
  | [] =>
    rw [List.nil_append] at hp
    exact headShape_no_head hu ⟨by decide, by decide, by decide⟩ _ hp
  | [c] =>
    rw [List.singleton_append, List.cons_prefix_cons] at hp
    exact headShape_no_head hu ⟨by decide, by decide, by decide⟩ _ hp.2
  | [c, c'] =>
    rw [List.cons_append, List.cons_prefix_cons] at hp
    rw [List.singleton_append, List.cons_prefix_cons] at hp
    exact headShape_no_head hu ⟨by decide, by decide, by decide⟩ _ hp.2.2
  | c :: c' :: c'' :: v' =>
    rw [List.cons_append, List.cons_prefix_cons] at hp
    rw [List.cons_append, List.cons_prefix_cons] at hp
    rw [List.cons_append, List.cons_prefix_cons] at hp
    exact hnraw ⟨v', by rw [← hp.1, ← hp.2.1, ← hp.2.2.1]; simp⟩

theorem marker_not_in_ph_span (d : Dialect) (std : stdPlaceholder d) (n i : Nat) (R : Str) :
    ∀ a b, d.Placeholder n = a ++ b → b ≠ [] → ¬ (rawMarker i).isPrefixOf (b ++ R) := by
  intro a b hab hb hpre
  have hp := List.isPrefixOf_iff_prefix.mp hpre
  rw [rawMarker_eq_cons] at hp
  match b, hb with
  | c :: b', _ =>
    rw [List.cons_append, List.cons_prefix_cons] at hp
    have hmem : c ∈ d.Placeholder n := by
      rw [hab]
      exact List.mem_append.mpr (Or.inr (List.mem_cons_self _ _))
    rcases std n with h | h
    · rw [h] at hmem
      rcases List.mem_cons.mp hmem with h1 | h1
      · exact absurd (hp.1.trans h1) (by decide)
      · have hd := mem_natChars_digit n c h1
        rw [← hp.1] at hd
        exact absurd hd (by decide)
    · rw [h] at hmem
      rw [List.mem_singleton] at hmem
      exact absurd (hp.1.trans hmem) (by decide)

theorem marker_not_in_lit_span (i : Nat) (s R : Str) (hs : litOK s) (hR : headShape R) :
    ∀ a b, s = a ++ b → b ≠ [] → ¬ (rawMarker i).isPrefixOf (b ++ R) := by
  intro a b hab hb hpre
  have hp := List.isPrefixOf_iff_prefix.mp hpre
  rw [rawMarker_eq_cons] at hp
  obtain ⟨hs1, hs2, hs3, hs4, hs5⟩ := hs
  match b, hb with
  | c1 :: b1, _ =>
    rw [List.cons_append, List.cons_prefix_cons] at hp
    obtain ⟨hc1, hp⟩ := hp
    match b1 with
    | [] =>
      exact hs5 (by rw [hab, List.getLast?_concat, ← hc1])
    | c2 :: b2 =>
      rw [List.cons_append, List.cons_prefix_cons] at hp
      obtain ⟨hc2, hp⟩ := hp
      match b2 with
      | [] =>
        refine hs5 ?_
        rw [hab, show a ++ [c1, c2] = (a ++ [c1]) ++ [c2] by simp,
          List.getLast?_concat, ← hc2]
      | c3 :: b3 =>
        rw [List.cons_append, List.cons_prefix_cons] at hp
        obtain ⟨hc3, hp⟩ := hp
        match b3 with
        | [] =>
          rw [List.nil_append] at hp
          exact headShape_no_head hR ⟨by decide, by decide, by decide⟩ _ hp
        | c4 :: b4 =>
          rw [List.cons_append, List.cons_prefix_cons] at hp
          obtain ⟨hc4, hp⟩ := hp
          match b4 with
          | [] =>
            rw [List.nil_append] at hp
            exact headShape_no_head hR ⟨by decide, by decide, by decide⟩ _ hp
          | c5 :: b5 =>
            rw [List.cons_append, List.cons_prefix_cons] at hp
            obtain ⟨hc5, -⟩ := hp
            refine hs4 ⟨a ++ [c1, c2], b5, ?_⟩
            rw [hab, ← hc3, ← hc4, ← hc5]
            simp

theorem renderTwo_headShape (d : Dialect) (std : stdPlaceholder d) (offset m : Nat)
    (ps : List RawPiece)
    (h : ps = [] ∨ ∃ j ps', ps = RawPiece.tok j :: ps') :
    headShape (renderWith (passTwoState d offset m) ps) := by
  intro c hc
  rcases h with h | ⟨j, ps', h⟩
  · subst h
    rw [renderWith] at hc
    simp at hc
  · subst h
    rw [renderWith, passTwoState] at hc
    by_cases hj : j < m
    · rw [if_pos hj] at hc
      rcases std (offset + j - 1) with hph | hph <;> rw [hph] at hc
      · rw [List.cons_append, List.head?_cons, Option.some.injEq] at hc
        exact Or.inl hc.symm
      · rw [List.cons_append, List.head?_cons, Option.some.injEq] at hc
        exact Or.inr (Or.inl hc.symm)
    · rw [if_neg hj, rawMarker_eq_cons, List.cons_append, List.head?_cons,
        Option.some.injEq] at hc
      exact Or.inr (Or.inr hc.symm)

theorem renderTwo_shape2 (d : Dialect) (std : stdPlaceholder d) (offset m : Nat)
    (ps : List RawPiece)
    (hlit : ∀ s, RawPiece.lit s ∈ ps → litOK s)
    (hchain : List.Chain' (fun a b => adjOK2 a b = true) ps) :
    shape2 (renderWith (passTwoState d offset m) ps) := by
  match ps with
  | [] =>
    left
    rw [renderWith]
  | .tok j :: ps' =>
    rw [renderWith, passTwoState]
    by_cases hj : j < m
    · rw [if_pos hj]
      rcases std (offset + j - 1) with hph | hph <;> rw [hph]
      · exact Or.inr (Or.inl ⟨_, List.cons_append _ _ _⟩)
      · exact Or.inr (Or.inr (Or.inl ⟨_, List.cons_append _ _ _⟩))
    · rw [if_neg hj]
      exact Or.inr (Or.inr (Or.inr (Or.inl ⟨j, _, rfl⟩)))
  | .lit s :: ps' =>
    rw [renderWith]
    refine Or.inr (Or.inr (Or.inr (Or.inr
      ⟨s, _, hlit s (List.mem_cons_self _ _), ?_, rfl⟩)))
    refine renderTwo_headShape d std offset m ps' ?_
    have hrel := (List.chain'_cons'.mp hchain).1
    match ps' with
    | [] => exact Or.inl rfl
    | .tok j' :: ps'' => exact Or.inr ⟨j', ps'', rfl⟩
    | .lit t :: ps'' =>
      have hadj := hrel _ (Option.mem_def.mpr rfl)
      simp only [adjOK2] at hadj
      exact absurd hadj (by simp)

theorem marker_not_in_marker_span (i j : Nat) (hij : j ≠ i) (R : Str) (hR : shape2 R) :
    ∀ a b, rawMarker j = a ++ b → b ≠ [] → ¬ (rawMarker i).isPrefixOf (b ++ R) := by
  intro a b hab hb hpre
  have hp := List.isPrefixOf_iff_prefix.mp hpre
  rw [rawMarker_eq_cons i] at hp
  rw [rawMarker_eq_cons j] at hab
  cases a with
  | nil =>
    rw [List.nil_append] at hab
    subst hab
    rw [List.cons_append, List.cons_prefix_cons] at hp
    obtain ⟨-, hp⟩ := hp
    rw [List.cons_append, List.cons_prefix_cons] at hp
    obtain ⟨-, hp⟩ := hp
    rw [List.cons_append, List.cons_prefix_cons] at hp
    obtain ⟨-, hp⟩ := hp
    rw [List.cons_append, List.cons_prefix_cons] at hp
    obtain ⟨-, hp⟩ := hp
    rw [List.cons_append, List.cons_prefix_cons] at hp
    obtain ⟨-, hp⟩ := hp
    rw [List.cons_append, List.cons_prefix_cons] at hp
    obtain ⟨-, hp⟩ := hp
    rw [List.append_assoc] at hp
    have hdr := digitrun_run_eq (u := "__".toList) (by decide)
      (by
        intro c hc
        rw [show ("__".toList : Str).head? = some '_' from rfl, Option.some.injEq] at hc
        rw [← hc]
        decide)
      (by
        intro c hc
        rw [show (("__".toList : Str) ++ R).head? = some '_' from rfl, Option.some.injEq] at hc
        rw [← hc]
        decide)
      hp
    exact hij hdr.1.symm
  | cons c1 a1 =>
    rw [List.cons_append] at hab
    injection hab with h1 hab
    cases a1 with
    | nil =>
      rw [List.nil_append] at hab
      subst hab
      rw [List.cons_append, List.cons_prefix_cons] at hp
      obtain ⟨-, hp⟩ := hp
      rw [List.cons_append, List.cons_prefix_cons] at hp
      exact absurd hp.1 (by decide)
    | cons c2 a2 =>
      rw [List.cons_append] at hab
      injection hab with h2 hab
      cases a2 with
      | nil =>
        rw [List.nil_append] at hab
        subst hab
        rw [List.cons_append, List.cons_prefix_cons] at hp
        exact absurd hp.1 (by decide)
      | cons c3 a3 =>
        rw [List.cons_append] at hab
        injection hab with h3 hab
        cases a3 with
        | nil =>
          rw [List.nil_append] at hab
          subst hab
          rw [List.cons_append, List.cons_prefix_cons] at hp
          exact absurd hp.1 (by decide)
        | cons c4 a4 =>
          rw [List.cons_append] at hab
          injection hab with h4 hab
          cases a4 with
          | nil =>
            rw [List.nil_append] at hab
            subst hab
            rw [List.cons_append, List.cons_prefix_cons] at hp
            exact absurd hp.1 (by decide)
          | cons c5 a5 =>
            rw [List.cons_append] at hab
            injection hab with h5 hab
            cases a5 with
            | nil =>
              rw [List.nil_append] at hab
              subst hab
              rw [List.cons_append, List.cons_prefix_cons] at hp
              obtain ⟨-, hp⟩ := hp
              rw [List.append_assoc] at hp
              have hne := natChars_ne_nil j
              match hnc : natChars j, hne with
              | d0 :: nc', _ =>
                rw [hnc, List.cons_append, List.cons_prefix_cons] at hp
                have hd : d0.isDigit := mem_natChars_digit j d0 (hnc ▸ List.mem_cons_self _ _)
                rw [← hp.1] at hd
                exact absurd hd (by decide)
            | cons c6 a6 =>
              rw [List.cons_append] at hab
              injection hab with h6 hab
              rcases Nat.lt_trichotomy a6.length (natChars j).length with hl | hl | hl
              · have hdrop := congrArg (List.drop a6.length) hab
                rw [List.drop_append_of_le_length (le_of_lt hl), List.drop_left] at hdrop
                have hne : (natChars j).drop a6.length ≠ [] := by
                  intro hcon
                  rw [← List.length_eq_zero] at hcon
                  simp only [List.length_drop] at hcon
                  omega
                match hd : (natChars j).drop a6.length, hne with
                | d0 :: ds, _ =>
                  rw [hd, List.cons_append] at hdrop
                  rw [← hdrop, List.cons_append, List.cons_prefix_cons] at hp
                  have hdig : d0.isDigit := mem_natChars_digit j d0
                    (List.mem_of_mem_drop (hd ▸ List.mem_cons_self _ _))
                  rw [← hp.1] at hdig
                  exact absurd hdig (by decide)
              · have hdrop := congrArg (List.drop a6.length) hab
                rw [List.drop_left, hl, List.drop_left] at hdrop
                subst hdrop
                rw [show ("__".toList : Str) ++ R = '_' :: '_' :: R from rfl] at hp
                rw [List.cons_prefix_cons] at hp
                obtain ⟨-, hp⟩ := hp
                rw [List.cons_prefix_cons] at hp
                obtain ⟨-, hp⟩ := hp
                rcases hR with h0 | ⟨u, h0⟩ | ⟨u, h0⟩ | ⟨j', u, h0⟩ | ⟨s, u, hsOK, hu, h0⟩
                · subst h0
                  have := hp.length_le
                  simp at this
                · subst h0
                  rw [List.cons_prefix_cons] at hp
                  exact absurd hp.1 (by decide)
                · subst h0
                  rw [List.cons_prefix_cons] at hp
                  exact absurd hp.1 (by decide)
                · subst h0
                  rw [rawMarker_eq_cons, List.cons_append, List.cons_prefix_cons] at hp
                  exact absurd hp.1 (by decide)
                · subst h0
                  refine raw_continuation_dead _ s u hu ?_ (List.isPrefixOf_iff_prefix.mpr hp)
                  intro hx
                  exact hsOK.2.2.2.1 hx.isInfix
              · have ha6 : a6.length = (natChars j).length + 1 := by
                  have h2 := congrArg List.length hab
                  simp only [List.length_append] at h2
                  have hb1 : 1 ≤ b.length := by
                    cases b with
                    | nil => exact absurd rfl hb
                    | cons _ _ => simp
                  have hlen2 : ("__".toList : Str).length = 2 := rfl
                  omega
                have hbeq : b = ['_'] := by
                  have h2 := congrArg (List.drop a6.length) hab
                  rw [List.drop_left] at h2
                  rw [show (natChars j ++ "__".toList : Str) = (natChars j ++ ['_']) ++ ['_'] by
                    simp] at h2
                  rw [List.drop_left' (by simp [ha6])] at h2
                  exact h2.symm
                subst hbeq
                rw [List.singleton_append, List.cons_prefix_cons] at hp
                obtain ⟨-, hp⟩ := hp
                rcases hR with h0 | ⟨u, h0⟩ | ⟨u, h0⟩ | ⟨j', u, h0⟩ | ⟨s, u, hsOK, hu, h0⟩
                · subst h0
                  have := hp.length_le
                  simp at this
                · subst h0
                  rw [List.cons_prefix_cons] at hp
                  exact absurd hp.1 (by decide)
                · subst h0
                  rw [List.cons_prefix_cons] at hp
                  exact absurd hp.1 (by decide)
                · subst h0
                  rw [rawMarker_eq_cons, List.cons_append, List.cons_prefix_cons] at hp
                  obtain ⟨-, hp⟩ := hp
                  rw [List.cons_append, List.cons_prefix_cons] at hp
                  exact absurd hp.1 (by decide)
                · subst h0
                  obtain ⟨e0, s', hsz⟩ : ∃ e0 s', s = e0 :: s' := by
                    cases s with
                    | nil => exact absurd rfl hsOK.1
                    | cons x xs => exact ⟨x, xs, rfl⟩
                  subst hsz
                  rw [List.cons_append, List.cons_prefix_cons] at hp
                  obtain ⟨-, hp⟩ := hp
                  refine raw_continuation_dead _ s' u hu ?_ (List.isPrefixOf_iff_prefix.mpr hp)
                  intro hx
                  obtain ⟨t', ht'⟩ := hx
                  refine hsOK.2.2.2.1 ⟨[e0], t', ?_⟩
                  rw [← ht']
                  simp

theorem passTwo_step (d : Dialect) (std : stdPlaceholder d) (offset i : Nat)
    (ps : List RawPiece)
    (hlit : ∀ s, RawPiece.lit s ∈ ps → litOK s)
    (htok : ∀ j, RawPiece.tok j ∈ ps → 1 ≤ j)
    (hchain : List.Chain' (fun a b => adjOK2 a b = true) ps) :
    replaceAll (renderWith (passTwoState d offset i) ps) (rawMarker i)
        (d.Placeholder (offset + i - 1))
      = renderWith (passTwoState d offset (i + 1)) ps := by
  induction ps with
  | nil => rw [renderWith, replaceAll_nil, renderWith]
  | cons p ps ih =>
    have hlit' : ∀ s, RawPiece.lit s ∈ ps → litOK s :=
      fun s hs => hlit s (List.mem_cons_of_mem _ hs)
    have htok' : ∀ j, RawPiece.tok j ∈ ps → 1 ≤ j :=
      fun j hj => htok j (List.mem_cons_of_mem _ hj)
    have ihs := ih hlit' htok' hchain.tail
    have hrel := (List.chain'_cons'.mp hchain).1
    match p with
    | .lit s =>
      have hR : headShape (renderWith (passTwoState d offset i) ps) := by
        refine renderTwo_headShape d std offset i ps ?_
        match ps with
        | [] => exact Or.inl rfl
        | .tok j' :: ps'' => exact Or.inr ⟨j', ps'', rfl⟩
        | .lit t :: ps'' =>
          have hadj := hrel _ (Option.mem_def.mpr rfl)
          simp only [adjOK2] at hadj
          exact absurd hadj (by simp)
      rw [renderWith, renderWith,
        replaceAll_skip_no_occ s (renderWith (passTwoState d offset i) ps) (rawMarker i)
          (d.Placeholder (offset + i - 1)) (by rw [rawMarker_eq_cons]; simp)
          (marker_not_in_lit_span i s (renderWith (passTwoState d offset i) ps)
            (hlit s (List.mem_cons_self _ _)) hR),
        ihs]
    | .tok j =>
      have hj1 := htok j (List.mem_cons_self _ _)
      rw [renderWith, renderWith, passTwoState, passTwoState]
      by_cases hji : j < i
      · rw [if_pos hji, if_pos (show j < i + 1 by omega),
          replaceAll_skip_no_occ (d.Placeholder (offset + j - 1))
            (renderWith (passTwoState d offset i) ps) (rawMarker i)
            (d.Placeholder (offset + i - 1)) (by rw [rawMarker_eq_cons]; simp)
            (marker_not_in_ph_span d std (offset + j - 1) i _),
          ihs]
      · rw [if_neg hji]
        by_cases hje : j = i
        · subst hje
          rw [if_pos (show j < j + 1 by omega),
            replaceAll_match _ _ _ (by rw [rawMarker_eq_cons]; simp), ihs]
        · rw [if_neg (show ¬ j < i + 1 by omega)]
          have hR2 : shape2 (renderWith (passTwoState d offset i) ps) :=
            renderTwo_shape2 d std offset i ps hlit' hchain.tail
          rw [replaceAll_skip_no_occ (rawMarker j)
            (renderWith (passTwoState d offset i) ps) (rawMarker i)
            (d.Placeholder (offset + i - 1)) (by rw [rawMarker_eq_cons]; simp)
            (marker_not_in_marker_span i j hje _ hR2), ihs]

theorem passTwo_fold (d : Dialect) (std : stdPlaceholder d) (offset m : Nat)
    (ps : List RawPiece)
    (hlit : ∀ s, RawPiece.lit s ∈ ps → litOK s)
    (htok : ∀ j, RawPiece.tok j ∈ ps → 1 ≤ j)
    (hchain : List.Chain' (fun a b => adjOK2 a b = true) ps) :
    rawPassTwo d offset m (renderWith rawMarker ps)
      = renderWith (passTwoState d offset (m + 1)) ps := by
  induction m with
  | zero =>
    rw [rawPassTwo]
    exact renderWith_congr _ _ ps (fun j hj => by
      rw [passTwoState, if_neg (by have := htok j hj; omega)])
  | succ m ihm =>
    rw [rawPassTwo, ihm]
    have hstep := passTwo_step d std offset (m + 1) ps hlit htok hchain
    rw [show offset + (m + 1) - 1 = offset + m by omega] at hstep
    rw [hstep]

theorem rawRewrite_correct (d : Dialect) (std : stdPlaceholder d) (offset k : Nat)
    (ps : List RawPiece) (hwf : piecesWF k ps) :
    rawRewrite d offset k (renderRaw ps)
      = renderWith (fun j => d.Placeholder (offset + j - 1)) ps := by
  obtain ⟨hlit, htok, hcount, hchain⟩ := hwf
  rw [rawRewrite, passOne_correct k ps hlit htok hchain,
    passTwo_fold d std offset k ps hlit (fun j hj => (htok j hj).1) hchain]
  exact renderWith_congr _ _ ps (fun j hj => by
    rw [passTwoState, if_pos (by have := htok j hj; omega)])

/-- C9: for every raw fragment decomposed into well-formed literal and
token pieces over `k = len(args)` arguments, every dialect whose
placeholders follow the shipped `$n`/`?` shapes, and every starting
offset, `rawSpec.ToSQL` rewrites each embedded `$i` token (`1 ≤ i ≤ k`)
to the dialect placeholder for position `offset + i - 1`, leaves every
literal segment intact, returns the argument list unchanged, and
consumes exactly `k` placeholder slots (`nextOffset = offset + k`); the
two-pass rewrite through the unique `__RAW_i__` markers makes this hold
regardless of token-prefix collisions such as `$1` inside `$10` or a
produced placeholder colliding with a later token. -/
theorem raw_two_pass_rewrite (d : Dialect) (std : stdPlaceholder d) (offset : Nat)
    (args : List GoVal) (ps : List RawPiece) (hwf : piecesWF args.length ps) :
    specToSQL d (Spec.rawSpec (renderRaw ps) args) offset
      = (renderWith (fun j => d.Placeholder (offset + j - 1)) ps, args,
         offset + args.length) := by
  rw [specToSQL, rawRewrite_correct d std offset args.length ps hwf]

theorem raw_two_pass_rewrite_witness :
    stdPlaceholder Postgres
    ∧ piecesWF ([GoVal.goInt 7, GoVal.goStr "a".toList].length)
        [RawPiece.lit "x = ".toList, RawPiece.tok 1,
         RawPiece.lit " AND y <> ".toList, RawPiece.tok 2]
    ∧ specToSQL Postgres
        (Spec.rawSpec
          (renderRaw [RawPiece.lit "x = ".toList, RawPiece.tok 1,
            RawPiece.lit " AND y <> ".toList, RawPiece.tok 2])
          [GoVal.goInt 7, GoVal.goStr "a".toList]) 3
      = (renderWith (fun j => Postgres.Placeholder (3 + j - 1))
          [RawPiece.lit "x = ".toList, RawPiece.tok 1,
           RawPiece.lit " AND y <> ".toList, RawPiece.tok 2],
         [GoVal.goInt 7, GoVal.goStr "a".toList],
         3 + [GoVal.goInt 7, GoVal.goStr "a".toList].length) := by
  have hstd : stdPlaceholder Postgres := fun n => Or.inl rfl
  have hwf : piecesWF ([GoVal.goInt 7, GoVal.goStr "a".toList].length)
      [RawPiece.lit "x = ".toList, RawPiece.tok 1,
       RawPiece.lit " AND y <> ".toList, RawPiece.tok 2] := by
    rw [piecesWF]
    refine ⟨?_, ?_, by decide, ?_⟩
    · intro s hs
      simp at hs
      rcases hs with h | h <;>
        (subst h
         rw [litOK]
         exact ⟨by decide, by decide, by decide, by decide, by decide⟩)
    · intro i hi
      simp at hi
      rcases hi with h | h <;> (subst h; decide)
    · exact List.Chain'.cons (by decide) (List.Chain'.cons (by decide)
        (List.Chain'.cons (by decide) (by simp)))
  exact ⟨hstd, hwf, raw_two_pass_rewrite Postgres hstd 3 _ _ hwf⟩

theorem phNums_nil : phNums [] = [] := by
  rw [phNums]

theorem phNums_cons_ne (c : Char) (rest : Str) (h : c ≠ '$') :
    phNums (c :: rest) = phNums rest := by
  rw [phNums, if_neg h]

theorem phNums_dollar_of_empty (rest : Str)
    (h : rest.takeWhile (fun ch => ch.isDigit) = []) :
    phNums ('$' :: rest) = phNums rest := by
  rw [phNums, if_pos rfl, if_pos (by rw [h]; rfl)]

theorem phNums_dollar_of_run (rest : Str)
    (h : rest.takeWhile (fun ch => ch.isDigit) ≠ []) :
    phNums ('$' :: rest)
      = digitsVal (rest.takeWhile (fun ch => ch.isDigit))
        :: phNums (rest.dropWhile (fun ch => ch.isDigit)) := by
  rw [phNums, if_pos rfl, if_neg ?_]
  intro hcon
  exact h (List.isEmpty_iff.mp hcon)

theorem takeWhile_append_nil (p : Char → Bool) (l Y : Str) (hY : Y.takeWhile p = []) :
    (l ++ Y).takeWhile p = l.takeWhile p := by
  induction l with
  | nil => simpa using hY
  | cons c l ih =>
    rw [List.cons_append, List.takeWhile_cons, List.takeWhile_cons]
    by_cases hc : p c
    · rw [if_pos hc, if_pos hc, ih]
    · rw [if_neg hc, if_neg hc]

theorem dropWhile_append_id (p : Char → Bool) (l Y : Str) (hY : Y.dropWhile p = Y) :
    (l ++ Y).dropWhile p = l.dropWhile p ++ Y := by
  induction l with
  | nil => simp [hY]
  | cons c l ih =>
    rw [List.cons_append, List.dropWhile_cons, List.dropWhile_cons]
    by_cases hc : p c
    · rw [if_pos hc, if_pos hc]
      exact ih
    · rw [if_neg hc, if_neg hc, List.cons_append]

theorem takeWhile_all_append (p : Char → Bool) (l Y : Str) (hl : ∀ c ∈ l, p c = true) :
    (l ++ Y).takeWhile p = l ++ Y.takeWhile p := by
  induction l with
  | nil => simp
  | cons c l ih =>
    rw [List.cons_append, List.takeWhile_cons, if_pos (hl c (List.mem_cons_self _ _)),
      ih (fun c hc => hl c (List.mem_cons_of_mem _ hc)), List.cons_append]

theorem dropWhile_all_append (p : Char → Bool) (l Y : Str) (hl : ∀ c ∈ l, p c = true) :
    (l ++ Y).dropWhile p = Y.dropWhile p := by
  induction l with
  | nil => simp
  | cons c l ih =>
    rw [List.cons_append, List.dropWhile_cons, if_pos (hl c (List.mem_cons_self _ _)),
      ih (fun c hc => hl c (List.mem_cons_of_mem _ hc))]

theorem takeWhile_nil_of_head (Y : Str) (hY : ∀ c, Y.head? = some c → ¬ c.isDigit) :
    Y.takeWhile (fun ch => ch.isDigit) = [] := by
  cases Y with
  | nil => rfl
  | cons c Y' =>
    rw [List.takeWhile_cons, if_neg (hY c rfl)]

theorem dropWhile_id_of_head (Y : Str) (hY : ∀ c, Y.head? = some c → ¬ c.isDigit) :
    Y.dropWhile (fun ch => ch.isDigit) = Y := by
  cases Y with
  | nil => rfl
  | cons c Y' =>
    rw [List.dropWhile_cons, if_neg (hY c rfl)]

theorem phNums_no_dollar_before (X Y : Str) (h : '$' ∉ X) :
    phNums (X ++ Y) = phNums Y := by
  induction X with
  | nil => rw [List.nil_append]
  | cons c X' ih =>
    rw [List.cons_append, phNums_cons_ne c _ (fun hc => h (hc ▸ List.mem_cons_self _ _)),
      ih (fun hm => h (List.mem_cons_of_mem _ hm))]

theorem phNums_no_dollar (X : Str) (h : '$' ∉ X) : phNums X = [] := by
  have h2 := phNums_no_dollar_before X [] h
  rw [List.append_nil] at h2
  rw [h2, phNums_nil]

theorem phNums_append_bound (Y : Str) (hY : ∀ c, Y.head? = some c → ¬ c.isDigit) :
    ∀ n X, X.length ≤ n → phNums (X ++ Y) = phNums X ++ phNums Y := by
  intro n
  induction n with
  | zero =>
    intro X hX
    have hXnil : X = [] := List.length_eq_zero.mp (by omega)
    subst hXnil
    rw [List.nil_append, phNums_nil, List.nil_append]
  | succ n ih =>
    intro X hX
    match X with
    | [] => rw [List.nil_append, phNums_nil, List.nil_append]
    | c :: X' =>
      have hX' : X'.length ≤ n := by
        simp only [List.length_cons] at hX
        omega
      rw [List.cons_append]
      by_cases hc : c = '$'
      · subst hc
        have htw := takeWhile_append_nil (fun ch => ch.isDigit) X' Y
          (takeWhile_nil_of_head Y hY)
        by_cases hX'tw : X'.takeWhile (fun ch => ch.isDigit) = []
        · rw [phNums_dollar_of_empty _ (by rw [htw]; exact hX'tw),
            phNums_dollar_of_empty _ hX'tw]
          exact ih X' hX'
        · have hdw := dropWhile_append_id (fun ch => ch.isDigit) X' Y
            (dropWhile_id_of_head Y hY)
          rw [phNums_dollar_of_run _ (by rw [htw]; exact hX'tw),
            phNums_dollar_of_run _ hX'tw, htw, hdw, List.cons_append]
          congr 1
          exact ih (X'.dropWhile (fun ch => ch.isDigit))
            (le_trans (List.dropWhile_sublist _).length_le hX')
      · rw [phNums_cons_ne _ _ hc, phNums_cons_ne _ _ hc]
        exact ih X' hX'

theorem phNums_append_of_head (X Y : Str) (hY : ∀ c, Y.head? = some c → ¬ c.isDigit) :
    phNums (X ++ Y) = phNums X ++ phNums Y :=
  phNums_append_bound Y hY X.length X le_rfl

theorem phNums_dollar_run (nv : Nat) (rest : Str)
    (hrest : ∀ c, rest.head? = some c → ¬ c.isDigit) :
    phNums ('$' :: (natChars nv ++ rest)) = nv :: phNums rest := by
  have htw : (natChars nv ++ rest).takeWhile (fun ch => ch.isDigit) = natChars nv := by
    rw [takeWhile_all_append _ _ _ (fun c hc => by simpa using mem_natChars_digit nv c hc),
      takeWhile_nil_of_head rest hrest, List.append_nil]
  have hdw : (natChars nv ++ rest).dropWhile (fun ch => ch.isDigit) = rest := by
    rw [dropWhile_all_append _ _ _ (fun c hc => by simpa using mem_natChars_digit nv c hc),
      dropWhile_id_of_head rest hrest]
  rw [phNums_dollar_of_run _ (by rw [htw]; exact natChars_ne_nil nv), htw, hdw,
    digitsVal_natChars]

theorem phNums_dollar_tok (nv : Nat) : phNums ('$' :: natChars nv) = [nv] := by
  have h2 := phNums_dollar_run nv [] (by intro c hc; simp at hc)
  rw [List.append_nil] at h2
  rw [h2, phNums_nil]

theorem countQ_append (X Y : Str) : countQ (X ++ Y) = countQ X + countQ Y := by
  rw [countQ, countQ, countQ, List.count_append]

theorem countQ_no_q (X : Str) (h : '?' ∉ X) : countQ X = 0 := by
  rw [countQ]
  exact List.count_eq_zero.mpr h

theorem countQ_qm : countQ ['?'] = 1 := by decide

theorem mem_piecesToks (ps : List RawPiece) (j : Nat) :
    j ∈ piecesToks ps ↔ RawPiece.tok j ∈ ps := by
  induction ps with
  | nil =>
    rw [piecesToks]
    simp
  | cons p ps ih =>
    match p with
    | .lit s =>
      rw [piecesToks]
      simp [ih]
    | .tok i =>
      rw [piecesToks]
      simp [ih, List.mem_cons]

theorem piecesToks_perm (k : Nat) (ps : List RawPiece)
    (htok : ∀ j, RawPiece.tok j ∈ ps → 1 ≤ j ∧ j ≤ k)
    (hcount : ∀ i ∈ List.range' 1 k, (piecesToks ps).count i = 1) :
    (piecesToks ps).Perm (List.range' 1 k) := by
  rw [List.perm_iff_count]
  intro n
  by_cases hn : n ∈ List.range' 1 k
  · rw [hcount n hn, List.count_eq_one_of_mem (List.nodup_range' _ _) hn]
  · rw [List.count_eq_zero.mpr hn, List.count_eq_zero.mpr ?_]
    intro hmem
    have hm := (mem_piecesToks ps n).mp hmem
    have hb := htok n hm
    exact hn (List.mem_range'_1.mpr ⟨hb.1, by omega⟩)

theorem map_range'_shift : ∀ (k s offset : Nat), 1 ≤ s →
    (List.range' s k).map (fun j => offset + j - 1) = List.range' (offset + s - 1) k := by
  intro k
  induction k with
  | zero =>
    intro s offset hs
    simp
  | succ k ih =>
    intro s offset hs
    rw [List.range'_succ, List.map_cons, ih (s + 1) offset (by omega), List.range'_succ,
      show offset + (s + 1) - 1 = offset + s - 1 + 1 by omega]

theorem phNums_render_pg (offset : Nat) (ps : List RawPiece)
    (hlit : ∀ s, RawPiece.lit s ∈ ps → litOK s)
    (htok : ∀ j, RawPiece.tok j ∈ ps → 1 ≤ j)
    (hchain : List.Chain' (fun a b => adjOK2 a b = true) ps) :
    phNums (renderWith (fun j => '$' :: natChars (offset + j - 1)) ps)
      = (piecesToks ps).map (fun j => offset + j - 1) := by
  induction ps with
  | nil => rw [renderWith, phNums_nil, piecesToks, List.map_nil]
  | cons p ps ih =>
    have hlit' : ∀ s, RawPiece.lit s ∈ ps → litOK s :=
      fun s hs => hlit s (List.mem_cons_of_mem _ hs)
    have htok' : ∀ j, RawPiece.tok j ∈ ps → 1 ≤ j :=
      fun j hj => htok j (List.mem_cons_of_mem _ hj)
    have ihs := ih hlit' htok' hchain.tail
    have hrel := (List.chain'_cons'.mp hchain).1
    have hrest : ∀ c,
        (renderWith (fun j => '$' :: natChars (offset + j - 1)) ps).head? = some c →
        ¬ c.isDigit := by
      refine renderWith_head_not_digit _ (fun j hj => ⟨'$', _, rfl, by decide⟩) ps htok'
        (fun s hs => (hlit' s hs).1) ?_
      intro s hs
      exact adj_lit_head_not_digit (hrel _ (Option.mem_def.mpr hs))
    match p with
    | .lit s =>
      rw [renderWith, piecesToks,
        phNums_no_dollar_before s _ (hlit s (List.mem_cons_self _ _)).2.1, ihs]
    | .tok j =>
      rw [renderWith, piecesToks, List.map_cons, List.cons_append,
        phNums_dollar_run _ _ hrest, ihs]

theorem countQ_render_qm (ps : List RawPiece)
    (hlit : ∀ s, RawPiece.lit s ∈ ps → litOK s) :
    countQ (renderWith (fun _ => ['?']) ps) = (piecesToks ps).length := by
  induction ps with
  | nil =>
    rw [renderWith, piecesToks]
    rfl
  | cons p ps ih =>
    have hlit' : ∀ s, RawPiece.lit s ∈ ps → litOK s :=
      fun s hs => hlit s (List.mem_cons_of_mem _ hs)
    match p with
    | .lit s =>
      rw [renderWith, piecesToks, countQ_append,
        countQ_no_q s (hlit s (List.mem_cons_self _ _)).2.2.1, ih hlit', Nat.zero_add]
    | .tok j =>
      rw [renderWith, piecesToks, countQ_append, countQ_qm, List.length_cons, ih hlit']
      omega

theorem phNums_joinWithSep (sep : Str) (hsep : '$' ∉ sep)
    (hsephead : ∀ c, sep.head? = some c → ¬ c.isDigit) (hsepne : sep ≠ []) :
    ∀ parts : List Str, (∀ p ∈ parts, ∀ c, p.head? = some c → ¬ c.isDigit) →
      phNums (joinWithSep sep parts) = (parts.map phNums).flatten := by
  intro parts
  induction parts with
  | nil =>
    intro h
    rw [joinWithSep, phNums_nil, List.map_nil, List.flatten_nil]
  | cons p parts ih =>
    intro h
    match parts with
    | [] =>
      rw [joinWithSep, List.map_cons, List.map_nil, List.flatten_cons, List.flatten_nil,
        List.append_nil]
    | p' :: rest =>
      have hY : ∀ c, (sep ++ joinWithSep sep (p' :: rest)).head? = some c → ¬ c.isDigit := by
        intro c hc
        match sep, hsepne with
        | s0 :: sep', _ =>
          rw [List.cons_append, List.head?_cons, Option.some.injEq] at hc
          rw [← hc]
          exact hsephead s0 rfl
      rw [joinWithSep, List.append_assoc, phNums_append_of_head p _ hY,
        phNums_no_dollar_before sep _ hsep,
        ih (fun q hq => h q (List.mem_cons_of_mem _ hq))]
      simp

theorem countQ_joinWithSep (sep : Str) (hsep : '?' ∉ sep) :
    ∀ parts : List Str, countQ (joinWithSep sep parts) = (parts.map countQ).sum := by
  intro parts
  induction parts with
  | nil =>
    rw [joinWithSep, List.map_nil, List.sum_nil]
    rfl
  | cons p parts ih =>
    match parts with
    | [] =>
      rw [joinWithSep, List.map_cons, List.map_nil, List.sum_cons, List.sum_nil]
      omega
    | p' :: rest =>
      rw [joinWithSep, countQ_append, countQ_append, countQ_no_q sep hsep, ih]
      simp only [List.map_cons, List.sum_cons]
      omega

theorem SpecsWF_mem : ∀ (specs : List Spec), SpecsWF specs → ∀ s ∈ specs, SpecWF s := by
  intro specs
  induction specs with
  | nil =>
    intro h s hs
    simp at hs
  | cons s rest ih =>
    intro h t ht
    rw [SpecsWF] at h
    rcases List.mem_cons.mp ht with h1 | h1
    · exact h1 ▸ h.1
    · exact ih h.2 t h1

theorem joinParts_acc (d : Dialect) (specs : List Spec)
    (hA : ∀ s ∈ specs, ∀ off,
      (specToSQL d s off).2.2 = off + (specToSQL d s off).2.1.length) :
    ∀ offset, (joinParts d specs offset).2.2
      = offset + (joinParts d specs offset).2.1.length := by
  induction specs with
  | nil =>
    intro offset
    rw [joinParts]
    simp
  | cons s rest ih =>
    intro offset
    rw [joinParts]
    simp only [List.length_append]
    have h1 := hA s (List.mem_cons_self _ _) offset
    have h2 := ih (fun t ht off => hA t (List.mem_cons_of_mem _ ht) off)
      (specToSQL d s offset).2.2
    omega

theorem joinParts_phNums (d : Dialect) (specs : List Spec)
    (hA : ∀ s ∈ specs, ∀ off,
      (specToSQL d s off).2.2 = off + (specToSQL d s off).2.1.length)
    (hB : ∀ s ∈ specs, ∀ off,
      (phNums (specToSQL d s off).1).Perm
        (List.range' off (specToSQL d s off).2.1.length)) :
    ∀ offset,
      (((joinParts d specs offset).1.map phNums).flatten).Perm
        (List.range' offset (joinParts d specs offset).2.1.length)
      ∧ ∀ p ∈ (joinParts d specs offset).1, ∀ c, p.head? = some c → ¬ c.isDigit := by
  induction specs with
  | nil =>
    intro offset
    rw [joinParts]
    constructor
    · simp
    · intro p hp
      simp at hp
  | cons s rest ih =>
    intro offset
    have ihs := ih (fun t ht off => hA t (List.mem_cons_of_mem _ ht) off)
      (fun t ht off => hB t (List.mem_cons_of_mem _ ht) off)
      (specToSQL d s offset).2.2
    rw [joinParts]
    have hparen : phNums ("(".toList ++ (specToSQL d s offset).1 ++ ")".toList)
        = phNums (specToSQL d s offset).1 := by
      rw [List.append_assoc, phNums_no_dollar_before "(".toList _ (by decide),
        phNums_append_of_head _ ")".toList (by intro c hc; simp at hc; rw [← hc]; decide),
        phNums_no_dollar ")".toList (by decide), List.append_nil]
    constructor
    · simp only [List.map_cons, List.flatten_cons, List.length_append, hparen]
      have hp1 := hB s (List.mem_cons_self _ _) offset
      have hp2 := ihs.1
      have hco := hA s (List.mem_cons_self _ _) offset
      have hall := hp1.append hp2
      have heq : List.range' offset (specToSQL d s offset).2.1.length
            ++ List.range' (specToSQL d s offset).2.2
              (joinParts d rest (specToSQL d s offset).2.2).2.1.length
          = List.range' offset ((specToSQL d s offset).2.1.length
            + (joinParts d rest (specToSQL d s offset).2.2).2.1.length) := by
        rw [hco, List.range'_append_1]
        congr 1
        omega
      rw [heq] at hall
      exact hall
    · intro p hp
      rcases List.mem_cons.mp hp with h1 | h1
      · subst h1
        intro c hc
        simp at hc
        rw [← hc]
        decide
      · exact ihs.2 p h1

theorem joinParts_countQ (d : Dialect) (specs : List Spec)
    (hC : ∀ s ∈ specs, ∀ off,
      countQ (specToSQL d s off).1 = (specToSQL d s off).2.1.length) :
    ∀ offset, ((joinParts d specs offset).1.map countQ).sum
      = (joinParts d specs offset).2.1.length := by
  induction specs with
  | nil =>
    intro offset
    rw [joinParts]
    simp
  | cons s rest ih =>
    intro offset
    rw [joinParts]
    simp only [List.map_cons, List.sum_cons, List.length_append]
    have h1 : countQ ("(".toList ++ (specToSQL d s offset).1 ++ ")".toList)
        = (specToSQL d s offset).2.1.length := by
      rw [countQ_append, countQ_append, countQ_no_q "(".toList (by decide),
        countQ_no_q ")".toList (by decide), hC s (List.mem_cons_self _ _) offset]
      omega
    have h2 := ih (fun t ht off => hC t (List.mem_cons_of_mem _ ht) off)
      (specToSQL d s offset).2.2
    omega

theorem flatten_map_singleton (f : Nat → Nat) (l : List Nat) :
    (l.map (fun i => [f i])).flatten = l.map f := by
  induction l with
  | nil => simp
  | cons a l ih => simp [ih]

theorem sum_map_one (l : List Nat) : (l.map (fun _ => (1 : Nat))).sum = l.length := by
  induction l with
  | nil => simp
  | cons a l ih =>
    simp [ih]
    omega

theorem map_add_range (offset k : Nat) :
    (List.range k).map (fun i => offset + i) = List.range' offset k :=
  (List.range'_eq_map_range offset k).symm

theorem joinSpecs_acc (d : Dialect) (specs : List Spec) (sep empty : Str)
    (hsepd : '$' ∉ sep) (hsepq : '?' ∉ sep)
    (hsephead : ∀ c, sep.head? = some c → ¬ c.isDigit) (hsepne : sep ≠ [])
    (hemptyd : '$' ∉ empty) (hemptyq : '?' ∉ empty)
    (hchild : ∀ s' ∈ specs, ∀ off : Nat,
      ((specToSQL d s' off).2.2 = off + (specToSQL d s' off).2.1.length)
      ∧ ((∀ m, d.Placeholder m = '$' :: natChars m) → '$' ∉ d.ILikeOp → SpecWF s' →
          (phNums (specToSQL d s' off).1).Perm
            (List.range' off (specToSQL d s' off).2.1.length))
      ∧ ((∀ m, d.Placeholder m = ['?']) → '?' ∉ d.ILikeOp → SpecWF s' →
          countQ (specToSQL d s' off).1 = (specToSQL d s' off).2.1.length))
    (offset : Nat) :
    ((joinSpecs d specs sep empty offset).2.2
      = offset + (joinSpecs d specs sep empty offset).2.1.length)
    ∧ ((∀ m, d.Placeholder m = '$' :: natChars m) → '$' ∉ d.ILikeOp → SpecsWF specs →
        (phNums (joinSpecs d specs sep empty offset).1).Perm
          (List.range' offset (joinSpecs d specs sep empty offset).2.1.length))
    ∧ ((∀ m, d.Placeholder m = ['?']) → '?' ∉ d.ILikeOp → SpecsWF specs →
        countQ (joinSpecs d specs sep empty offset).1
          = (joinSpecs d specs sep empty offset).2.1.length) := by
  match specs with
  | [] =>
    rw [joinSpecs]
    refine ⟨by simp, ?_, ?_⟩
    · intro hnum hil hwfs
      rw [phNums_no_dollar empty hemptyd]
      exact List.Perm.nil
    · intro hqm hil hwfs
      rw [countQ_no_q empty hemptyq]
      rfl
  | [s1] =>
    rw [joinSpecs]
    have hc := hchild s1 (List.mem_cons_self _ _) offset
    refine ⟨hc.1, ?_, ?_⟩
    · intro hnum hil hwfs
      exact hc.2.1 hnum hil (SpecsWF_mem _ hwfs s1 (List.mem_cons_self _ _))
    · intro hqm hil hwfs
      exact hc.2.2 hqm hil (SpecsWF_mem _ hwfs s1 (List.mem_cons_self _ _))
  | s1 :: s2 :: rest =>
    rw [joinSpecs]
    have hAlist : ∀ s' ∈ s1 :: s2 :: rest, ∀ off : Nat,
        (specToSQL d s' off).2.2 = off + (specToSQL d s' off).2.1.length :=
      fun s' hm off => (hchild s' hm off).1
    refine ⟨?_, ?_, ?_⟩
    · exact joinParts_acc d _ hAlist offset
    · intro hnum hil hwfs
      have hBlist : ∀ s' ∈ s1 :: s2 :: rest, ∀ off : Nat,
          (phNums (specToSQL d s' off).1).Perm
            (List.range' off (specToSQL d s' off).2.1.length) :=
        fun s' hm off => (hchild s' hm off).2.1 hnum hil (SpecsWF_mem _ hwfs s' hm)
      have hJP := joinParts_phNums d _ hAlist hBlist offset
      rw [phNums_joinWithSep sep hsepd hsephead hsepne _ hJP.2]
      exact hJP.1
    · intro hqm hil hwfs
      rw [countQ_joinWithSep sep hsepq]
      exact joinParts_countQ d _
        (fun s' hm off => (hchild s' hm off).2.2 hqm hil (SpecsWF_mem _ hwfs s' hm)) offset

theorem specToSQL_acc :
    ∀ (n : Nat) (s : Spec), sizeOf s ≤ n → ∀ (d : Dialect) (offset : Nat),
      ((specToSQL d s offset).2.2 = offset + (specToSQL d s offset).2.1.length)
      ∧ ((∀ m, d.Placeholder m = '$' :: natChars m) → '$' ∉ d.ILikeOp → SpecWF s →
          (phNums (specToSQL d s offset).1).Perm
            (List.range' offset (specToSQL d s offset).2.1.length))
      ∧ ((∀ m, d.Placeholder m = ['?']) → '?' ∉ d.ILikeOp → SpecWF s →
          countQ (specToSQL d s offset).1 = (specToSQL d s offset).2.1.length) := by
  intro n
  induction n using Nat.strong_induction_on with
  | _ n ihn =>
    intro s hs d offset
    match s with
    | .comparisonSpec column op value =>
      rw [specToSQL]
      refine ⟨by simp, ?_, ?_⟩
      · intro hnum hil hwf
        rw [SpecWF] at hwf
        simp only [List.append_assoc]
        rw [hnum offset, phNums_no_dollar_before column _ hwf.1,
          phNums_no_dollar_before " ".toList _ (by decide),
          phNums_no_dollar_before op _ hwf.2.2.1,
          phNums_no_dollar_before " ".toList _ (by decide),
          phNums_dollar_tok offset]
        exact List.Perm.refl _
      · intro hqm hil hwf
        rw [SpecWF] at hwf
        simp only [List.append_assoc]
        rw [hqm offset, countQ_append, countQ_append, countQ_append, countQ_append,
          countQ_no_q column hwf.2.1, countQ_no_q " ".toList (by decide),
          countQ_no_q op hwf.2.2.2, countQ_qm]
        simp
    | .inSpec column values negate =>
      rw [specToSQL]
      by_cases h0 : values.length = 0
      · rw [if_pos h0]
        refine ⟨by simp [h0], ?_, ?_⟩
        · intro hnum hil hwf
          cases negate
          · rw [if_neg Bool.false_ne_true, phNums_no_dollar "FALSE".toList (by decide)]
            exact List.Perm.nil
          · rw [if_pos rfl, phNums_no_dollar "TRUE".toList (by decide)]
            exact List.Perm.nil
        · intro hqm hil hwf
          cases negate
          · rw [if_neg Bool.false_ne_true, countQ_no_q "FALSE".toList (by decide)]
            rfl
          · rw [if_pos rfl, countQ_no_q "TRUE".toList (by decide)]
            rfl
      · rw [if_neg h0]
        refine ⟨by simp, ?_, ?_⟩
        · intro hnum hil hwf
          rw [SpecWF] at hwf
          simp only [List.append_assoc]
          have hparts : ∀ p ∈ (List.range values.length).map
              (fun i => d.Placeholder (offset + i)), ∀ c, p.head? = some c → ¬ c.isDigit := by
            intro p hp c hc
            obtain ⟨i, -, rfl⟩ := List.mem_map.mp hp
            rw [hnum (offset + i)] at hc
            simp at hc
            rw [← hc]
            decide
          rw [phNums_no_dollar_before column _ hwf.1,
            phNums_no_dollar_before " ".toList _ (by decide),
            phNums_no_dollar_before (if negate then "NOT IN".toList else "IN".toList) _
              (by cases negate <;> decide),
            phNums_no_dollar_before " (".toList _ (by decide),
            phNums_append_of_head (inPlaceholders d offset values.length) ")".toList
              (by intro c hc; simp at hc; rw [← hc]; decide),
            phNums_no_dollar ")".toList (by decide), List.append_nil, inPlaceholders,
            phNums_joinWithSep ", ".toList (by decide)
              (by intro c hc; simp at hc; rw [← hc]; decide) (by decide) _ hparts,
            List.map_map,
            List.map_congr_left (g := fun i => [offset + i]) (by
              intro i _
              show phNums (d.Placeholder (offset + i)) = [offset + i]
              rw [hnum (offset + i), phNums_dollar_tok]),
            flatten_map_singleton, map_add_range]
        · intro hqm hil hwf
          rw [SpecWF] at hwf
          simp only [List.append_assoc]
          rw [countQ_append, countQ_append, countQ_append, countQ_append, countQ_append,
            countQ_no_q column hwf.2, countQ_no_q " ".toList (by decide),
            countQ_no_q (if negate then "NOT IN".toList else "IN".toList)
              (by cases negate <;> decide),
            countQ_no_q " (".toList (by decide), countQ_no_q ")".toList (by decide),
            inPlaceholders, countQ_joinWithSep ", ".toList (by decide), List.map_map,
            List.map_congr_left (g := fun _ => (1 : Nat)) (by
              intro i _
              show countQ (d.Placeholder (offset + i)) = 1
              rw [hqm (offset + i), countQ_qm]),
            sum_map_one, List.length_range]
          simp
    | .likeSpec column pattern ilike =>
      rw [specToSQL]
      refine ⟨by simp, ?_, ?_⟩
      · intro hnum hil hwf
        rw [SpecWF] at hwf
        have hILop : '$' ∉ (if ilike then d.ILikeOp else "LIKE".toList) := by
          cases ilike
          · rw [if_neg Bool.false_ne_true]
            decide
          · rw [if_pos rfl]
            exact hil
        simp only [List.append_assoc]
        rw [hnum offset, phNums_no_dollar_before column _ hwf.1,
          phNums_no_dollar_before " ".toList _ (by decide),
          phNums_no_dollar_before _ _ hILop,
          phNums_no_dollar_before " ".toList _ (by decide),
          phNums_dollar_tok offset]
        exact List.Perm.refl _
      · intro hqm hil hwf
        rw [SpecWF] at hwf
        have hILop : '?' ∉ (if ilike then d.ILikeOp else "LIKE".toList) := by
          cases ilike
          · rw [if_neg Bool.false_ne_true]
            decide
          · rw [if_pos rfl]
            exact hil
        simp only [List.append_assoc]
        rw [hqm offset, countQ_append, countQ_append, countQ_append, countQ_append,
          countQ_no_q column hwf.2, countQ_no_q " ".toList (by decide),
          countQ_no_q _ hILop, countQ_qm]
        simp
    | .betweenSpec column lo hi =>
      rw [specToSQL]
      refine ⟨by simp, ?_, ?_⟩
      · intro hnum hil hwf
        rw [SpecWF] at hwf
        simp only [List.append_assoc]
        rw [hnum offset, hnum (offset + 1),
          phNums_no_dollar_before column _ hwf.1,
          phNums_no_dollar_before " BETWEEN ".toList _ (by decide),
          phNums_append_of_head ('$' :: natChars offset)
            (" AND ".toList ++ ('$' :: natChars (offset + 1)))
            (by
              intro c hc
              rw [show ((" AND ".toList ++ ('$' :: natChars (offset + 1))) : Str).head?
                  = some ' ' from rfl, Option.some.injEq] at hc
              rw [← hc]
              decide),
          phNums_dollar_tok offset,
          phNums_no_dollar_before " AND ".toList _ (by decide),
          phNums_dollar_tok (offset + 1)]
        exact List.Perm.refl _
      · intro hqm hil hwf
        rw [SpecWF] at hwf
        simp only [List.append_assoc]
        rw [hqm offset, hqm (offset + 1), countQ_append, countQ_append, countQ_append,
          countQ_append, countQ_no_q column hwf.2,
          countQ_no_q " BETWEEN ".toList (by decide),
          countQ_no_q " AND ".toList (by decide), countQ_qm]
        simp
    | .nullSpec column isNot =>
      rw [specToSQL]
      cases isNot
      · rw [if_neg Bool.false_ne_true]
        refine ⟨by simp, ?_, ?_⟩
        · intro hnum hil hwf
          rw [SpecWF] at hwf
          rw [phNums_no_dollar _ (by
            intro hmem
            rcases List.mem_append.mp hmem with h | h
            · exact hwf.1 h
            · exact absurd h (by decide))]
          exact List.Perm.nil
        · intro hqm hil hwf
          rw [SpecWF] at hwf
          rw [countQ_no_q _ (by
            intro hmem
            rcases List.mem_append.mp hmem with h | h
            · exact hwf.2 h
            · exact absurd h (by decide))]
          rfl
      · rw [if_pos rfl]
        refine ⟨by simp, ?_, ?_⟩
        · intro hnum hil hwf
          rw [SpecWF] at hwf
          rw [phNums_no_dollar _ (by
            intro hmem
            rcases List.mem_append.mp hmem with h | h
            · exact hwf.1 h
            · exact absurd h (by decide))]
          exact List.Perm.nil
        · intro hqm hil hwf
          rw [SpecWF] at hwf
          rw [countQ_no_q _ (by
            intro hmem
            rcases List.mem_append.mp hmem with h | h
            · exact hwf.2 h
            · exact absurd h (by decide))]
          rfl
    | .andSpec specs =>
      rw [specToSQL]
      have hsz : sizeOf (Spec.andSpec specs) = 1 + sizeOf specs := by simp
      have hchild := fun s' (hmem : s' ∈ specs) off =>
        ihn (sizeOf s') (by
          have h2 := List.sizeOf_lt_of_mem hmem
          omega) s' le_rfl d off
      have hJ := joinSpecs_acc d specs " AND ".toList "TRUE".toList (by decide) (by decide)
        (by intro c hc; simp at hc; rw [← hc]; decide) (by decide) (by decide) (by decide)
        hchild offset
      exact ⟨hJ.1,
        fun hnum hil hwf => hJ.2.1 hnum hil (by rw [SpecWF] at hwf; exact hwf),
        fun hqm hil hwf => hJ.2.2 hqm hil (by rw [SpecWF] at hwf; exact hwf)⟩
    | .orSpec specs =>
      rw [specToSQL]
      have hsz : sizeOf (Spec.orSpec specs) = 1 + sizeOf specs := by simp
      have hchild := fun s' (hmem : s' ∈ specs) off =>
        ihn (sizeOf s') (by
          have h2 := List.sizeOf_lt_of_mem hmem
          omega) s' le_rfl d off
      have hJ := joinSpecs_acc d specs " OR ".toList "FALSE".toList (by decide) (by decide)
        (by intro c hc; simp at hc; rw [← hc]; decide) (by decide) (by decide) (by decide)
        hchild offset
      exact ⟨hJ.1,
        fun hnum hil hwf => hJ.2.1 hnum hil (by rw [SpecWF] at hwf; exact hwf),
        fun hqm hil hwf => hJ.2.2 hqm hil (by rw [SpecWF] at hwf; exact hwf)⟩
    | .notSpec s' =>
      rw [specToSQL]
      have hsz : sizeOf (Spec.notSpec s') = 1 + sizeOf s' := by simp
      have hc := ihn (sizeOf s') (by omega) s' le_rfl d offset
      refine ⟨?_, ?_, ?_⟩
      · show (specToSQL d s' offset).2.2 = offset + (specToSQL d s' offset).2.1.length
        exact hc.1
      · intro hnum hil hwf
        rw [SpecWF] at hwf
        show (phNums ("NOT (".toList ++ (specToSQL d s' offset).1 ++ ")".toList)).Perm
          (List.range' offset (specToSQL d s' offset).2.1.length)
        rw [List.append_assoc, phNums_no_dollar_before "NOT (".toList _ (by decide),
          phNums_append_of_head _ ")".toList
            (by intro c hc2; simp at hc2; rw [← hc2]; decide),
          phNums_no_dollar ")".toList (by decide), List.append_nil]
        exact hc.2.1 hnum hil hwf
      · intro hqm hil hwf
        rw [SpecWF] at hwf
        show countQ ("NOT (".toList ++ (specToSQL d s' offset).1 ++ ")".toList)
          = (specToSQL d s' offset).2.1.length
        rw [countQ_append, countQ_append, countQ_no_q "NOT (".toList (by decide),
          countQ_no_q ")".toList (by decide), hc.2.2 hqm hil hwf]
        omega
    | .rawSpec sql args =>
      rw [specToSQL]
      refine ⟨by simp, ?_, ?_⟩
      · intro hnum hil hwf
        rw [SpecWF] at hwf
        obtain ⟨ps, rfl, hpwf⟩ := hwf
        rw [rawRewrite_correct d (fun m => Or.inl (hnum m)) offset args.length ps hpwf,
          renderWith_congr (fun j => d.Placeholder (offset + j - 1))
            (fun j => '$' :: natChars (offset + j - 1)) ps
            (fun j hj => hnum (offset + j - 1))]
        obtain ⟨hlit, htok, hcount, hchain⟩ := hpwf
        rw [phNums_render_pg offset ps hlit (fun j hj => (htok j hj).1) hchain]
        refine ((piecesToks_perm args.length ps htok hcount).map
          (fun j => offset + j - 1)).trans ?_
        rw [map_range'_shift args.length 1 offset (by omega),
          show offset + 1 - 1 = offset by omega]
      · intro hqm hil hwf
        rw [SpecWF] at hwf
        obtain ⟨ps, rfl, hpwf⟩ := hwf
        rw [rawRewrite_correct d (fun m => Or.inr (hqm m)) offset args.length ps hpwf,
          renderWith_congr (fun j => d.Placeholder (offset + j - 1))
            (fun _ => ['?']) ps (fun j hj => hqm (offset + j - 1))]
        obtain ⟨hlit, htok, hcount, hchain⟩ := hpwf
        rw [countQ_render_qm ps hlit]
        have hlen := (piecesToks_perm args.length ps htok hcount).length_eq
        rw [List.length_range'] at hlen
        exact hlen

/-- C1: Spec compilation threads the placeholder offset as a pure
left-to-right fold.  For every `Spec` node, every dialect and every
starting offset, `ToSQL` returns `nextOffset = offset + len(args)`
(combinators pass each child the running offset its predecessor left).
Consequently, for every well-formed tree: under the numbered-placeholder
dialect (Postgres) the `$n` tokens appearing anywhere in the compiled
SQL are exactly the contiguous gap-free range `[offset, nextOffset-1]`
(a permutation — within a raw fragment the caller fixes the textual
order), and under the `?` dialects (MySQL, SQLite) the number of `?`
tokens equals `len(args)`, at any nesting depth. -/
theorem spec_offset_fold_and_placeholders (s : Spec) (offset : Nat) :
    (∀ d : Dialect,
      (specToSQL d s offset).2.2 = offset + (specToSQL d s offset).2.1.length)
    ∧ (SpecWF s →
        (phNums (specToSQL Postgres s offset).1).Perm
          (List.range' offset (specToSQL Postgres s offset).2.1.length)
        ∧ countQ (specToSQL MySQL s offset).1 = (specToSQL MySQL s offset).2.1.length
        ∧ countQ (specToSQL SQLite s offset).1
          = (specToSQL SQLite s offset).2.1.length) := by
  refine ⟨fun d => (specToSQL_acc (sizeOf s) s le_rfl d offset).1, fun hwf => ⟨?_, ?_, ?_⟩⟩
  · exact (specToSQL_acc (sizeOf s) s le_rfl Postgres offset).2.1 (fun m => rfl)
      (by decide) hwf
  · exact (specToSQL_acc (sizeOf s) s le_rfl MySQL offset).2.2 (fun m => rfl)
      (by decide) hwf
  · exact (specToSQL_acc (sizeOf s) s le_rfl SQLite offset).2.2 (fun m => rfl)
      (by decide) hwf

theorem spec_offset_fold_and_placeholders_witness :
    SpecWF (Spec.andSpec [EqS "a".toList (GoVal.goInt 1),
      Spec.rawSpec (renderRaw [RawPiece.lit "b = ".toList, RawPiece.tok 1]) [GoVal.goInt 9],
      Spec.betweenSpec "c".toList (GoVal.goInt 0) (GoVal.goInt 5)])
    ∧ (∀ d : Dialect,
        (specToSQL d (Spec.andSpec [EqS "a".toList (GoVal.goInt 1),
          Spec.rawSpec (renderRaw [RawPiece.lit "b = ".toList, RawPiece.tok 1])
            [GoVal.goInt 9],
          Spec.betweenSpec "c".toList (GoVal.goInt 0) (GoVal.goInt 5)]) 4).2.2
        = 4 + (specToSQL d (Spec.andSpec [EqS "a".toList (GoVal.goInt 1),
            Spec.rawSpec (renderRaw [RawPiece.lit "b = ".toList, RawPiece.tok 1])
              [GoVal.goInt 9],
            Spec.betweenSpec "c".toList (GoVal.goInt 0) (GoVal.goInt 5)]) 4).2.1.length)
    ∧ ((phNums (specToSQL Postgres (Spec.andSpec [EqS "a".toList (GoVal.goInt 1),
          Spec.rawSpec (renderRaw [RawPiece.lit "b = ".toList, RawPiece.tok 1])
            [GoVal.goInt 9],
          Spec.betweenSpec "c".toList (GoVal.goInt 0) (GoVal.goInt 5)]) 4).1).Perm
          (List.range' 4 (specToSQL Postgres (Spec.andSpec [EqS "a".toList (GoVal.goInt 1),
            Spec.rawSpec (renderRaw [RawPiece.lit "b = ".toList, RawPiece.tok 1])
              [GoVal.goInt 9],
            Spec.betweenSpec "c".toList (GoVal.goInt 0) (GoVal.goInt 5)]) 4).2.1.length)
        ∧ countQ (specToSQL MySQL (Spec.andSpec [EqS "a".toList (GoVal.goInt 1),
            Spec.rawSpec (renderRaw [RawPiece.lit "b = ".toList, RawPiece.tok 1])
              [GoVal.goInt 9],
            Spec.betweenSpec "c".toList (GoVal.goInt 0) (GoVal.goInt 5)]) 4).1
          = (specToSQL MySQL (Spec.andSpec [EqS "a".toList (GoVal.goInt 1),
              Spec.rawSpec (renderRaw [RawPiece.lit "b = ".toList, RawPiece.tok 1])
                [GoVal.goInt 9],
              Spec.betweenSpec "c".toList (GoVal.goInt 0) (GoVal.goInt 5)]) 4).2.1.length
        ∧ countQ (specToSQL SQLite (Spec.andSpec [EqS "a".toList (GoVal.goInt 1),
            Spec.rawSpec (renderRaw [RawPiece.lit "b = ".toList, RawPiece.tok 1])
              [GoVal.goInt 9],
            Spec.betweenSpec "c".toList (GoVal.goInt 0) (GoVal.goInt 5)]) 4).1
          = (specToSQL SQLite (Spec.andSpec [EqS "a".toList (GoVal.goInt 1),
              Spec.rawSpec (renderRaw [RawPiece.lit "b = ".toList, RawPiece.tok 1])
                [GoVal.goInt 9],
              Spec.betweenSpec "c".toList (GoVal.goInt 0) (GoVal.goInt 5)]) 4).2.1.length) := by
  have hwf : SpecWF (Spec.andSpec [EqS "a".toList (GoVal.goInt 1),
      Spec.rawSpec (renderRaw [RawPiece.lit "b = ".toList, RawPiece.tok 1]) [GoVal.goInt 9],
      Spec.betweenSpec "c".toList (GoVal.goInt 0) (GoVal.goInt 5)]) := by
    simp only [EqS, SpecWF, SpecsWF]
    refine ⟨⟨by decide, by decide, by decide, by decide⟩,
      ⟨[RawPiece.lit "b = ".toList, RawPiece.tok 1], rfl, ?_⟩,
      ⟨by decide, by decide⟩, trivial⟩
    rw [piecesWF]
    refine ⟨?_, ?_, by decide, ?_⟩
    · intro t ht
      simp at ht
      subst ht
      rw [litOK]
      exact ⟨by decide, by decide, by decide, by decide, by decide⟩
    · intro i hi
      simp at hi
      subst hi
      decide
    · exact List.Chain'.cons (by decide) (by simp)
  have h := spec_offset_fold_and_placeholders (Spec.andSpec [EqS "a".toList (GoVal.goInt 1),
    Spec.rawSpec (renderRaw [RawPiece.lit "b = ".toList, RawPiece.tok 1]) [GoVal.goInt 9],
    Spec.betweenSpec "c".toList (GoVal.goInt 0) (GoVal.goInt 5)]) 4
  exact ⟨hwf, h.1, h.2 hwf⟩

theorem char_toNat_valid (c : Char) :
    c.toNat < 0xD800 ∨ (0xDFFF < c.toNat ∧ c.toNat < 0x110000) := by
  rcases c.valid with h | ⟨h1, h2⟩
  · exact Or.inl (UInt32.toNat_lt_of_lt (by decide) h)
  · exact Or.inr ⟨UInt32.lt_toNat_of_lt (by decide) h1,
      UInt32.toNat_lt_of_lt (by decide) h2⟩

theorem char_toNat_lt (c : Char) : c.toNat < 0x110000 := by
  rcases char_toNat_valid c with h | h <;> omega

theorem char_validScalar (c : Char) : validScalar c.toNat = true := by
  rw [validScalar]
  rcases char_toNat_valid c with h | h <;> simp <;> omega

theorem hexVal_digitChar {t : Nat} (h : t < 16) : hexVal (Nat.digitChar t) = some t := by
  interval_cases t <;> decide

theorem char_eq_of_toNat {c d : Char} (h : c.toNat = d.toNat) : c = d := by
  have := congrArg Char.ofNat h
  rwa [Char.ofNat_toNat, Char.ofNat_toNat] at this

theorem digit_toNat_range {c : Char} (h : c.isDigit = true) :
    48 ≤ c.toNat ∧ c.toNat ≤ 57 := by
  rw [Char.isDigit, Bool.and_eq_true, decide_eq_true_eq, decide_eq_true_eq] at h
  exact ⟨UInt32.le_toNat_of_le (by decide) h.1, UInt32.toNat_le_of_le (by decide) h.2⟩

theorem skipWs_cons (c : Char) (r : Str)
    (h : (c == ' ' || c == '\t' || c == '\n' || c == '\r') = false) :
    skipWs (c :: r) = c :: r := by
  rw [skipWs, List.dropWhile_cons, if_neg (by rw [h]; simp)]

theorem skipWs_nil : skipWs [] = [] := rfl

theorem char_beq_false {c d : Char} (h : c.toNat ≠ d.toNat) : (c == d) = false := by
  rw [beq_eq_false_iff_ne]
  intro he
  exact h (he ▸ rfl)

theorem skipWs_cons_range (c : Char) (r : Str) (h : 33 ≤ c.toNat) :
    skipWs (c :: r) = c :: r := by
  refine skipWs_cons c r ?_
  rw [char_beq_false (by intro hc; rw [hc] at h; exact absurd h (by decide)),
    char_beq_false (by intro hc; rw [hc] at h; exact absurd h (by decide)),
    char_beq_false (by intro hc; rw [hc] at h; exact absurd h (by decide)),
    char_beq_false (by intro hc; rw [hc] at h; exact absurd h (by decide))]
  rfl

theorem utf8EncodeChar_lt (c : Char) : ∀ b ∈ utf8EncodeChar c, b < 256 := by
  have hlt := char_toNat_lt c
  simp only [utf8EncodeChar]
  intro b hb
  split_ifs at hb with h1 h2 h3
  · simp at hb
    omega
  · simp at hb
    rcases hb with rfl | rfl <;> omega
  · simp at hb
    rcases hb with rfl | rfl | rfl <;> omega
  · simp at hb
    rcases hb with rfl | rfl | rfl | rfl <;> omega

theorem utf8Decode_cons (b : Nat) (rest : List Nat) :
    utf8Decode (b :: rest) = utf8DecodeStep b rest := by
  rcases rest with _ | ⟨b1, _ | ⟨b2, _ | ⟨b3, rest'⟩⟩⟩ <;> rfl

theorem parseStrBody_cons (c : Char) (rest : Str) :
    parseStrBody (c :: rest) = parseStrBodyStep c rest := by
  rcases rest with _ | ⟨e, _ | ⟨k1, _ | ⟨k2, _ | ⟨k3, _ | ⟨k4, r⟩⟩⟩⟩⟩ <;> rfl

theorem utf8Decode_encodeChar (c : Char) (bs : List Nat) :
    utf8Decode (utf8EncodeChar c ++ bs) = (utf8Decode bs).map (fun s => c :: s) := by
  have hv := char_toNat_valid c
  have hlt := char_toNat_lt c
  simp only [utf8EncodeChar]
  by_cases h1 : c.toNat < 0x80
  · rw [if_pos h1, List.singleton_append, utf8Decode_cons, utf8DecodeStep.eq_def,
      if_pos h1, Char.ofNat_toNat]
  · by_cases h2 : c.toNat < 0x800
    · rw [if_neg h1, if_pos h2,
        show ([0xC0 + c.toNat / 64, 0x80 + c.toNat % 64] : List Nat) ++ bs
          = (0xC0 + c.toNat / 64) :: ((0x80 + c.toNat % 64) :: bs) from rfl,
        utf8Decode_cons, utf8DecodeStep.eq_def]
      rw [if_neg (by omega), if_neg (by omega), if_pos (by omega)]
      split
      · rename_i heq
        injection heq with hb1 hrest2
        subst hb1
        subst hrest2
        rw [if_pos (by omega), if_pos (by omega),
          show (0xC0 + c.toNat / 64 - 0xC0) * 64 + (0x80 + c.toNat % 64 - 0x80)
            = c.toNat by omega, Char.ofNat_toNat]
      · rename_i heq
        exact absurd heq (by simp)
    · by_cases h3 : c.toNat < 0x10000
      · rw [if_neg h1, if_neg h2, if_pos h3,
          show ([0xE0 + c.toNat / 4096, 0x80 + c.toNat / 64 % 64, 0x80 + c.toNat % 64]
              : List Nat) ++ bs
            = (0xE0 + c.toNat / 4096) :: ((0x80 + c.toNat / 64 % 64)
              :: ((0x80 + c.toNat % 64) :: bs)) from rfl,
          utf8Decode_cons, utf8DecodeStep.eq_def]
        rw [if_neg (by omega), if_neg (by omega), if_neg (by omega), if_pos (by omega)]
        split
        · rename_i heq
          injection heq with hb1 hrest2
          injection hrest2 with hb2 hrest3
          subst hb1
          subst hb2
          subst hrest3
          rw [if_pos (by omega),
            show (0xE0 + c.toNat / 4096 - 0xE0) * 4096
              + (0x80 + c.toNat / 64 % 64 - 0x80) * 64
              + (0x80 + c.toNat % 64 - 0x80) = c.toNat by omega,
            if_pos ⟨by omega, char_validScalar c⟩, Char.ofNat_toNat]
        · rename_i hne
          exact absurd rfl (hne _ _ _)
      · rw [if_neg h1, if_neg h2, if_neg h3,
          show ([0xF0 + c.toNat / 262144, 0x80 + c.toNat / 4096 % 64,
              0x80 + c.toNat / 64 % 64, 0x80 + c.toNat % 64] : List Nat) ++ bs
            = (0xF0 + c.toNat / 262144) :: ((0x80 + c.toNat / 4096 % 64)
              :: ((0x80 + c.toNat / 64 % 64) :: ((0x80 + c.toNat % 64) :: bs))) from rfl,
          utf8Decode_cons, utf8DecodeStep.eq_def]
        rw [if_neg (by omega), if_neg (by omega), if_neg (by omega), if_neg (by omega),
          if_pos (by omega)]
        split
        · rename_i heq
          injection heq with hb1 hrest2
          injection hrest2 with hb2 hrest3
          injection hrest3 with hb3 hrest4
          subst hb1
          subst hb2
          subst hb3
          subst hrest4
          rw [if_pos (by omega),
            show (0xF0 + c.toNat / 262144 - 0xF0) * 262144
              + (0x80 + c.toNat / 4096 % 64 - 0x80) * 4096
              + (0x80 + c.toNat / 64 % 64 - 0x80) * 64
              + (0x80 + c.toNat % 64 - 0x80) = c.toNat by omega,
            if_pos ⟨by omega, by omega⟩, Char.ofNat_toNat]
        · rename_i hne
          exact absurd rfl (hne _ _ _ _)

theorem b64Val_b64Char (v : Nat) (h : v < 64) : b64Val (b64Char v) = some v := by
  interval_cases v <;> rfl

theorem b64Char_ne_pad (v : Nat) (h : v < 64) : b64Char v ≠ '=' := by
  interval_cases v <;> decide

theorem b64_roundtrip_acc :
    ∀ n, ∀ bs : List Nat, bs.length ≤ n → (∀ b ∈ bs, b < 256) →
      b64Decode (b64Encode bs) = some bs := by
  intro n
  induction n with
  | zero =>
    intro bs hlen _
    rcases bs with _ | ⟨b0, bs⟩
    · rfl
    · exact absurd hlen (by simp)
  | succ n ih =>
    intro bs hlen hb
    rcases bs with _ | ⟨b0, _ | ⟨b1, _ | ⟨b2, rest⟩⟩⟩
    · rfl
    · have h0 : b0 < 256 := hb b0 (by simp)
      simp only [b64Encode, b64Decode, b64Val_b64Char (b0 / 4) (by omega),
        b64Val_b64Char (b0 % 4 * 16) (by omega)]
      rw [if_pos trivial, if_pos ⟨trivial, trivial⟩,
        show b0 / 4 * 4 + b0 % 4 * 16 / 16 = b0 from by omega]
    · have h0 : b0 < 256 := hb b0 (by simp)
      have h1 : b1 < 256 := hb b1 (by simp)
      simp only [b64Encode, b64Decode, b64Val_b64Char (b0 / 4) (by omega),
        b64Val_b64Char (b0 % 4 * 16 + b1 / 16) (by omega),
        b64Val_b64Char (b1 % 16 * 4) (by omega)]
      rw [if_pos trivial, if_pos trivial,
        show b0 / 4 * 4 + (b0 % 4 * 16 + b1 / 16) / 16 = b0 from by omega,
        show (b0 % 4 * 16 + b1 / 16) % 16 * 16 + b1 % 16 * 4 / 4 = b1 from by omega,
        if_neg (b64Char_ne_pad (b1 % 16 * 4) (by omega))]
    · have h0 : b0 < 256 := hb b0 (by simp)
      have h1 : b1 < 256 := hb b1 (by simp)
      have h2 : b2 < 256 := hb b2 (by simp)
      simp only [b64Encode, List.cons_append, List.nil_append, List.append_eq, b64Decode,
        b64Val_b64Char (b0 / 4) (by omega),
        b64Val_b64Char (b0 % 4 * 16 + b1 / 16) (by omega),
        b64Val_b64Char (b1 % 16 * 4 + b2 / 64) (by omega),
        b64Val_b64Char (b2 % 64) (by omega)]
      rw [ih rest (by simp at hlen ⊢; omega) (fun b hbm => hb b (by simp [hbm]))]
      simp only [Option.map_some', Option.some.injEq, List.cons.injEq]
      rw [if_neg (b64Char_ne_pad (b1 % 16 * 4 + b2 / 64) (by omega)),
        if_neg (b64Char_ne_pad (b2 % 64) (by omega)),
        show b0 / 4 * 4 + (b0 % 4 * 16 + b1 / 16) / 16 = b0 from by omega,
        show (b0 % 4 * 16 + b1 / 16) % 16 * 16 + (b1 % 16 * 4 + b2 / 64) / 4 = b1 from by omega,
        show (b1 % 16 * 4 + b2 / 64) % 4 * 64 + b2 % 64 = b2 from by omega]

theorem b64_roundtrip (bs : List Nat) (hb : ∀ b ∈ bs, b < 256) :
    b64Decode (b64Encode bs) = some bs :=
  b64_roundtrip_acc bs.length bs le_rfl hb

theorem utf8Decode_encode (s : Str) : utf8Decode (utf8Encode s) = some s := by
  induction s with
  | nil => rfl
  | cons c s ih =>
    rw [utf8Encode, List.flatMap_cons,
      show List.flatMap s utf8EncodeChar = utf8Encode s from rfl,
      utf8Decode_encodeChar, ih]
    rfl

theorem parseStrBody_u (h1 h2 h3 h4 : Char) (x1 x2 x3 x4 : Nat) (t : Str)
    (e1 : hexVal h1 = some x1) (e2 : hexVal h2 = some x2)
    (e3 : hexVal h3 = some x3) (e4 : hexVal h4 = some x4)
    (hv : validScalar (x1 * 4096 + x2 * 256 + x3 * 16 + x4) = true) :
    parseStrBody ('\\' :: 'u' :: h1 :: h2 :: h3 :: h4 :: t)
      = (parseStrBody t).map (fun r =>
          (Char.ofNat (x1 * 4096 + x2 * 256 + x3 * 16 + x4) :: r.1, r.2)) := by
  rw [parseStrBody_cons]
  simp [parseStrBodyStep.eq_def, e1, e2, e3, e4, hv]

theorem parseStrBody_escape (c : Char) (t : Str) :
    parseStrBody (escapeChar c ++ t) = (parseStrBody t).map (fun r => (c :: r.1, r.2)) := by
  rw [escapeChar]
  by_cases hq : c = '"'
  · rw [if_pos hq]; subst hq
    rw [show (['\\', '"'] : Str) ++ t = '\\' :: ('"' :: t) from rfl, parseStrBody_cons]
    simp [parseStrBodyStep.eq_def, unescapeChar]
  rw [if_neg hq]
  by_cases hb : c = '\\'
  · rw [if_pos hb]; subst hb
    rw [show (['\\', '\\'] : Str) ++ t = '\\' :: ('\\' :: t) from rfl, parseStrBody_cons]
    simp [parseStrBodyStep.eq_def, unescapeChar]
  rw [if_neg hb]
  by_cases hn : c = '\n'
  · rw [if_pos hn]; subst hn
    rw [show (['\\', 'n'] : Str) ++ t = '\\' :: ('n' :: t) from rfl, parseStrBody_cons]
    simp [parseStrBodyStep.eq_def, unescapeChar]
  rw [if_neg hn]
  by_cases hr : c = '\r'
  · rw [if_pos hr]; subst hr
    rw [show (['\\', 'r'] : Str) ++ t = '\\' :: ('r' :: t) from rfl, parseStrBody_cons]
    simp [parseStrBodyStep.eq_def, unescapeChar]
  rw [if_neg hr]
  by_cases ht : c = '\t'
  · rw [if_pos ht]; subst ht
    rw [show (['\\', 't'] : Str) ++ t = '\\' :: ('t' :: t) from rfl, parseStrBody_cons]
    simp [parseStrBodyStep.eq_def, unescapeChar]
  rw [if_neg ht]
  by_cases hl : c = '<'
  · rw [if_pos hl]; subst hl
    rw [show "\\u003c".toList ++ t = '\\' :: 'u' :: '0' :: '0' :: '3' :: 'c' :: t from rfl,
      parseStrBody_u '0' '0' '3' 'c' 0 0 3 12 t rfl rfl rfl rfl rfl,
      show Char.ofNat (0 * 4096 + 0 * 256 + 3 * 16 + 12) = '<' from rfl]
  rw [if_neg hl]
  by_cases hg : c = '>'
  · rw [if_pos hg]; subst hg
    rw [show "\\u003e".toList ++ t = '\\' :: 'u' :: '0' :: '0' :: '3' :: 'e' :: t from rfl,
      parseStrBody_u '0' '0' '3' 'e' 0 0 3 14 t rfl rfl rfl rfl rfl,
      show Char.ofNat (0 * 4096 + 0 * 256 + 3 * 16 + 14) = '>' from rfl]
  rw [if_neg hg]
  by_cases ha : c = '&'
  · rw [if_pos ha]; subst ha
    rw [show "\\u0026".toList ++ t = '\\' :: 'u' :: '0' :: '0' :: '2' :: '6' :: t from rfl,
      parseStrBody_u '0' '0' '2' '6' 0 0 2 6 t rfl rfl rfl rfl rfl,
      show Char.ofNat (0 * 4096 + 0 * 256 + 2 * 16 + 6) = '&' from rfl]
  rw [if_neg ha]
  by_cases hs1 : c = Char.ofNat 0x2028
  · rw [if_pos hs1]; subst hs1
    rw [show "\\u2028".toList ++ t = '\\' :: 'u' :: '2' :: '0' :: '2' :: '8' :: t from rfl,
      parseStrBody_u '2' '0' '2' '8' 2 0 2 8 t rfl rfl rfl rfl rfl,
      show Char.ofNat (2 * 4096 + 0 * 256 + 2 * 16 + 8) = Char.ofNat 0x2028 from rfl]
  rw [if_neg hs1]
  by_cases hs2 : c = Char.ofNat 0x2029
  · rw [if_pos hs2]; subst hs2
    rw [show "\\u2029".toList ++ t = '\\' :: 'u' :: '2' :: '0' :: '2' :: '9' :: t from rfl,
      parseStrBody_u '2' '0' '2' '9' 2 0 2 9 t rfl rfl rfl rfl rfl,
      show Char.ofNat (2 * 4096 + 0 * 256 + 2 * 16 + 9) = Char.ofNat 0x2029 from rfl]
  rw [if_neg hs2]
  by_cases hc : c.toNat < 0x20
  · rw [if_pos hc,
      show ("\\u00".toList ++ [Nat.digitChar (c.toNat / 16), Nat.digitChar (c.toNat % 16)]) ++ t
        = '\\' :: 'u' :: '0' :: '0' :: Nat.digitChar (c.toNat / 16)
          :: Nat.digitChar (c.toNat % 16) :: t from rfl,
      parseStrBody_u '0' '0' (Nat.digitChar (c.toNat / 16)) (Nat.digitChar (c.toNat % 16))
        0 0 (c.toNat / 16) (c.toNat % 16) t rfl rfl
        (hexVal_digitChar (by omega)) (hexVal_digitChar (by omega))
        (by simp only [validScalar, Bool.or_eq_true, decide_eq_true_eq]; left; omega),
      show 0 * 4096 + 0 * 256 + c.toNat / 16 * 16 + c.toNat % 16 = c.toNat from by omega,
      Char.ofNat_toNat]
  · rw [if_neg hc, List.singleton_append, parseStrBody_cons, parseStrBodyStep.eq_def,
      if_neg hq, if_neg hb]

theorem parseStrBody_printed (s t : Str) :
    parseStrBody (s.flatMap escapeChar ++ '"' :: t) = some (s, t) := by
  induction s with
  | nil =>
    rw [List.flatMap_nil, List.nil_append, parseStrBody_cons, parseStrBodyStep.eq_def,
      if_pos rfl]
  | cons c s ih =>
    rw [List.flatMap_cons, List.append_assoc, parseStrBody_escape, ih, Option.map_some']

theorem takeWhile_isDigit_nil (Y : Str) (hY : ∀ c, Y.head? = some c → ¬ c.isDigit) :
    Y.takeWhile Char.isDigit = [] := by
  cases Y with
  | nil => rfl
  | cons c Y' => rw [List.takeWhile_cons, if_neg (hY c rfl)]

theorem dropWhile_isDigit_id (Y : Str) (hY : ∀ c, Y.head? = some c → ¬ c.isDigit) :
    Y.dropWhile Char.isDigit = Y := by
  cases Y with
  | nil => rfl
  | cons c Y' => rw [List.dropWhile_cons, if_neg (hY c rfl)]

theorem parseNumber_natChars (n : Nat) (rest : Str)
    (hrest : ∀ c, rest.head? = some c →
      ¬ c.isDigit ∧ c ≠ '.' ∧ ¬(c = 'e' ∨ c = 'E')) :
    parseNumber (natChars n ++ rest) = some ((n : ℚ), rest) := by
  obtain ⟨d, ds, hds⟩ : ∃ d ds, natChars n = d :: ds := by
    cases hnc : natChars n with
    | nil => exact absurd hnc (natChars_ne_nil n)
    | cons d ds => exact ⟨d, ds, rfl⟩
  have hd : d.isDigit := mem_natChars_digit n d (hds ▸ List.mem_cons_self _ _)
  have htw : (natChars n ++ rest).takeWhile Char.isDigit = natChars n := by
    rw [takeWhile_all_append Char.isDigit _ _ (fun c hc => mem_natChars_digit n c hc),
      takeWhile_isDigit_nil rest (fun c hc => (hrest c hc).1), List.append_nil]
  have hdw : (natChars n ++ rest).dropWhile Char.isDigit = rest := by
    rw [dropWhile_all_append Char.isDigit _ _ (fun c hc => mem_natChars_digit n c hc),
      dropWhile_isDigit_id rest (fun c hc => (hrest c hc).1)]
  rw [parseNumber]
  · rw [htw, hdw, if_neg (by rw [hds]; simp)]
    simp only [digitsVal_natChars]
    rcases rest with _ | ⟨c, r⟩
    · simp
    · obtain ⟨hc1, hc2, hc3⟩ := hrest c rfl
      split
      · rename_i heq
        split at heq
        · rename_i r2 h
          injection h with h1 _
          exact absurd h1 hc2
        · exact absurd heq (by simp)
      · rename_i q' rest3 heq
        split at heq
        · rename_i r2 h
          injection h with h1 _
          exact absurd h1 hc2
        · rw [Option.some.injEq, Prod.mk.injEq] at heq
          obtain ⟨hq, hr3⟩ := heq
          subst hq
          subst hr3
          simp [hc3]
  · intro r hr
    rw [hds, List.cons_append] at hr
    injection hr with h1 _
    subst h1
    exact absurd hd (by decide)

theorem parseNumber_intChars (n : Int) (rest : Str)
    (hrest : ∀ c, rest.head? = some c →
      ¬ c.isDigit ∧ c ≠ '.' ∧ ¬(c = 'e' ∨ c = 'E')) :
    parseNumber (intChars n ++ rest) = some ((n : ℚ), rest) := by
  rw [intChars]
  by_cases hn : n < 0
  · rw [if_pos hn, List.cons_append, parseNumber]
    obtain ⟨d, ds, hds⟩ : ∃ d ds, natChars n.natAbs = d :: ds := by
      cases hnc : natChars n.natAbs with
      | nil => exact absurd hnc (natChars_ne_nil n.natAbs)
      | cons d ds => exact ⟨d, ds, rfl⟩
    have htw : (natChars n.natAbs ++ rest).takeWhile Char.isDigit = natChars n.natAbs := by
      rw [takeWhile_all_append Char.isDigit _ _ (fun c hc => mem_natChars_digit n.natAbs c hc),
        takeWhile_isDigit_nil rest (fun c hc => (hrest c hc).1), List.append_nil]
    have hdw : (natChars n.natAbs ++ rest).dropWhile Char.isDigit = rest := by
      rw [dropWhile_all_append Char.isDigit _ _ (fun c hc => mem_natChars_digit n.natAbs c hc),
        dropWhile_isDigit_id rest (fun c hc => (hrest c hc).1)]
    rw [htw, hdw, if_neg (by rw [hds]; simp)]
    simp only [digitsVal_natChars]
    have hcast : (-(n.natAbs : ℚ)) = (n : ℚ) := by
      rw [Int.cast_natAbs, abs_of_neg hn, Int.cast_neg, neg_neg]
    rcases rest with _ | ⟨c, r⟩
    · simp [hcast]
    · obtain ⟨hc1, hc2, hc3⟩ := hrest c rfl
      split
      · rename_i heq
        split at heq
        · rename_i r2 h
          injection h with h1 _
          exact absurd h1 hc2
        · exact absurd heq (by simp)
      · rename_i q' rest3 heq
        split at heq
        · rename_i r2 h
          injection h with h1 _
          exact absurd h1 hc2
        · rw [Option.some.injEq, Prod.mk.injEq] at heq
          obtain ⟨hq, hr3⟩ := heq
          subst hq
          subst hr3
          simp [hc3, hcast]
  · rw [if_neg hn, parseNumber_natChars n.toNat rest hrest,
      show ((n.toNat : ℚ)) = (n : ℚ) from by
        exact_mod_cast congrArg (Int.cast : ℤ → ℚ) (Int.toNat_of_nonneg (not_lt.mp hn))]

theorem intChars_head (n : Int) :
    ∃ d ds, intChars n = d :: ds ∧ (d = '-' ∨ d.isDigit = true) := by
  rw [intChars]
  split
  · exact ⟨'-', natChars n.natAbs, rfl, Or.inl rfl⟩
  · cases hnc : natChars n.toNat with
    | nil => exact absurd hnc (natChars_ne_nil n.toNat)
    | cons d ds =>
      exact ⟨d, ds, rfl, Or.inr (mem_natChars_digit n.toNat d
        (hnc ▸ List.mem_cons_self _ _))⟩

theorem parseVal_intChars (n : Int) (rest : Str)
    (hrest : ∀ c, rest.head? = some c →
      ¬ c.isDigit ∧ c ≠ '.' ∧ ¬(c = 'e' ∨ c = 'E')) :
    parseVal (intChars n ++ rest) = some (.goFloat (n : ℚ), rest) := by
  obtain ⟨d, ds, hds, hdor⟩ := intChars_head n
  have hd45 : 45 ≤ d.toNat ∧ d.toNat ≤ 57 := by
    rcases hdor with h | h
    · subst h
      exact ⟨by decide, by decide⟩
    · have := digit_toNat_range h
      omega
  rw [hds, List.cons_append]
  simp only [parseVal]
  rw [skipWs_cons_range d (ds ++ rest) (by omega)]
  simp only []
  rw [if_neg (by intro h; rw [h] at hd45; exact absurd hd45 (by decide)),
    if_neg (by intro h; rw [h] at hd45; exact absurd hd45 (by decide)),
    if_neg (by intro h; rw [h] at hd45; exact absurd hd45 (by decide)),
    if_neg (by intro h; rw [h] at hd45; exact absurd hd45 (by decide)),
    ← List.cons_append, ← hds, parseNumber_intChars n rest hrest, Option.map_some']

theorem parseVal_printed (v : GoVal) (hok : scalarOK v) (rest : Str)
    (hrest : ∀ c, rest.head? = some c →
      ¬ c.isDigit ∧ c ≠ '.' ∧ ¬(c = 'e' ∨ c = 'E')) :
    parseVal (printGoVal v ++ rest) = some (jsonRoundVal v, rest) := by
  cases v with
  | goStr s =>
    rw [show printGoVal (.goStr s) ++ rest
        = '"' :: (s.flatMap escapeChar ++ '"' :: rest) from by
      simp [printGoVal, List.append_assoc]]
    simp only [parseVal]
    rw [skipWs_cons_range '"' _ (by decide)]
    simp [parseStrBody_printed, jsonRoundVal]
  | goInt n =>
    simp only [printGoVal, jsonRoundVal]
    exact parseVal_intChars n rest hrest
  | goBool b =>
    cases b with
    | true =>
      rw [show printGoVal (.goBool true) ++ rest = 't' :: 'r' :: 'u' :: 'e' :: rest from rfl]
      simp only [parseVal]
      rw [skipWs_cons_range 't' _ (by decide)]
      simp [jsonRoundVal]
    | false =>
      rw [show printGoVal (.goBool false) ++ rest
        = 'f' :: 'a' :: 'l' :: 's' :: 'e' :: rest from rfl]
      simp only [parseVal]
      rw [skipWs_cons_range 'f' _ (by decide)]
      simp [jsonRoundVal]
  | goNull =>
    rw [show printGoVal .goNull ++ rest = 'n' :: 'u' :: 'l' :: 'l' :: rest from rfl]
    simp only [parseVal]
    rw [skipWs_cons_range 'n' _ (by decide)]
    simp [jsonRoundVal]
  | goFloat q =>
    have hden : q.den = 1 := hok
    simp only [printGoVal, jsonRoundVal]
    rw [if_pos hden, parseVal_intChars q.num rest hrest,
      Rat.coe_int_num_of_den_eq_one hden]

theorem parseEntries_printed (entries : List (Str × GoVal)) :
    ∀ (fuel : Nat) (t : Str), (∀ e ∈ entries, scalarOK e.2) → entries.length < fuel →
    parseEntries fuel (joinWithSep [','] (entries.map printEntry) ++ rbrace :: t)
      = some (entries.map (fun e => (e.1, jsonRoundVal e.2)), t) := by
  induction entries with
  | nil =>
    intro fuel t _ hfuel
    cases fuel with
    | zero => omega
    | succ f =>
      rw [show joinWithSep [','] (List.map printEntry []) ++ rbrace :: t
          = rbrace :: t from by simp [joinWithSep]]
      simp only [parseEntries]
      rw [skipWs_cons_range rbrace t (by decide)]
      simp only []
      rw [if_pos trivial]
      rfl
  | cons e tail ih =>
    obtain ⟨k, v⟩ := e
    intro fuel t hok hfuel
    cases fuel with
    | zero => omega
    | succ f =>
      cases tail with
      | nil =>
        rw [show joinWithSep [','] (List.map printEntry [(k, v)]) ++ rbrace :: t
            = '"' :: (k.flatMap escapeChar
              ++ '"' :: (':' :: (printGoVal v ++ rbrace :: t))) from by
          simp [joinWithSep, printEntry, List.append_assoc]]
        simp only [parseEntries]
        rw [skipWs_cons_range '"' _ (by decide)]
        simp only []
        rw [if_pos trivial,
          parseStrBody_printed k (':' :: (printGoVal v ++ rbrace :: t))]
        simp only []
        rw [skipWs_cons_range ':' _ (by decide)]
        simp only []
        rw [parseVal_printed v (hok (k, v) (by simp)) (rbrace :: t)
          (by intro c hc; injection hc with hc; subst hc
              exact ⟨by decide, by decide, by decide⟩)]
        simp only []
        rw [skipWs_cons_range rbrace t (by decide)]
        rw [if_neg (show ('"' : Char) = rbrace → False by decide)]
        rfl
      | cons e2 r =>
        rw [show joinWithSep [','] (List.map printEntry ((k, v) :: e2 :: r)) ++ rbrace :: t
            = '"' :: (k.flatMap escapeChar ++ '"' :: (':' :: (printGoVal v
              ++ ',' :: (joinWithSep [','] (List.map printEntry (e2 :: r))
                ++ rbrace :: t)))) from by
          simp [joinWithSep, printEntry, List.append_assoc]]
        simp only [parseEntries]
        rw [skipWs_cons_range '"' _ (by decide)]
        simp only []
        rw [if_pos trivial,
          parseStrBody_printed k (':' :: (printGoVal v
            ++ ',' :: (joinWithSep [','] (List.map printEntry (e2 :: r)) ++ rbrace :: t)))]
        simp only []
        rw [skipWs_cons_range ':' _ (by decide)]
        simp only []
        rw [parseVal_printed v (hok (k, v) (by simp))
          (',' :: (joinWithSep [','] (List.map printEntry (e2 :: r)) ++ rbrace :: t))
          (by intro c hc; injection hc with hc; subst hc
              exact ⟨by decide, by decide, by decide⟩)]
        simp only []
        rw [skipWs_cons_range ','
          (joinWithSep [','] (List.map printEntry (e2 :: r)) ++ rbrace :: t) (by decide)]
        simp only []
        rw [ih f t (fun x hx => hok x (List.mem_cons_of_mem _ hx)) (by simp at hfuel ⊢; omega)]
        rfl

theorem joinWithSep_entries_len (es : List (Str × GoVal)) :
    es.length ≤ (joinWithSep [','] (es.map printEntry)).length + 1 := by
  induction es with
  | nil => simp [joinWithSep]
  | cons e tail ih =>
    cases tail with
    | nil => simp [joinWithSep]
    | cons e2 r =>
      rw [List.map_cons, List.map_cons, joinWithSep]
      rw [List.map_cons] at ih
      simp only [List.length_append, List.length_cons] at ih ⊢
      omega

theorem parseCursor_printed (c : Cursor)
    (hvals : ∀ e ∈ c.Values, scalarOK e.2) :
    parseCursor (cursorJSON c)
      = some ⟨(c.Values.insertionSort (fun a b => strLeb a.1 b.1)).map
          (fun e => (e.1, jsonRoundVal e.2))⟩ := by
  have hsok : ∀ e ∈ c.Values.insertionSort (fun a b => strLeb a.1 b.1), scalarOK e.2 :=
    fun e he => hvals e ((List.perm_insertionSort _ _).subset he)
  set S := c.Values.insertionSort (fun a b => strLeb a.1 b.1) with hS
  set J := joinWithSep [','] (S.map printEntry) with hJ
  rw [show cursorJSON c
      = lbrace :: ('"' :: ('v' :: ('"' :: (':' :: (lbrace :: (J ++ rbrace :: [rbrace]))))))
    from by rw [cursorJSON, printObj, ← hS, ← hJ]; simp [List.append_assoc]]
  rw [parseCursor]
  rw [skipWs_cons_range lbrace _ (by decide)]
  simp only []
  first
  | rw [if_pos rfl]
  | rw [if_pos trivial]
  rw [skipWs_cons_range '"' _ (by decide)]
  simp only []
  rw [show ('v' :: ('"' :: (':' :: (lbrace :: (J ++ rbrace :: [rbrace])))))
      = (['v'].flatMap escapeChar ++ '"' :: (':' :: (lbrace :: (J ++ rbrace :: [rbrace]))))
    from rfl]
  rw [parseStrBody_printed ['v'] (':' :: (lbrace :: (J ++ rbrace :: [rbrace])))]
  simp only []
  first
  | rw [if_pos rfl]
  | rw [if_pos trivial]
  rw [skipWs_cons_range ':' _ (by decide)]
  simp only []
  rw [skipWs_cons_range lbrace _ (by decide)]
  simp only []
  first
  | rw [if_pos rfl]
  | rw [if_pos trivial]
  rw [parseEntries_printed S ((J ++ rbrace :: [rbrace]).length + 1) [rbrace] hsok
    (by have := joinWithSep_entries_len S; rw [← hJ] at this; simp; omega)]
  simp only []
  rw [skipWs_cons_range rbrace [] (by decide)]
  simp only []
  rw [if_pos (show True ∧ skipWs ([] : Str) = [] from ⟨trivial, rfl⟩)]

theorem utf8Encode_lt (s : Str) : ∀ b ∈ utf8Encode s, b < 256 := by
  intro b hb
  rw [utf8Encode, List.mem_flatMap] at hb
  obtain ⟨c, _, hc⟩ := hb
  exact utf8EncodeChar_lt c b hc

theorem decode_encode (c : Cursor) (hvals : ∀ e ∈ c.Values, scalarOK e.2) :
    DecodeCursor (EncodeCursor c)
      = .ok ⟨(c.Values.insertionSort (fun a b => strLeb a.1 b.1)).map
          (fun e => (e.1, jsonRoundVal e.2))⟩ := by
  rw [EncodeCursor, DecodeCursor, b64_roundtrip _ (utf8Encode_lt (cursorJSON c))]
  simp only []
  rw [utf8Decode_encode]
  simp only []
  rw [parseCursor_printed c hvals]

/-- C6 counterexample: a cursor holding the integer value 100 under key
"id" does not round-trip: Go's `json.Unmarshal` into `map[string]any`
decodes every JSON number as `float64`, so `DecodeCursor (EncodeCursor c)`
returns the value as a float, not the original `int64`. -/
theorem cursor_roundtrip_counterexample :
    DecodeCursor (EncodeCursor ⟨[("id".toList, GoVal.goInt 100)]⟩)
      ≠ Except.ok ⟨[("id".toList, GoVal.goInt 100)]⟩ := by
  rw [decode_encode ⟨[("id".toList, GoVal.goInt 100)]⟩
    (by intro e he; rw [List.mem_singleton] at he; rw [he]; exact trivial)]
  intro h
  injection h with h
  have h2 := congrArg Cursor.Values h
  simp only [] at h2
  injection h2 with h3 _
  injection h3 with _ h4
  exact GoVal.noConfusion h4

/-- C6 (amended): for every cursor whose values are JSON-representable
scalars (strings, booleans, null, integral numbers), the wire round trip
succeeds and returns the cursor's map with its keys in `json.Marshal`'s
sorted order and every integer value decoded back as the equal `float64`
(`json.Unmarshal` into `any` yields `float64` for every JSON number);
only cursors without integer values round-trip to an identical value. -/
theorem cursor_roundtrip_amended (c : Cursor)
    (hvals : ∀ e ∈ c.Values, scalarOK e.2) :
    DecodeCursor (EncodeCursor c)
      = .ok ⟨(c.Values.insertionSort (fun a b => strLeb a.1 b.1)).map
          (fun e => (e.1, jsonRoundVal e.2))⟩ :=
  decode_encode c hvals

theorem cursor_roundtrip_amended_witness :
    DecodeCursor (EncodeCursor ⟨[("b".toList, GoVal.goStr "x".toList),
        ("a".toList, GoVal.goInt 5)]⟩)
      = Except.ok ⟨[("a".toList, GoVal.goFloat 5),
          ("b".toList, GoVal.goStr "x".toList)]⟩ := by
  rw [cursor_roundtrip_amended ⟨[("b".toList, GoVal.goStr "x".toList),
      ("a".toList, GoVal.goInt 5)]⟩
    (by intro e he
        rcases List.mem_cons.mp he with h | h
        · rw [h]; exact trivial
        · rw [List.mem_singleton] at h; rw [h]; exact trivial)]
  rfl

end RepoVerify
